import Mathlib

/-!
# dropbox-lite: chunker, rolling hash and delta engine

A shallow embedding of `src/common/hash.cpp`, `src/common/chunker.cpp` and
`src/core/delta_engine.cpp`.

Conventions.
* A byte (`uint8_t`) is a `Fin 256`; a byte vector is a `List Byte`.
* `uint64_t` arithmetic is arithmetic on `Nat` reduced modulo `2 ^ 64`
  after every operation (`u64add`, `u64sub`, `u64mul`).
* `size_t` indices inside `chunkData` never exceed `data.size()`, which is
  itself a `size_t`, so they are plain `Nat`s.
* `SHA256` comes from OpenSSL, not from this repository: every function
  that digests takes the digest function as its first argument.
-/

namespace DropboxLite

/-- One `uint8_t`. -/
abbrev Byte := Fin 256

/-- Modulus of `uint64_t` and of `size_t`. -/
def U64 : Nat := 2 ^ 64

/-- Wrapping `uint64_t` addition. -/
def u64add (a b : Nat) : Nat := (a + b) % U64

/-- Wrapping `uint64_t` subtraction (operands already reduced). -/
def u64sub (a b : Nat) : Nat := (a + U64 - b) % U64

/-- Wrapping `uint64_t` multiplication. -/
def u64mul (a b : Nat) : Nat := (a * b) % U64

/-! ## Definitions: C strings, paths and doubles

The source hands its strings to SQLite and to the file system as C strings,
and it hands paths to the operating system, which skips empty pieces and the
piece `.` and climbs at the piece `..`. The definitions of this section say
which strings reach their destination whole, which strings name a file
without such pieces, and which file a path leads to. The last three
definitions give the value of `static_cast<double>` and of a division of
`double`s.
-/

/-- The character NUL, at which a C string ends. -/
def NUL : Char := Char.ofNat 0

/-- Whether a string holds no NUL, so that the C string behind `c_str()` is
the whole string. -/
def nulFree (s : String) : Bool := s.data.all (fun c => c != NUL)

/-- Whether a string can name one entry of a directory: between 1 and 255
bytes, no NUL, no slash, and not one of the names `.` and `..`. -/
def plainName (s : String) : Bool :=
  decide (1 ≤ s.utf8ByteSize) && decide (s.utf8ByteSize ≤ 255) &&
    s.data.all (fun c => c != NUL && c != '/') && s != "." && s != ".."

/-- Whether a string is made of 1 to 255 of the characters `0`-`9`, `a`-`f`. -/
def hexDigest (s : String) : Bool :=
  decide (1 ≤ s.length) && decide (s.length ≤ 255) &&
    s.data.all (fun c => "0123456789abcdef".data.contains c)

/-- The pieces of a path between its slashes. -/
def splitSlash : List Char → List (List Char)
  | [] => [[]]
  | c :: cs =>
    if c = '/' then [] :: splitSlash cs
    else
      match splitSlash cs with
      | [] => [[c]]
      | piece :: pieces => (c :: piece) :: pieces

/-- Whether a string is a normalized relative path: every piece between
slashes is a plain name, so that no piece is empty, `.` or `..`. -/
def normalPath (s : String) : Bool :=
  (splitSlash s.data).all (fun piece => plainName (String.mk piece))

/-- Whether a string can name a staged file right in the directory of a
client: a plain name that does not begin with `metadata.db`, the name of the
database file and the start of the names of the files that SQLite keeps
beside it. -/
def fileName (s : String) : Bool :=
  plainName s && !("metadata.db".data.isPrefixOf s.data)

/-- The names in a sequence of characters read as a path: the pieces between
slashes, without the empty pieces and the pieces `.`, both of which the
operating system skips. -/
def components (cs : List Char) : List String :=
  ((splitSlash cs).filter (fun piece => !piece.isEmpty && piece != ['.'])).map String.mk

/-- The names that the operating system walks through when it resolves a path. -/
def pathComponents (path : String) : List String := components path.data

/-- One step of resolving a path: the name `..` leaves the directory reached
by the names so far, any other name enters. -/
def resolveStep (reached : List String) (name : String) : List String :=
  if name = ".." then
    if reached = [] ∨ reached.getLast? = some ".." then reached ++ [".."] else reached.dropLast
  else reached ++ [name]

/-- The names that lead to the file a path stands for, with no symbolic links
on the way: two paths read from the same directory that resolve to the same
names stand for the same file. -/
def resolvePath (path : String) : List String :=
  (pathComponents path).foldl resolveStep []

/-- The integer nearest to `n / d`, the even one of the two when `n / d` lies
half way between two integers. -/
def roundHalfEven (n d : Nat) : Nat :=
  if 2 * (n % d) < d then n / d
  else if d < 2 * (n % d) then n / d + 1
  else if n / d % 2 = 0 then n / d
  else n / d + 1

/-- The power of two by which `n / d` is scaled into `[2 ^ 52, 2 ^ 53)`. -/
def scale53 (n d : Nat) : Int :=
  let k0 : Int := 52 - (Nat.log2 n : Int) + (Nat.log2 d : Int)
  if n * 2 ^ k0.toNat < 2 ^ 52 * (d * 2 ^ (-k0).toNat) then k0 + 1 else k0

/-- The value of the `double` nearest to a rational `q > 0`, ties going to
the even mantissa (0 for `q ≤ 0`): `q` is scaled by a power of two into
`[2 ^ 52, 2 ^ 53)`, rounded to an integer and scaled back. This is the
rounding of IEEE 754 for results between `2 ^ -1022` and `2 ^ 1024`. -/
def toDouble (q : ℚ) : ℚ :=
  if q ≤ 0 then 0
  else
    (roundHalfEven (q.num.toNat * 2 ^ (scale53 q.num.toNat q.den).toNat)
        (q.den * 2 ^ (-(scale53 q.num.toNat q.den)).toNat) : ℚ)
      * (2 : ℚ) ^ (-(scale53 q.num.toNat q.den))

/-- The `ChunkInfo` record of `chunker.h`. -/
structure ChunkInfo where
  offset : Nat
  size : Nat
  hash : String
deriving DecidableEq, Repr

namespace Hash

/-- The constant `kPrime` of `RollingHash`. -/
def kPrime : Nat := 31

/-- The constant `kMod` of `RollingHash`: `1e9 + 9` converted to `uint64_t`. -/
def kMod : Nat := 1000000009

/-- The fields of `Hash::RollingHash`. -/
structure RollingHash where
  window_size_ : Nat
  hash_ : Nat
  power_ : Nat
deriving DecidableEq, Repr

namespace RollingHash

/-- One pass of the constructor loop: `power_ = (power_ * kPrime) % kMod`. -/
def powerStep (p : Nat) : Nat := u64mul p kPrime % kMod

/-- The constructor `RollingHash(window_size)`: the loop runs while
`i < window_size_ - 1`, the subtraction being a wrapping `size_t` one. -/
def new (window_size : Nat) : RollingHash :=
  { window_size_ := window_size
    hash_ := 0
    power_ := Nat.iterate powerStep (u64sub window_size 1) 1 }

/-- The method `reset()`. -/
def reset (r : RollingHash) : RollingHash := { r with hash_ := 0 }

/-- The accessor `hash()`. -/
def hash (r : RollingHash) : Nat := r.hash_

/-- The method `update(byte_in, byte_out)`. -/
def update (r : RollingHash) (byte_in byte_out : Byte) : RollingHash :=
  let h1 := u64sub (u64add r.hash_ kMod) (u64mul byte_out.val r.power_ % kMod) % kMod
  { r with hash_ := u64add (u64mul h1 kPrime) byte_in.val % kMod }

/-- The method `append(byte)`. -/
def append (r : RollingHash) (byte : Byte) : RollingHash :=
  { r with hash_ := u64add (u64mul r.hash_ kPrime) byte.val % kMod }

/-- Feeding a run of bytes through `append`, first byte first. -/
def appendAll (r : RollingHash) (bs : List Byte) : RollingHash :=
  bs.foldl append r

/-- The plain polynomial `b₀·31ⁿ⁻¹ + … + bₙ₋₁` of a run of bytes, started from `h`. -/
def polyFrom (h : Nat) (bs : List Byte) : Nat :=
  bs.foldl (fun acc b => acc * kPrime + b.val) h

/-- The operations a caller can apply to a `RollingHash` object. -/
inductive Op where
  | reset : Op
  | append : Byte → Op
  | update : Byte → Byte → Op
deriving DecidableEq

/-- Applying one operation. -/
def step (r : RollingHash) : Op → RollingHash
  | Op.reset => r.reset
  | Op.append b => r.append b
  | Op.update b_in b_out => r.update b_in b_out

/-- Applying a sequence of operations, first one first. -/
def run (r : RollingHash) (ops : List Op) : RollingHash :=
  ops.foldl step r

end RollingHash

end Hash

namespace Chunker

/-- The constant `kMinChunkSize` (4 KiB). -/
def kMinChunkSize : Nat := 4 * 1024

/-- The constant `kAvgChunkSize` (64 KiB). -/
def kAvgChunkSize : Nat := 64 * 1024

/-- The constant `kMaxChunkSize` (1 MiB). -/
def kMaxChunkSize : Nat := 1024 * 1024

/-- The constant `kMaskBits`. -/
def kMaskBits : Nat := 16

/-- The constant `kMask = (1ULL << kMaskBits) - 1`. -/
def kMask : Nat := u64sub (1 <<< kMaskBits % U64) 1

/-- The local `normalized_chunk_size` of `chunkData`. -/
def normalized_chunk_size : Nat := kMinChunkSize + (kAvgChunkSize - kMinChunkSize) / 2

/-- The record `Chunker::ChunkStats`; the `double` average is kept as the
rational value of the `double`. -/
structure ChunkStats where
  total_chunks : Nat
  min_size : Nat
  max_size : Nat
  avg_size : ℚ
deriving DecidableEq

/-- The local variables of `chunkData` that live across loop iterations. -/
structure LoopState where
  rolling_hash : Hash.RollingHash
  chunk_start : Nat
  min_size : Nat
  max_size : Nat
  total_size : Nat
  chunks : List ChunkInfo

/-- The locals as they stand before the first iteration. -/
def loopInit : LoopState :=
  { rolling_hash := Hash.RollingHash.new 48
    chunk_start := 0
    min_size := 0
    max_size := 0
    total_size := 0
    chunks := [] }

/-- The bytes `data[lo .. hi)`, as copied by the range constructor
`vector(data.begin() + lo, data.begin() + hi)`. -/
def slice (data : List Byte) (lo hi : Nat) : List Byte :=
  (data.take hi).drop lo

/-- The value of `is_boundary` in iteration `i`, given the hash after the
append and the current `chunk_size`. -/
def isBoundary (h chunk_size : Nat) : Bool :=
  if kMinChunkSize ≤ chunk_size ∧ chunk_size < normalized_chunk_size then
    h &&& (kMask >>> 1) == 0
  else if normalized_chunk_size ≤ chunk_size then
    h &&& kMask == 0
  else
    false

/-- The condition `is_boundary || max_size_reached || is_last_byte` of
iteration `i`. -/
def cutCond (len : Nat) (h chunk_size i : Nat) : Bool :=
  isBoundary h chunk_size || decide (kMaxChunkSize ≤ chunk_size) || decide (i = len - 1)

/-- One iteration of the `for` loop of `chunkData`, for index `i`. -/
def loopBody (sha256 : List Byte → String) (data : List Byte) (st : LoopState) (i : Nat) :
    LoopState :=
  let rh := st.rolling_hash.append (data.getD i 0)
  let chunk_size := i + 1 - st.chunk_start
  if cutCond data.length rh.hash chunk_size i then
    let chunk_data := slice data st.chunk_start (i + 1)
    let chunk : ChunkInfo :=
      { offset := st.chunk_start
        size := chunk_data.length
        hash := sha256 chunk_data }
    { rolling_hash := rh.reset
      chunk_start := i + 1
      min_size := if st.min_size = 0 ∨ chunk.size < st.min_size then chunk.size else st.min_size
      max_size := if chunk.size > st.max_size then chunk.size else st.max_size
      total_size := st.total_size + chunk.size
      chunks := st.chunks ++ [chunk] }
  else
    { st with rolling_hash := rh }

/-- The locals after the iterations for indices `0 .. n - 1`. -/
def loopAt (sha256 : List Byte → String) (data : List Byte) : Nat → LoopState
  | 0 => loopInit
  | n + 1 => loopBody sha256 data (loopAt sha256 data n) n

/-- The member function `chunkData`: the returned chunks together with the
statistics stored in `last_stats_`. The average is the quotient of two
`double`s: `total_size` and `chunks.size()` are each converted to `double`
and the division is rounded once more. -/
def chunkDataRun (sha256 : List Byte → String) (data : List Byte) :
    List ChunkInfo × ChunkStats :=
  if data.isEmpty then
    ([], { total_chunks := 0, min_size := 0, max_size := 0, avg_size := 0 })
  else
    let st := loopAt sha256 data data.length
    (st.chunks,
      { total_chunks := st.chunks.length
        min_size := st.min_size
        max_size := st.max_size
        avg_size :=
          if st.chunks.isEmpty then 0
          else toDouble (toDouble st.total_size / toDouble st.chunks.length) })

/-- The vector returned by `chunkData`. -/
def chunkData (sha256 : List Byte → String) (data : List Byte) : List ChunkInfo :=
  (chunkDataRun sha256 data).1

/-- The value of `rolling_hash.hash()` that iteration `i` tests against the
mask: the hash right after `rolling_hash.append(data[i])`. -/
def testedHash (sha256 : List Byte → String) (data : List Byte) (i : Nat) : Nat :=
  ((loopAt sha256 data i).rolling_hash.append (data.getD i 0)).hash

/-- Whether iteration `i` takes the branch that emits a chunk. -/
def cutAt (sha256 : List Byte → String) (data : List Byte) (i : Nat) : Bool :=
  cutCond data.length (testedHash sha256 data i)
    (i + 1 - (loopAt sha256 data i).chunk_start) i

/-- The chunk that iteration `i` emits when it cuts. -/
def chunkOf (sha256 : List Byte → String) (data : List Byte) (i : Nat) : ChunkInfo :=
  { offset := (loopAt sha256 data i).chunk_start
    size := (slice data (loopAt sha256 data i).chunk_start (i + 1)).length
    hash := sha256 (slice data (loopAt sha256 data i).chunk_start (i + 1)) }

/-- Whether the hashes `h, 31·h mod M, 31²·h mod M, …` (`n` of them) all have
a nonzero low 15 bits, i.e. none of them passes the early-region mask test. -/
def maskedRun (h : Nat) : Nat → Bool
  | 0 => true
  | n + 1 => (h &&& 32767 != 0) && maskedRun (h * 31 % 1000000009) n

end Chunker

namespace DeltaEngine

/-- The record `DeltaInfo` of `delta_engine.h`. -/
structure DeltaInfo where
  new_chunks : List ChunkInfo
  existing_chunks : List ChunkInfo
  bytes_to_transfer : Nat
deriving DecidableEq

/-- The member function `Chunker::chunkFile`: `none` is a file that cannot
be opened, `some data` a file holding `data`. -/
def chunkFile (sha256 : List Byte → String) (file : Option (List Byte)) : List ChunkInfo :=
  match file with
  | none => []
  | some data => Chunker.chunkData sha256 data

/-- The helper `convertToSet`. -/
def convertToSet (hashes : List String) : Finset String := hashes.toFinset

/-- One iteration of the loop of `computeDelta` over `local_chunks`. -/
def deltaStep (server_set : Finset String) (delta : DeltaInfo) (chunk : ChunkInfo) : DeltaInfo :=
  if chunk.hash ∉ server_set then
    { delta with
      new_chunks := delta.new_chunks ++ [chunk]
      bytes_to_transfer := u64add delta.bytes_to_transfer chunk.size }
  else
    { delta with existing_chunks := delta.existing_chunks ++ [chunk] }

/-- The part of `computeDelta` that follows the chunking of the local file. -/
def computeDeltaOn (local_chunks : List ChunkInfo) (server_chunk_hashes : List String) :
    DeltaInfo :=
  let server_set := convertToSet server_chunk_hashes
  local_chunks.foldl (deltaStep server_set)
    { new_chunks := [], existing_chunks := [], bytes_to_transfer := 0 }

/-- The member function `computeDelta`, the local file given by its content. -/
def computeDelta (sha256 : List Byte → String) (file : Option (List Byte))
    (server_chunk_hashes : List String) : DeltaInfo :=
  computeDeltaOn (chunkFile sha256 file) server_chunk_hashes

/-- The loop of `applyDelta`: `data_offset` and the bytes written so far are
threaded through; the result is the returned flag and the bytes written.
The guard compares the wrapping `size_t` sum with `chunk_data.size()`; a
`write` whose range passes the end of the buffer (possible only after such a
wrap) is undefined in the source and writes the bytes that exist here. -/
def applyDeltaLoop (chunk_data : List Byte) :
    List ChunkInfo → Nat → List Byte → Bool × List Byte
  | [], _, written => (true, written)
  | chunk :: rest, data_offset, written =>
    if u64add data_offset chunk.size > chunk_data.length then
      (false, written)
    else
      applyDeltaLoop chunk_data rest (u64add data_offset chunk.size)
        (written ++ (chunk_data.drop data_offset).take chunk.size)

/-- The member function `applyDelta`. `canOpen` tells whether the output
stream opens; the second component is the content of the file at `filepath`
afterwards, `none` when the file was never opened. -/
def applyDelta (canOpen : Bool) (chunks : List ChunkInfo) (chunk_data : List Byte) :
    Bool × Option (List Byte) :=
  if canOpen then
    let r := applyDeltaLoop chunk_data chunks 0 []
    (r.1, some r.2)
  else
    (false, none)

/-- The function `Hash::sha256File` on a file given by its content: the empty
string when the file cannot be opened, else the digest of all its bytes. -/
def sha256File (sha256 : List Byte → String) (file : Option (List Byte)) : String :=
  match file with
  | none => ""
  | some data => sha256 data

/-- A stand-in digest function that tells byte strings apart by their first
byte only; it serves where a concrete digest function is needed. -/
def headDigest (bs : List Byte) : String :=
  if bs.head? = some 1 then "1" else "0"

end DeltaEngine

/-! ## Definitions: metadata store, storage manager, sync probe

Conventions.
* SQLite and `std::filesystem` are not part of the repository. A table is the
  list of its rows; `INSERT OR REPLACE` drops the row with the same primary
  key and adds the new one; `prepare` and `step` are taken to succeed.
* Strings travel through SQLite as C strings (`sqlite3_bind_text` on
  `c_str()` with length `-1`), which end at the first NUL: the functions of
  `MetadataDB` follow the code for strings that are `nulFree`, and for
  statements that run, in which case the code returns `true` as well. Strings
  are compared character by character; a `char` is a `Char`.
* The file system maps a path, taken as a string, to the content of the
  regular file there; directories are created on demand and not tracked. Two
  strings stand for one file when they lead to the same place (`resolvePath`);
  the functions of `StorageManager` follow the code on a disk that calls with
  well-formed arguments (`Request.wellFormed`) built up: there no two paths in
  use lead to one file and no directory sits where a file is expected.
* `int32_t` and `int64_t` values are `Int`s; the one narrowing conversion
  (`data.size()` to `int32_t`) and the one widening cast (`total_chunks` to
  `size_t`) are written out.
-/

/-- The record `FileRecord` of `metadata_db.h`. -/
structure FileRecord where
  path : String
  size : Int
  modified_time : Int
  hash : String
  version : Int
  is_directory : Bool
  deleted : Bool
  last_sync_time : Int
deriving DecidableEq, Repr

/-- One row of the table `chunks`. -/
structure ChunkRow where
  file_path : String
  chunk_index : Int
  hash : String
  offset : Int
  size : Int
deriving DecidableEq, Repr

/-- The content of one client's database: the tables `files` and `chunks`
(the table `sync_state` plays no part in what follows). -/
structure MetadataDB where
  files : List FileRecord
  chunks : List ChunkRow
deriving DecidableEq, Repr

namespace MetadataDB

/-- The database right after `initialize()` on a fresh file: empty tables. -/
def empty : MetadataDB := { files := [], chunks := [] }

/-- The member function `insertOrUpdateFile`: `INSERT OR REPLACE INTO files`,
primary key `path`. -/
def insertOrUpdateFile (db : MetadataDB) (record : FileRecord) : Bool × MetadataDB :=
  (true, { db with files := db.files.filter (fun r => r.path != record.path) ++ [record] })

/-- The member function `getFile`: `SELECT * FROM files WHERE path = ?`, first
row, for a path that is `nulFree`. -/
def getFile (db : MetadataDB) (path : String) : Option FileRecord :=
  db.files.find? (fun r => r.path == path)

/-- The member function `getAllFiles`: `SELECT * FROM files WHERE deleted = 0`. -/
def getAllFiles (db : MetadataDB) : List FileRecord :=
  db.files.filter (fun r => !r.deleted)

/-- The member function `deleteFile`: `UPDATE files SET deleted = 1 WHERE path = ?`,
for a path that is `nulFree` and a statement that runs; the code binds
`path.c_str()`, which ends at the first NUL, and returns `false` when the
statement fails. -/
def deleteFile (db : MetadataDB) (path : String) : Bool × MetadataDB :=
  (true, { db with
    files := db.files.map (fun r => if r.path == path then { r with deleted := true } else r) })

/-- The member function `insertChunk`: `INSERT OR REPLACE INTO chunks`,
primary key `(file_path, chunk_index)`, for a file path and a digest that are
`nulFree` and a statement that runs; the code binds `c_str()`, which ends at
the first NUL, and returns `false` when the statement fails. -/
def insertChunk (db : MetadataDB) (file_path : String) (index : Int) (hash : String)
    (offset size : Int) : Bool × MetadataDB :=
  (true, { db with
    chunks := db.chunks.filter (fun r => !(r.file_path == file_path && r.chunk_index == index))
      ++ [{ file_path := file_path, chunk_index := index, hash := hash,
            offset := offset, size := size }] })

/-- The rows that `getFileChunks` walks:
`FROM chunks WHERE file_path = ? ORDER BY chunk_index`, for a file path that
is `nulFree`. -/
def fileChunkRows (db : MetadataDB) (file_path : String) : List ChunkRow :=
  (db.chunks.filter (fun r => r.file_path == file_path)).insertionSort
    (fun a b => a.chunk_index ≤ b.chunk_index)

/-- The member function `getFileChunks`. -/
def getFileChunks (db : MetadataDB) (file_path : String) : List String :=
  (fileChunkRows db file_path).map ChunkRow.hash

/-- A run of `insertChunk` calls, first one first, each call given as the
row it binds. -/
def insertChunks (db : MetadataDB) (calls : List ChunkRow) : MetadataDB :=
  calls.foldl
    (fun d c => (d.insertChunk c.file_path c.chunk_index c.hash c.offset c.size).2) db

/-- The most recent call of a run that binds index `i` of `file_path`, if any. -/
def lastCall (calls : List ChunkRow) (file_path : String) (i : Int) : Option ChunkRow :=
  (calls.filter (fun c => c.file_path == file_path && c.chunk_index == i)).getLast?

end MetadataDB

/-- What the surroundings decide for the storage manager: whether an output
stream on a path opens, whether a client's database opens, the wall clock in
seconds, and the value found in the never-assigned field `last_sync_time` of
the record that `finalizeFile` builds. -/
structure Env where
  canWrite : String → Bool
  dbOpens : String → Bool
  now : Int
  stale : Int

/-- An environment in which every stream and every database opens, at time 0. -/
def Env.permissive : Env :=
  { canWrite := fun _ => true, dbOpens := fun _ => true, now := 0, stale := 0 }

/-- The state behind a `StorageManager`: its root (the member written
`storage_root` followed by an underscore in the source), the map `client_dbs_`
with the content of each client's database, and the files on disk. -/
structure StorageManager where
  storage_root : String
  client_dbs_ : String → Option MetadataDB
  fs : String → Option (List Byte)

namespace StorageManager

/-- A manager on an empty disk, before any client was seen. -/
def fresh (storage_root : String) : StorageManager :=
  { storage_root := storage_root, client_dbs_ := fun _ => none, fs := fun _ => none }

/-- The conversion of `data.size()` to the `int32_t` parameter `size`. -/
def toInt32 (n : Nat) : Int := ((n + 2 ^ 31) % 2 ^ 32 : Nat) - 2 ^ 31

/-- The cast `static_cast<size_t>(total_chunks)`. -/
def toSizeT (i : Int) : Nat := (i % 2 ^ 64).toNat

/-- The member function `getChunkPath`; `hash.substr(0, 2)` is the first two
characters of `hash`. -/
def getChunkPath (s : StorageManager) (hash : String) : String :=
  s.storage_root ++ "/chunks/" ++ String.mk (hash.data.take 2) ++ "/" ++ hash

/-- The member function `getClientStoragePath`. -/
def getClientStoragePath (s : StorageManager) (client_id : String) : String :=
  s.storage_root ++ "/clients/" ++ client_id

/-- The member function `getTempFilePath`. -/
def getTempFilePath (s : StorageManager) (client_id filepath : String) : String :=
  getClientStoragePath s client_id ++ "/" ++ filepath

/-- The path handed to the `MetadataDB` of a client in `getClientDB`. -/
def getClientDBPath (s : StorageManager) (client_id : String) : String :=
  getClientStoragePath s client_id ++ "/metadata.db"

/-- The member function `getClientDB`: the client's database, opened on first
use, its file taken to be new then and so its tables empty; `none` stands for
the null pointer. The tables are kept by client id, as the map `client_dbs_`
keeps the connections; SQLite keeps them in the file at `getClientDBPath`, so
this follows the code for client ids that lead to different files, as ids
that are `plainName` do. -/
def getClientDB (env : Env) (s : StorageManager) (client_id : String) :
    Option MetadataDB × StorageManager :=
  match s.client_dbs_ client_id with
  | some db => (some db, s)
  | none =>
    if env.dbOpens (getClientDBPath s client_id) then
      (some MetadataDB.empty,
        { s with client_dbs_ := Function.update s.client_dbs_ client_id (some MetadataDB.empty) })
    else
      (none, s)

/-- Storing back the content of a client's database after a statement ran on it. -/
def setClientDB (s : StorageManager) (client_id : String) (db : MetadataDB) : StorageManager :=
  { s with client_dbs_ := Function.update s.client_dbs_ client_id (some db) }

/-- The member function `storeChunk`, for a digest that is `hexDigest`, so that
the chunk path names a file in the directory of its first two characters,
and for an `insertChunk` that runs: the code returns what `insertChunk`
returns. -/
def storeChunk (env : Env) (s : StorageManager) (client_id filepath : String)
    (chunk_index : Int) (data : List Byte) (hash : String) : Bool × StorageManager :=
  let chunk_path := getChunkPath s hash
  let written : Option StorageManager :=
    if (s.fs chunk_path).isSome then
      some s
    else if env.canWrite chunk_path then
      some { s with fs := Function.update s.fs chunk_path (some data) }
    else
      none
  match written with
  | none => (false, s)
  | some s1 =>
    match getClientDB env s1 client_id with
    | (none, s2) => (false, s2)
    | (some db, s2) =>
      let r := db.insertChunk filepath chunk_index hash 0 (toInt32 data.length)
      (r.1, setClientDB s2 client_id r.2)

/-- The member function `getChunk`: the empty vector when the file does not
open, as for a blob that is missing. The chunk path of a digest that is
`hexDigest` ends in the digest and is no directory on a disk that calls with
well-formed arguments built up; on a directory the code does not return. -/
def getChunk (s : StorageManager) (hash : String) : List Byte :=
  match s.fs (getChunkPath s hash) with
  | none => []
  | some data => data

/-- The member function `hasChunk`. -/
def hasChunk (s : StorageManager) (hash : String) : Bool :=
  (s.fs (getChunkPath s hash)).isSome

/-- Appending to the file at `path`, as `file.write` does on the open stream. -/
def appendFile (s : StorageManager) (path : String) (bytes : List Byte) : StorageManager :=
  { s with fs := Function.update s.fs path (some ((s.fs path).getD [] ++ bytes)) }

/-- The loop of `finalizeFile` over `chunk_hashes`: `false` as soon as a chunk
reads back empty, the bytes written so far staying in the staging file. -/
def writeChunks (temp_path : String) : StorageManager → List String → Bool × StorageManager
  | s, [] => (true, s)
  | s, hash :: rest =>
    let chunk_data := getChunk s hash
    if chunk_data.isEmpty then
      (false, s)
    else
      writeChunks temp_path (appendFile s temp_path chunk_data) rest

/-- The member function `finalizeFile`, for a client id that is `plainName` and
a file path that is `fileName`: the staging path then leads to a file of its
own in the directory of the client, and not to a blob or to a database, which
a stream opened on them would empty. -/
def finalizeFile (sha256 : List Byte → String) (env : Env) (s : StorageManager)
    (client_id filepath : String) (total_chunks : Int) : Bool × StorageManager :=
  match getClientDB env s client_id with
  | (none, s1) => (false, s1)
  | (some db, s1) =>
    let chunk_hashes := db.getFileChunks filepath
    if chunk_hashes.length ≠ toSizeT total_chunks then
      (false, s1)
    else
      let temp_path := getTempFilePath s1 client_id filepath
      if !env.canWrite temp_path then
        (false, s1)
      else
        let s2 : StorageManager := { s1 with fs := Function.update s1.fs temp_path (some []) }
        match writeChunks temp_path s2 chunk_hashes with
        | (false, s3) => (false, s3)
        | (true, s3) =>
          let record : FileRecord :=
            { path := filepath
              size := ((s3.fs temp_path).getD []).length
              modified_time := env.now
              hash := DeltaEngine.sha256File sha256 (s3.fs temp_path)
              version := 1
              is_directory := false
              deleted := false
              last_sync_time := env.stale }
          let r := db.insertOrUpdateFile record
          (r.1, setClientDB s3 client_id r.2)

/-- The member function `getFileMetadata`. -/
def getFileMetadata (env : Env) (s : StorageManager) (client_id filepath : String) :
    Option FileRecord × StorageManager :=
  match getClientDB env s client_id with
  | (none, s1) => (none, s1)
  | (some db, s1) => (db.getFile filepath, s1)

/-- The member function `listFiles`. -/
def listFiles (env : Env) (s : StorageManager) (client_id : String) :
    List FileRecord × StorageManager :=
  match getClientDB env s client_id with
  | (none, s1) => ([], s1)
  | (some db, s1) => (db.getAllFiles, s1)

/-- The member function `deleteFile`. -/
def deleteFile (env : Env) (s : StorageManager) (client_id filepath : String) :
    Bool × StorageManager :=
  match getClientDB env s client_id with
  | (none, s1) => (false, s1)
  | (some db, s1) =>
    let r := db.deleteFile filepath
    (r.1, setClientDB s1 client_id r.2)

/-- The number of chunk bindings recorded for a path of a client; none for a
client without a database. -/
def bindingCount (s : StorageManager) (client_id filepath : String) : Nat :=
  match s.client_dbs_ client_id with
  | none => 0
  | some db => (db.getFileChunks filepath).length

/-- A manager rooted at `r` after client `c` stored, as chunk 0 of file `f`,
the single byte 1 under the digest that `headDigest` gives it. -/
def demoUploaded : StorageManager :=
  (storeChunk Env.permissive (fresh "r") "c" "f" 0 [1] "1").2

/-- The manager `demoUploaded` after `finalizeFile` for file `f` with one chunk. -/
def demoFinalized : StorageManager :=
  (finalizeFile DeltaEngine.headDigest Env.permissive demoUploaded "c" "f" 1).2

end StorageManager

namespace SyncService

/-- Modelled from the spec: the values of the generated enumeration
`FileChange::Type` that `computeChanges` sets; the protobuf sources are not
in the repository. -/
inductive ChangeType where
  | CREATED : ChangeType
  | MODIFIED : ChangeType
deriving DecidableEq, Repr

/-- Modelled from the spec: the fields of the generated message `FileChange`
that `computeChanges` sets. -/
structure FileChange where
  path : String
  type : ChangeType
deriving DecidableEq, Repr

/-- Modelled from the spec: the fields of the generated message `FileMetadata`
that `computeChanges` reads. -/
structure FileMetadata where
  path : String
  hash : String
deriving DecidableEq, Repr

/-- The inner loop of `computeChanges` for one server file: the value of
`found` and the change pushed, if any, up to the `break`. -/
def scanLocal (server_file : FileRecord) : List FileMetadata → Bool × List FileChange
  | [] => (false, [])
  | local_file :: rest =>
    if local_file.path == server_file.path then
      (true,
        if local_file.hash != server_file.hash then
          [{ path := server_file.path, type := ChangeType.MODIFIED }]
        else [])
    else
      scanLocal server_file rest

/-- One pass of the outer loop of `computeChanges`: the changes pushed for
one server file. -/
def changesFor (local_files : List FileMetadata) (last_sync_time : Int)
    (server_file : FileRecord) : List FileChange :=
  let r := scanLocal server_file local_files
  r.2 ++
    (if !r.1 && decide (server_file.modified_time > last_sync_time) then
      [{ path := server_file.path, type := ChangeType.CREATED }]
    else [])

/-- The loops of `computeChanges` over a given list of server files. -/
def computeChangesOn (server_files : List FileRecord) (local_files : List FileMetadata)
    (last_sync_time : Int) : List FileChange :=
  server_files.foldl (fun changes sf => changes ++ changesFor local_files last_sync_time sf) []

/-- The member function `computeChanges`. -/
def computeChanges (env : Env) (s : StorageManager) (client_id : String)
    (local_files : List FileMetadata) (last_sync_time : Int) :
    List FileChange × StorageManager :=
  let r := StorageManager.listFiles env s client_id
  (computeChangesOn r.1 local_files last_sync_time, r.2)

end SyncService

/-! ## Definitions: transactions, the digest format, calls on the manager

Conventions.
* The statements that reach SQLite are kept in a log; the verdict of
  `sqlite3_exec` on a statement is an argument of the call that issues it.
* `SHA256` of OpenSSL is an argument of `sha256`; the stream manipulators
  `std::hex`, `std::setw` and `std::setfill` are written out.
-/

namespace MetadataDB

/-- The member function `executeSQL` as its callers see it: `sql` goes to
`sqlite3_exec`, and `ok` tells whether that call returned `SQLITE_OK`; `log`
holds the statements handed to the database so far, oldest first. -/
def executeSQL (ok : Bool) (log : List String) (sql : String) : Bool × List String :=
  (ok, log ++ [sql])

/-- The member function `beginTransaction`. -/
def beginTransaction (ok : Bool) (log : List String) : Bool × List String :=
  executeSQL ok log "BEGIN TRANSACTION"

/-- The member function `commit` of `MetadataDB`. -/
def commit (ok : Bool) (log : List String) : Bool × List String :=
  executeSQL ok log "COMMIT"

/-- The member function `rollback` of `MetadataDB`. -/
def rollback (ok : Bool) (log : List String) : Bool × List String :=
  executeSQL ok log "ROLLBACK"

/-- The class `MetadataDB::Transaction`: its flag `committed_`; the database
behind the reference `db_` is the statement log threaded through the calls. -/
structure Transaction where
  committed_ : Bool
deriving DecidableEq, Repr

namespace Transaction

/-- The constructor: `committed_(false)`, then `db_.beginTransaction()`. -/
def new (ok : Bool) (log : List String) : Transaction × List String :=
  ({ committed_ := false }, (beginTransaction ok log).2)

/-- The member function `commit` of the handle; `ok` is the verdict on the
`COMMIT` it issues. -/
def commit (t : Transaction) (ok : Bool) (log : List String) :
    Bool × Transaction × List String :=
  let r := MetadataDB.commit ok log
  if r.1 then (true, { t with committed_ := true }, r.2) else (false, t, r.2)

/-- The member function `rollback` of the handle; `ok` is the verdict on the
`ROLLBACK` it issues, if it issues one. -/
def rollback (t : Transaction) (ok : Bool) (log : List String) : Transaction × List String :=
  if !t.committed_ then
    ({ t with committed_ := true }, (MetadataDB.rollback ok log).2)
  else
    (t, log)

/-- The destructor: the statement log it leaves. -/
def destructor (t : Transaction) (ok : Bool) (log : List String) : List String :=
  if !t.committed_ then (MetadataDB.rollback ok log).2 else log

/-- One call made on a handle, with the verdict of the database on the
statement the call issues. -/
inductive Call where
  | commit : Bool → Call
  | rollback : Bool → Call
deriving DecidableEq, Repr

/-- Making one call on a handle. -/
def step (st : Transaction × List String) : Call → Transaction × List String
  | Call.commit ok => (commit st.1 ok st.2).2
  | Call.rollback ok => rollback st.1 ok st.2

/-- Making a sequence of calls on a handle, first one first. -/
def run (st : Transaction × List String) (calls : List Call) : Transaction × List String :=
  calls.foldl step st

/-- Whether a call settles the handle: a `commit()` that succeeds, or any
`rollback()`. -/
def Call.settles : Call → Bool
  | Call.commit ok => ok
  | Call.rollback _ => true

/-- Whether a call is a `commit()` that succeeds. -/
def Call.commits : Call → Bool
  | Call.commit ok => ok
  | Call.rollback _ => false

end Transaction

end MetadataDB

namespace Hash

/-- Modelled from the spec: the constant `SHA256_DIGEST_LENGTH` of OpenSSL,
the number of bytes in a digest of 256 bits. -/
def SHA256_DIGEST_LENGTH : Nat := 32

/-- What `ss << std::hex << n` writes for an `int` `n ≥ 0` when no width is
set: the digits of `n` in base 16, lowercase, without leading zeros. -/
def hexDigits (n : Nat) : List Char := Nat.toDigits 16 n

/-- The effect of `std::setw(2)` with `std::setfill('0')` on the next
insertion: an output shorter than two characters is filled on the left. -/
def setw2 (cs : List Char) : List Char := List.replicate (2 - cs.length) '0' ++ cs

/-- The function `Hash::sha256` on a byte vector. `SHA256` is the function of
OpenSSL that fills the array `hash`; entry `i` of the array is `SHA256 data i`. -/
def sha256 (SHA256 : List Byte → Fin SHA256_DIGEST_LENGTH → Byte) (data : List Byte) : String :=
  String.mk
    ((List.finRange SHA256_DIGEST_LENGTH).map
      (fun i => setw2 (hexDigits (SHA256 data i).val))).flatten

/-- The conversion of a `char` to `uint8_t`: the value modulo 256. -/
def charToByte (c : Int) : Byte := Fin.ofNat (c % 256).toNat

/-- The function `Hash::sha256` on a string, the string given by the values
of its `char`s: `vec(data.begin(), data.end())` converts each to `uint8_t`. -/
def sha256String (SHA256 : List Byte → Fin SHA256_DIGEST_LENGTH → Byte) (data : List Int) :
    String :=
  sha256 SHA256 (data.map charToByte)

/-- The lowercase hexadecimal digit of a value below 16. -/
def hexChar (n : Nat) : Char := "0123456789abcdef".data.getD n '0'

/-- A byte written as two lowercase hexadecimal digits, high digit first. -/
def twoHex (b : Byte) : List Char := [hexChar (b.val / 16), hexChar (b.val % 16)]

end Hash

namespace Chunker

/-- The member function `chunkData` on a `Chunker` object whose field
`last_stats_` holds `previous` (anything at all right after construction): the
vector returned and the value of `last_stats_` afterwards. Both branches
assign the field without reading it. -/
def chunkDataFrom (_previous : ChunkStats) (sha256 : List Byte → String) (data : List Byte) :
    List ChunkInfo × ChunkStats :=
  chunkDataRun sha256 data

/-- The accessor `getLastStats` after a call of `chunkData`. -/
def getLastStats (r : List ChunkInfo × ChunkStats) : ChunkStats := r.2

end Chunker

namespace StorageManager

/-- One call on the storage manager. -/
inductive Request where
  | storeChunk (client_id filepath : String) (chunk_index : Int) (data : List Byte)
      (hash : String) : Request
  | finalizeFile (client_id filepath : String) (total_chunks : Int) : Request
  | deleteFile (client_id filepath : String) : Request
  | getFileMetadata (client_id filepath : String) : Request
  | listFiles (client_id : String) : Request
deriving DecidableEq, Repr

/-- Whether the arguments of a call are well formed: the client id is a
plain name, the file path names a file right in the directory of the client,
the digest is made of hex characters, and the numbers fit `int32_t`. The
source checks none of this; it is what the callers are held to. -/
def Request.wellFormed : Request → Bool
  | Request.storeChunk c p i _ hash =>
    plainName c && fileName p && hexDigest hash && decide (-2 ^ 31 ≤ i) && decide (i < 2 ^ 31)
  | Request.finalizeFile c p total =>
    plainName c && fileName p && decide (-2 ^ 31 ≤ total) && decide (total < 2 ^ 31)
  | Request.deleteFile c p => plainName c && fileName p
  | Request.getFileMetadata c p => plainName c && fileName p
  | Request.listFiles c => plainName c

/-- The state that one call leaves, whatever it returns. -/
def serve (sha256 : List Byte → String) (env : Env) (s : StorageManager) :
    Request → StorageManager
  | Request.storeChunk c p i data hash => (storeChunk env s c p i data hash).2
  | Request.finalizeFile c p total => (finalizeFile sha256 env s c p total).2
  | Request.deleteFile c p => (deleteFile env s c p).2
  | Request.getFileMetadata c p => (getFileMetadata env s c p).2
  | Request.listFiles c => (listFiles env s c).2

/-- The state that a sequence of calls leaves, first call first. -/
def serveAll (sha256 : List Byte → String) (env : Env) (s : StorageManager)
    (requests : List Request) : StorageManager :=
  requests.foldl (serve sha256 env) s

/-- A manager rooted at `r` after client `c` stored no data as chunk 0 of file
`f` under the digest `0`. -/
def demoEmpty : StorageManager :=
  (storeChunk Env.permissive (fresh "r") "c" "f" 0 [] "0").2

/-- The manager `demoEmpty` after client `c` stored the byte 1 as chunk 0 of
file `f` again, now under the digest `1`. -/
def demoRebound : StorageManager :=
  (storeChunk Env.permissive demoEmpty "c" "f" 0 [1] "1").2

/-- A manager rooted at `r` after client `c` stored the byte 1 as chunk 0 of
file `f` under the digest `1`, and then no data as chunk 1 under the same digest. -/
def demoShared : StorageManager :=
  (storeChunk Env.permissive demoUploaded "c" "f" 1 [] "1").2

/-- The manager `demoUploaded` after the files on its disk were lost: the
binding of chunk 0 of file `f` to the digest `1` is left without a blob. -/
def demoLost : StorageManager :=
  { storage_root := "r", client_dbs_ := demoUploaded.client_dbs_, fs := fun _ => none }

end StorageManager

/-! ## The rolling hash -/

namespace Hash

namespace RollingHash

theorem kMod_lt : kMod < U64 := by decide

theorem kMod_pos : 0 < kMod := by decide

theorem u64add_of_lt {a b : Nat} (h : a + b < U64) : u64add a b = a + b :=
  Nat.mod_eq_of_lt h

theorem u64mul_of_lt {a b : Nat} (h : a * b < U64) : u64mul a b = a * b :=
  Nat.mod_eq_of_lt h

theorem u64sub_of_le {a b : Nat} (hb : b ≤ a) (ha : a < U64) : u64sub a b = a - b := by
  unfold u64sub
  rw [show a + U64 - b = (a - b) + U64 by omega, Nat.add_mod_right]
  exact Nat.mod_eq_of_lt (by omega)

theorem reset_power (r : RollingHash) : r.reset.power_ = r.power_ := rfl

theorem reset_hash (r : RollingHash) : r.reset.hash_ = 0 := rfl

theorem append_hash_lt (r : RollingHash) (b : Byte) : (r.append b).hash_ < kMod :=
  Nat.mod_lt _ kMod_pos

theorem update_hash_lt (r : RollingHash) (b c : Byte) : (r.update b c).hash_ < kMod :=
  Nat.mod_lt _ kMod_pos

theorem append_hash_eq (r : RollingHash) (b : Byte) (h : r.hash_ < kMod) :
    (r.append b).hash_ = (r.hash_ * kPrime + b.val) % kMod := by
  have hb := b.isLt
  have h1 : r.hash_ * kPrime < U64 := by
    simp only [kPrime, kMod, U64] at *
    omega
  have h2 : r.hash_ * kPrime + b.val < U64 := by
    simp only [kPrime, kMod, U64] at *
    omega
  simp only [append, u64mul_of_lt h1, u64add_of_lt h2]

theorem powerStep_lt (p : Nat) : powerStep p < kMod := Nat.mod_lt _ kMod_pos

theorem powerStep_eq (p : Nat) (h : p < kMod) : powerStep p = p * kPrime % kMod := by
  have h1 : p * kPrime < U64 := by
    simp only [kPrime, kMod, U64] at *
    omega
  simp only [powerStep, u64mul_of_lt h1]

theorem iterate_powerStep (n : Nat) : Nat.iterate powerStep n 1 = kPrime ^ n % kMod := by
  induction n with
  | zero => rfl
  | succ n ih =>
    rw [Function.iterate_succ_apply', ih, powerStep_eq _ (Nat.mod_lt _ kMod_pos),
      pow_succ, Nat.mod_mul_mod]

theorem new_power_lt (w : Nat) : (new w).power_ < kMod := by
  simp only [new, iterate_powerStep]
  exact Nat.mod_lt _ kMod_pos


theorem polyFrom_append (h : Nat) (bs : List Byte) (b : Byte) :
    polyFrom h (bs ++ [b]) = polyFrom h bs * kPrime + b.val := by
  simp [polyFrom, List.foldl_append]

theorem polyFrom_cons (h : Nat) (b : Byte) (bs : List Byte) :
    polyFrom h (b :: bs) = polyFrom (h * kPrime + b.val) bs := rfl

theorem polyFrom_split (h : Nat) (bs : List Byte) :
    polyFrom h bs = h * kPrime ^ bs.length + polyFrom 0 bs := by
  induction bs generalizing h with
  | nil => simp [polyFrom]
  | cons b bs ih =>
    rw [polyFrom_cons, ih, polyFrom_cons, ih (0 * kPrime + b.val), List.length_cons, pow_succ]
    ring

theorem appendAll_power (r : RollingHash) (bs : List Byte) :
    (r.appendAll bs).power_ = r.power_ := by
  induction bs generalizing r with
  | nil => rfl
  | cons b bs ih => simp only [appendAll, List.foldl_cons] at ih ⊢; rw [ih]; rfl

theorem appendAll_hash (r : RollingHash) (bs : List Byte) (h : r.hash_ < kMod) :
    (r.appendAll bs).hash_ = polyFrom r.hash_ bs % kMod := by
  induction bs generalizing r with
  | nil => simp [appendAll, polyFrom, Nat.mod_eq_of_lt h]
  | cons b bs ih =>
    simp only [appendAll, List.foldl_cons] at ih ⊢
    rw [ih _ (append_hash_lt r b), append_hash_eq r b h, polyFrom_cons,
      polyFrom_split, polyFrom_split (r.hash_ * kPrime + b.val)]
    exact Nat.ModEq.add_right _ (Nat.ModEq.mul_right _ (Nat.mod_modEq _ _))

theorem update_hash_eq (r : RollingHash) (b_in b_out : Byte)
    (h : r.hash_ < kMod) (hp : r.power_ < kMod) :
    (r.update b_in b_out).hash_ =
      ((r.hash_ + kMod - b_out.val * r.power_ % kMod) % kMod * kPrime + b_in.val) % kMod := by
  have hi := b_in.isLt
  have ho := b_out.isLt
  have h1 : b_out.val * r.power_ < U64 := by
    have : b_out.val * r.power_ ≤ 255 * kMod :=
      Nat.mul_le_mul (by omega) (Nat.le_of_lt hp)
    exact lt_of_le_of_lt this (by decide)
  have h2 : r.hash_ + kMod < U64 := by
    simp only [kMod, U64] at *
    omega
  have h3 : b_out.val * r.power_ % kMod < kMod := Nat.mod_lt _ kMod_pos
  have h4 : b_out.val * r.power_ % kMod ≤ r.hash_ + kMod := by omega
  have h5 : (r.hash_ + kMod - b_out.val * r.power_ % kMod) % kMod < kMod :=
    Nat.mod_lt _ kMod_pos
  have h6 : (r.hash_ + kMod - b_out.val * r.power_ % kMod) % kMod * kPrime < U64 := by
    simp only [kPrime, kMod, U64] at *
    omega
  have h7 : (r.hash_ + kMod - b_out.val * r.power_ % kMod) % kMod * kPrime + b_in.val < U64 := by
    simp only [kPrime, kMod, U64] at *
    omega
  simp only [update, u64mul_of_lt h1, u64add_of_lt h2, u64sub_of_le h4 h2, u64mul_of_lt h6,
    u64add_of_lt h7]

theorem run_power (r : RollingHash) (ops : List Op) : (run r ops).power_ = r.power_ := by
  induction ops generalizing r with
  | nil => rfl
  | cons o ops ih =>
    simp only [run, List.foldl_cons] at ih ⊢
    rw [ih]
    cases o <;> rfl

theorem run_hash_lt (r : RollingHash) (ops : List Op) (h : r.hash_ < kMod) :
    (run r ops).hash_ < kMod := by
  induction ops generalizing r with
  | nil => exact h
  | cons o ops ih =>
    simp only [run, List.foldl_cons] at ih ⊢
    apply ih
    cases o with
    | reset => exact kMod_pos
    | append b => exact append_hash_lt r b
    | update b c => exact update_hash_lt r b c

/-- C6: in every state reached from construction by resets, appends and
updates the hash is below 1000000009, `append(b)` sets it to
`(h * 31 + b) mod 1000000009`, construction and `reset()` set it to 0, and no
intermediate 64-bit product, sum or difference of `append` or `update` wraps. -/
theorem rolling_hash_append_and_range (w : Nat) (ops : List Op) (b b_in b_out : Byte) :
    (new w).hash = 0 ∧ (run (new w) ops).reset.hash = 0 ∧
    (run (new w) ops).hash < 1000000009 ∧
    ((run (new w) ops).append b).hash = ((run (new w) ops).hash * 31 + b.val) % 1000000009 ∧
    (run (new w) ops).hash * 31 + b.val < 2 ^ 64 ∧
    (run (new w) ops).hash + 1000000009 < 2 ^ 64 ∧
    b_out.val * (run (new w) ops).power_ < 2 ^ 64 ∧
    b_out.val * (run (new w) ops).power_ % 1000000009 ≤ (run (new w) ops).hash + 1000000009 ∧
    ((run (new w) ops).hash + 1000000009
        - b_out.val * (run (new w) ops).power_ % 1000000009) % 1000000009 * 31
      + b_in.val < 2 ^ 64 := by
  have hh : (run (new w) ops).hash_ < kMod := run_hash_lt _ ops kMod_pos
  have hp : (run (new w) ops).power_ < kMod := by
    rw [run_power]
    exact new_power_lt w
  have hi := b_in.isLt
  have ho := b_out.isLt
  have hb := b.isLt
  have hm1 : b_out.val * (run (new w) ops).power_ % 1000000009 < 1000000009 :=
    Nat.mod_lt _ kMod_pos
  have hm2 : ((run (new w) ops).hash + 1000000009
        - b_out.val * (run (new w) ops).power_ % 1000000009) % 1000000009 < 1000000009 :=
    Nat.mod_lt _ kMod_pos
  have hmul : b_out.val * (run (new w) ops).power_ ≤ 255 * kMod :=
    Nat.mul_le_mul (by omega) (Nat.le_of_lt hp)
  refine ⟨rfl, rfl, hh, append_hash_eq _ b hh, ?_, ?_, ?_, ?_, ?_⟩
  · simp only [hash, kMod] at *
    omega
  · simp only [hash, kMod] at *
    omega
  · simp only [kMod] at hmul
    omega
  · simp only [hash, kMod] at *
    omega
  · simp only [hash, kMod] at *
    omega

/-- C5: for a window size `1 ≤ w < 2 ^ 64`, a hash reset and fed the `w` bytes
`b0 :: mid` and then updated with `update(bw, b0)` equals the hash reset and fed
`mid ++ [bw]`; the factor used for the ejection is `31 ^ (w - 1) mod 1000000009`. -/
theorem update_slides_full_window (w : Nat) (hw : 1 ≤ w) (hw64 : w < 2 ^ 64)
    (b0 bw : Byte) (mid : List Byte) (hlen : (b0 :: mid).length = w) :
    ((((new w).reset.appendAll (b0 :: mid)).update bw b0).hash
      = ((new w).reset.appendAll (mid ++ [bw])).hash) ∧
    (new w).power_ = 31 ^ (w - 1) % 1000000009 := by
  have hpow : (new w).power_ = 31 ^ (w - 1) % 1000000009 := by
    simp only [new]
    rw [u64sub_of_le hw hw64, iterate_powerStep]
    rfl
  refine ⟨?_, hpow⟩
  have hz : (new w).reset.hash_ < kMod := by rw [reset_hash]; exact kMod_pos
  have hz0 : (new w).reset.hash_ = 0 := reset_hash _
  have hl : mid.length = w - 1 := by simp at hlen; omega
  have hrp : (new w).reset.power_ = (new w).power_ := reset_power _
  have hA : ((new w).reset.appendAll (b0 :: mid)).hash_ < kMod := by
    rw [appendAll_hash _ _ hz]
    exact Nat.mod_lt _ kMod_pos
  have hB : ((new w).reset.appendAll (b0 :: mid)).power_ < kMod := by
    rw [appendAll_power, hrp]
    exact new_power_lt w
  simp only [hash]
  rw [update_hash_eq _ _ _ hA hB,
    appendAll_power, appendAll_hash _ _ hz, appendAll_hash _ _ hz, hz0, polyFrom_append,
    polyFrom_cons, polyFrom_split, hl]
  have hp2 : (new w).reset.power_ = kPrime ^ (w - 1) % kMod := hrp.trans hpow
  rw [hp2, Nat.mul_mod_mod]
  simp only [Nat.zero_mul, Nat.zero_add]
  generalize b0.val * kPrime ^ (w - 1) = X
  generalize polyFrom 0 mid = Y
  have key : ((X + Y) % kMod + kMod - X % kMod) % kMod = Y % kMod := by
    simp only [kMod]
    omega
  rw [key]
  exact Nat.ModEq.add_right _ (Nat.ModEq.mul_right _ (Nat.mod_modEq _ _))

/-- C5 at window size 3 with the bytes 1, 2, 3 and then 4. -/
theorem update_slides_full_window_witness :
    ((((new 3).reset.appendAll (1 :: [2, 3])).update 4 1).hash
      = ((new 3).reset.appendAll ([2, 3] ++ [4])).hash) ∧
    (new 3).power_ = 31 ^ (3 - 1) % 1000000009 :=
  update_slides_full_window 3 (by decide) (by decide) 1 4 [2, 3] (by decide)

end RollingHash

end Hash

/-! ## The chunker loop -/

namespace Chunker

open Hash

theorem loopAt_succ (sha256 : List Byte → String) (data : List Byte) (n : Nat) :
    loopAt sha256 data (n + 1) =
      if cutAt sha256 data n then
        { rolling_hash := ((loopAt sha256 data n).rolling_hash.append (data.getD n 0)).reset
          chunk_start := n + 1
          min_size :=
            if (loopAt sha256 data n).min_size = 0 ∨
                (chunkOf sha256 data n).size < (loopAt sha256 data n).min_size
            then (chunkOf sha256 data n).size else (loopAt sha256 data n).min_size
          max_size :=
            if (chunkOf sha256 data n).size > (loopAt sha256 data n).max_size
            then (chunkOf sha256 data n).size else (loopAt sha256 data n).max_size
          total_size := (loopAt sha256 data n).total_size + (chunkOf sha256 data n).size
          chunks := (loopAt sha256 data n).chunks ++ [chunkOf sha256 data n] }
      else
        { loopAt sha256 data n with
          rolling_hash := (loopAt sha256 data n).rolling_hash.append (data.getD n 0) } := rfl

theorem chunk_start_succ (sha256 : List Byte → String) (data : List Byte) (n : Nat) :
    (loopAt sha256 data (n + 1)).chunk_start =
      if cutAt sha256 data n then n + 1 else (loopAt sha256 data n).chunk_start := by
  rw [loopAt_succ]
  split <;> rfl

theorem chunks_succ (sha256 : List Byte → String) (data : List Byte) (n : Nat) :
    (loopAt sha256 data (n + 1)).chunks =
      if cutAt sha256 data n then (loopAt sha256 data n).chunks ++ [chunkOf sha256 data n]
      else (loopAt sha256 data n).chunks := by
  rw [loopAt_succ]
  split <;> rfl

theorem rolling_hash_succ (sha256 : List Byte → String) (data : List Byte) (n : Nat) :
    (loopAt sha256 data (n + 1)).rolling_hash =
      if cutAt sha256 data n then
        ((loopAt sha256 data n).rolling_hash.append (data.getD n 0)).reset
      else (loopAt sha256 data n).rolling_hash.append (data.getD n 0) := by
  rw [loopAt_succ]
  split <;> rfl

theorem chunk_start_le (sha256 : List Byte → String) (data : List Byte) (n : Nat) :
    (loopAt sha256 data n).chunk_start ≤ n := by
  induction n with
  | zero => exact Nat.le_refl 0
  | succ n ih =>
    rw [chunk_start_succ]
    split
    · exact Nat.le_refl _
    · exact Nat.le_succ_of_le ih

theorem chunk_start_mono (sha256 : List Byte → String) (data : List Byte) (a b : Nat)
    (hab : a ≤ b) : (loopAt sha256 data a).chunk_start ≤ (loopAt sha256 data b).chunk_start := by
  induction b with
  | zero =>
    have : a = 0 := by omega
    subst this
    exact Nat.le_refl _
  | succ b ih =>
    rcases Nat.eq_or_lt_of_le hab with h | h
    · subst h
      exact Nat.le_refl _
    · have h1 := ih (by omega)
      rw [chunk_start_succ]
      split
      · have := chunk_start_le sha256 data b
        omega
      · exact h1

/-- After a cut at `k` every later iteration starts its chunk beyond `k`. -/
theorem chunk_start_gt_of_cut (sha256 : List Byte → String) (data : List Byte) (k j : Nat)
    (hk : cutAt sha256 data k = true) (hkj : k < j) :
    k + 1 ≤ (loopAt sha256 data j).chunk_start := by
  have h1 : (loopAt sha256 data (k + 1)).chunk_start = k + 1 := by
    rw [chunk_start_succ, if_pos hk]
  have h2 := chunk_start_mono sha256 data (k + 1) j hkj
  omega

/-- Without a cut in `[a, b)` the chunk start does not move. -/
theorem chunk_start_const (sha256 : List Byte → String) (data : List Byte) (a b : Nat)
    (hab : a ≤ b) (hno : ∀ k, a ≤ k → k < b → cutAt sha256 data k = false) :
    (loopAt sha256 data b).chunk_start = (loopAt sha256 data a).chunk_start := by
  induction b with
  | zero =>
    have : a = 0 := by omega
    subst this
    rfl
  | succ b ih =>
    rcases Nat.eq_or_lt_of_le hab with h | h
    · subst h
      rfl
    · rw [chunk_start_succ, hno b (by omega) (by omega)]
      simp only [Bool.false_eq_true, if_false]
      exact ih (by omega) (fun k h1 h2 => hno k h1 (by omega))

theorem mem_chunks_iff (sha256 : List Byte → String) (data : List Byte) (n : Nat)
    (c : ChunkInfo) :
    c ∈ (loopAt sha256 data n).chunks ↔
      ∃ j, j < n ∧ cutAt sha256 data j = true ∧ c = chunkOf sha256 data j := by
  induction n with
  | zero => simp [loopAt, loopInit]
  | succ n ih =>
    rw [chunks_succ]
    constructor
    · intro h
      split at h
      · rename_i hc
        rcases List.mem_append.mp h with h | h
        · obtain ⟨j, hj, hcut, rfl⟩ := ih.mp h
          exact ⟨j, by omega, hcut, rfl⟩
        · exact ⟨n, by omega, hc, by simpa using h⟩
      · obtain ⟨j, hj, hcut, rfl⟩ := ih.mp h
        exact ⟨j, by omega, hcut, rfl⟩
    · rintro ⟨j, hj, hcut, rfl⟩
      rcases Nat.eq_or_lt_of_le (Nat.le_of_lt_succ hj) with h | h
      · subst h
        rw [if_pos hcut]
        simp
      · have := ih.mpr ⟨j, h, hcut, rfl⟩
        split
        · exact List.mem_append_left _ this
        · exact this

theorem slice_length (data : List Byte) (lo hi : Nat) (h : hi ≤ data.length) :
    (slice data lo hi).length = hi - lo := by
  simp [slice, Nat.min_eq_left h]

theorem chunkOf_size (sha256 : List Byte → String) (data : List Byte) (j : Nat)
    (hj : j < data.length) :
    (chunkOf sha256 data j).size = j + 1 - (loopAt sha256 data j).chunk_start :=
  slice_length data _ _ hj

theorem chunkOf_offset (sha256 : List Byte → String) (data : List Byte) (j : Nat) :
    (chunkOf sha256 data j).offset = (loopAt sha256 data j).chunk_start := rfl

theorem chunkData_eq (sha256 : List Byte → String) (data : List Byte) :
    chunkData sha256 data = (loopAt sha256 data data.length).chunks := by
  unfold chunkData chunkDataRun
  cases data with
  | nil => rfl
  | cons b bs => rfl

theorem cutAt_last (sha256 : List Byte → String) (data : List Byte) (n : Nat)
    (h : data.length = n + 1) : cutAt sha256 data n = true := by
  simp [cutAt, cutCond, h]

theorem isBoundary_min (h s : Nat) (hb : isBoundary h s = true) : kMinChunkSize ≤ s := by
  unfold isBoundary at hb
  split at hb
  · rename_i h1
    exact h1.1
  · split at hb
    · rename_i h2
      have : kMinChunkSize ≤ normalized_chunk_size := by decide
      omega
    · exact absurd hb (by decide)

/-- A cut that is not the tail flush leaves a chunk of at least `kMinChunkSize` bytes. -/
theorem cut_min_size (sha256 : List Byte → String) (data : List Byte) (j : Nat)
    (hcut : cutAt sha256 data j = true) (hj : j ≠ data.length - 1) :
    kMinChunkSize ≤ j + 1 - (loopAt sha256 data j).chunk_start := by
  simp only [cutAt, cutCond, Bool.or_eq_true, decide_eq_true_eq] at hcut
  rcases hcut with (hb | hm) | hl
  · exact isBoundary_min _ _ hb
  · have : kMinChunkSize ≤ kMaxChunkSize := by decide
    omega
  · exact absurd hl hj

/-- The chunk being accumulated never reaches `kMaxChunkSize` bytes between iterations. -/
theorem pending_lt_max (sha256 : List Byte → String) (data : List Byte) (n : Nat) :
    n - (loopAt sha256 data n).chunk_start < kMaxChunkSize := by
  induction n with
  | zero => exact Nat.lt_of_le_of_lt (Nat.sub_le _ _) (by decide)
  | succ n ih =>
    rw [chunk_start_succ]
    split
    · rw [Nat.sub_self]
      decide
    · rename_i hc
      simp only [cutAt, cutCond, Bool.or_eq_true, decide_eq_true_eq, not_or, not_le] at hc
      exact hc.1.2

theorem slice_succ (data : List Byte) (lo n : Nat) (hlo : lo ≤ n) (hn : n < data.length) :
    slice data lo (n + 1) = slice data lo n ++ [data.getD n 0] := by
  unfold slice
  rw [List.take_succ, List.drop_append_of_le_length (by simp; omega)]
  congr 1
  rw [List.getD_eq_getElem?_getD, List.getElem?_eq_getElem hn]
  simp

theorem slice_self (data : List Byte) (n : Nat) : slice data n n = [] := by
  simp [slice]

theorem rollingHash_ext (r s : RollingHash) (h1 : r.window_size_ = s.window_size_)
    (h2 : r.hash_ = s.hash_) (h3 : r.power_ = s.power_) : r = s := by
  cases r
  cases s
  simp only at h1 h2 h3
  subst h1 h2 h3
  rfl

theorem appendAll_window (r : RollingHash) (l : List Byte) :
    (r.appendAll l).window_size_ = r.window_size_ := by
  induction l generalizing r with
  | nil => rfl
  | cons x l ih =>
    simp only [RollingHash.appendAll, List.foldl_cons] at ih ⊢
    rw [ih]
    rfl

theorem new_hash_zero (w : Nat) : (RollingHash.new w).hash_ = 0 := rfl

theorem new_append_reset (bs : List Byte) (b : Byte) :
    (((RollingHash.new 48).appendAll bs).append b).reset = RollingHash.new 48 := by
  apply rollingHash_ext
  · exact appendAll_window _ bs
  · rw [RollingHash.reset_hash, new_hash_zero]
  · exact RollingHash.appendAll_power _ bs

theorem appendAll_snoc (r : RollingHash) (bs : List Byte) (b : Byte) :
    r.appendAll (bs ++ [b]) = (r.appendAll bs).append b := by
  simp [RollingHash.appendAll, List.foldl_append]

/-- Between iterations the rolling hash holds exactly the bytes of the chunk
being accumulated, all of them, appended to a fresh hash. -/
theorem rolling_hash_inv (sha256 : List Byte → String) (data : List Byte) (n : Nat)
    (hn : n ≤ data.length) :
    (loopAt sha256 data n).rolling_hash =
      (RollingHash.new 48).appendAll (slice data (loopAt sha256 data n).chunk_start n) := by
  induction n with
  | zero => rfl
  | succ n ih =>
    have ih := ih (by omega)
    have hcs := chunk_start_le sha256 data n
    rw [rolling_hash_succ, chunk_start_succ]
    split
    · rw [slice_self, ih, new_append_reset]
      rfl
    · rw [slice_succ data _ n hcs (by omega), appendAll_snoc, ← ih]

theorem testedHash_eq (sha256 : List Byte → String) (data : List Byte) (i : Nat)
    (hi : i < data.length) :
    testedHash sha256 data i =
      ((RollingHash.new 48).appendAll
        (slice data (loopAt sha256 data i).chunk_start (i + 1))).hash := by
  unfold testedHash
  rw [slice_succ data _ i (chunk_start_le sha256 data i) hi, appendAll_snoc,
    ← rolling_hash_inv sha256 data i (by omega)]

theorem chunk_start_final (sha256 : List Byte → String) (data : List Byte) :
    (loopAt sha256 data data.length).chunk_start = data.length := by
  cases h : data.length with
  | zero => rfl
  | succ n => rw [chunk_start_succ, if_pos (cutAt_last sha256 data n h)]

theorem take_append_slice (data : List Byte) (a b : Nat) (hab : a ≤ b) :
    data.take a ++ slice data a b = data.take b := by
  unfold slice
  have h : data.take a = (data.take b).take a := by
    rw [List.take_take, Nat.min_eq_left hab]
  rw [h, List.take_append_drop]

/-- The chunks emitted so far tile `data[0 .. chunk_start)`. -/
theorem tile_inv (sha256 : List Byte → String) (data : List Byte) (n : Nat)
    (hn : n ≤ data.length) :
    (∀ k c, (loopAt sha256 data n).chunks[k]? = some c →
      c.offset = (((loopAt sha256 data n).chunks.take k).map ChunkInfo.size).sum) ∧
    ((loopAt sha256 data n).chunks.map ChunkInfo.size).sum
      = (loopAt sha256 data n).chunk_start ∧
    ((loopAt sha256 data n).chunks.map
        (fun c => slice data c.offset (c.offset + c.size))).flatten
      = data.take (loopAt sha256 data n).chunk_start := by
  induction n with
  | zero =>
    refine ⟨?_, rfl, ?_⟩
    · intro k c h
      simp [loopAt, loopInit] at h
    · simp [loopAt, loopInit]
  | succ n ih =>
    obtain ⟨ih1, ih2, ih3⟩ := ih (by omega)
    have hcs := chunk_start_le sha256 data n
    rw [chunks_succ, chunk_start_succ]
    split
    · have hsz := chunkOf_size sha256 data n (by omega)
      have hoff := chunkOf_offset sha256 data n
      refine ⟨?_, ?_, ?_⟩
      · intro k c h
        rcases Nat.lt_or_ge k (loopAt sha256 data n).chunks.length with hk | hk
        · rw [List.getElem?_append_left hk] at h
          rw [List.take_append_of_le_length (Nat.le_of_lt hk)]
          exact ih1 k c h
        · rw [List.getElem?_append_right hk] at h
          have hk0 : k - (loopAt sha256 data n).chunks.length = 0 := by
            by_contra hne
            rw [List.getElem?_eq_none (by simp; omega)] at h
            exact Option.noConfusion h
          rw [hk0] at h
          simp only [List.getElem?_cons_zero, Option.some.injEq] at h
          have hk1 : k = (loopAt sha256 data n).chunks.length := by omega
          subst hk1
          rw [List.take_left, ih2, ← h, hoff]
      · rw [List.map_append, List.sum_append, ih2]
        simp only [List.map_cons, List.map_nil, List.sum_cons, List.sum_nil]
        omega
      · rw [List.map_append, List.flatten_append, ih3]
        simp only [List.map_cons, List.map_nil, List.flatten_cons, List.flatten_nil,
          List.append_nil]
        rw [hoff, hsz, show (loopAt sha256 data n).chunk_start
            + (n + 1 - (loopAt sha256 data n).chunk_start) = n + 1 by omega]
        exact take_append_slice data _ _ (by omega)
    · exact ⟨ih1, ih2, ih3⟩

/-- The offset of a chunk is the total size of the chunks before it. -/
theorem chunk_offset_eq (sha256 : List Byte → String) (data : List Byte) (k : Nat)
    (c : ChunkInfo) (hc : (chunkData sha256 data)[k]? = some c) :
    c.offset = (((chunkData sha256 data).take k).map ChunkInfo.size).sum := by
  rw [chunkData_eq] at hc ⊢
  exact (tile_inv sha256 data data.length (Nat.le_refl _)).1 k c hc

/-- Each chunk starts where the chunk before it ends. -/
theorem chunk_offset_succ (sha256 : List Byte → String) (data : List Byte) (k : Nat)
    (c d : ChunkInfo) (hc : (chunkData sha256 data)[k]? = some c)
    (hd : (chunkData sha256 data)[k + 1]? = some d) : d.offset = c.offset + c.size := by
  rw [chunk_offset_eq sha256 data (k + 1) d hd, chunk_offset_eq sha256 data k c hc,
    List.take_succ, List.map_append, List.sum_append, hc]
  simp

/-- The chunk sizes add up to the length of the input. -/
theorem chunk_sizes_sum (sha256 : List Byte → String) (data : List Byte) :
    ((chunkData sha256 data).map ChunkInfo.size).sum = data.length := by
  have h := (tile_inv sha256 data data.length (Nat.le_refl _)).2.1
  rw [chunk_start_final] at h
  rw [chunkData_eq]
  exact h

/-- C1: the chunks of `chunkData` tile the input: the first offset is 0, each
later offset is the previous offset plus the previous size, the sizes sum to
the input length, and the chunk byte ranges concatenated in order are the
input. -/
theorem chunkData_tiles_input (sha256 : List Byte → String) (data : List Byte) :
    (∀ c, (chunkData sha256 data).head? = some c → c.offset = 0) ∧
    (∀ k c d, (chunkData sha256 data)[k]? = some c →
      (chunkData sha256 data)[k + 1]? = some d → d.offset = c.offset + c.size) ∧
    ((chunkData sha256 data).map ChunkInfo.size).sum = data.length ∧
    ((chunkData sha256 data).map
        (fun c => slice data c.offset (c.offset + c.size))).flatten = data := by
  refine ⟨?_, chunk_offset_succ sha256 data, chunk_sizes_sum sha256 data, ?_⟩
  · intro c hc
    have h := chunk_offset_eq sha256 data 0 c (by rw [← hc, List.head?_eq_getElem?])
    simpa using h
  · have h := (tile_inv sha256 data data.length (Nat.le_refl _)).2.2
    rw [chunk_start_final, List.take_length] at h
    rw [chunkData_eq]
    exact h

/-- Every emitted chunk is the one cut at some index `j` of the input, ends
right after `j`, and holds between 1 and `kMaxChunkSize` bytes. -/
theorem mem_chunkData (sha256 : List Byte → String) (data : List Byte) (c : ChunkInfo)
    (hc : c ∈ chunkData sha256 data) :
    ∃ j, j < data.length ∧ cutAt sha256 data j = true ∧ c = chunkOf sha256 data j ∧
      c.offset = (loopAt sha256 data j).chunk_start ∧ c.offset ≤ j ∧
      c.offset + c.size = j + 1 ∧ 1 ≤ c.size ∧ c.size ≤ kMaxChunkSize := by
  rw [chunkData_eq, mem_chunks_iff] at hc
  obtain ⟨j, hj, hcut, rfl⟩ := hc
  have hcs := chunk_start_le sha256 data j
  have hsz := chunkOf_size sha256 data j hj
  have hoff := chunkOf_offset sha256 data j
  have hp := pending_lt_max sha256 data j
  refine ⟨j, hj, hcut, rfl, hoff, ?_, ?_, ?_, ?_⟩ <;> omega

/-- C2: every chunk of `chunkData` but the last holds between 4096 and
1048576 bytes; the last holds between 1 and 1048576 bytes, and there are
inputs whose last chunk is shorter than 4096 bytes. -/
theorem chunk_size_bounds (sha256 : List Byte → String) (data : List Byte) :
    (∀ k c, (chunkData sha256 data)[k]? = some c → k + 1 < (chunkData sha256 data).length →
      4096 ≤ c.size ∧ c.size ≤ 1048576) ∧
    (∀ c, (chunkData sha256 data).getLast? = some c → 1 ≤ c.size ∧ c.size ≤ 1048576) ∧
    (∃ small : List Byte, ∃ c, (chunkData sha256 small).getLast? = some c ∧ c.size < 4096) := by
  refine ⟨?_, ?_, ?_⟩
  · intro k c hc hk
    obtain ⟨d, hd⟩ : ∃ d, (chunkData sha256 data)[k + 1]? = some d :=
      ⟨_, List.getElem?_eq_getElem hk⟩
    have htile := chunk_offset_succ sha256 data k c d hc hd
    obtain ⟨j, hj, hcut, -, hoff, hle, hend, -, hmax⟩ :=
      mem_chunkData sha256 data c (List.getElem?_mem hc)
    obtain ⟨j', hj', -, -, -, hle', -, -, -⟩ :=
      mem_chunkData sha256 data d (List.getElem?_mem hd)
    have hmin := cut_min_size sha256 data j hcut (by omega)
    have hkmin : kMinChunkSize = 4096 := rfl
    have hkmax : kMaxChunkSize = 1048576 := rfl
    omega
  · intro c hc
    obtain ⟨j, -, -, -, -, -, -, h1, hmax⟩ :=
      mem_chunkData sha256 data c (List.mem_of_mem_getLast? hc)
    have hkmax : kMaxChunkSize = 1048576 := rfl
    omega
  · exact ⟨[0], ⟨0, 1, sha256 [0]⟩, rfl, show (1 : Nat) < 4096 by decide⟩

theorem cutCond_iff (len h s i : Nat) :
    cutCond len h s i = true ↔
      (4096 ≤ s ∧ s < 34816 ∧ h &&& 0x7FFF = 0) ∨ (34816 ≤ s ∧ h &&& 0xFFFF = 0) ∨
        1048576 ≤ s ∨ i = len - 1 := by
  have h1 : kMask >>> 1 = 0x7FFF := by decide
  have h2 : kMask = 0xFFFF := by decide
  have h3 : normalized_chunk_size = 34816 := by decide
  have h4 : kMinChunkSize = 4096 := rfl
  have h5 : kMaxChunkSize = 1048576 := rfl
  simp only [cutCond, isBoundary, h1, h2, h3, h4, h5, Bool.or_eq_true, decide_eq_true_eq]
  by_cases hs1 : 4096 ≤ s ∧ s < 34816
  · rw [if_pos hs1]
    simp only [beq_iff_eq]
    constructor
    · rintro ((hb | hm) | hl)
      · exact Or.inl ⟨hs1.1, hs1.2, hb⟩
      · exact Or.inr (Or.inr (Or.inl hm))
      · exact Or.inr (Or.inr (Or.inr hl))
    · rintro (⟨-, -, hb⟩ | ⟨hs, -⟩ | hm | hl)
      · exact Or.inl (Or.inl hb)
      · omega
      · exact Or.inl (Or.inr hm)
      · exact Or.inr hl
  · rw [if_neg hs1]
    by_cases hs2 : 34816 ≤ s
    · rw [if_pos hs2]
      simp only [beq_iff_eq]
      constructor
      · rintro ((hb | hm) | hl)
        · exact Or.inr (Or.inl ⟨hs2, hb⟩)
        · exact Or.inr (Or.inr (Or.inl hm))
        · exact Or.inr (Or.inr (Or.inr hl))
      · rintro (⟨h6, h7, -⟩ | ⟨-, hb⟩ | hm | hl)
        · exact absurd ⟨h6, h7⟩ hs1
        · exact Or.inl (Or.inl hb)
        · exact Or.inl (Or.inr hm)
        · exact Or.inr hl
    · rw [if_neg hs2]
      constructor
      · rintro ((hb | hm) | hl)
        · exact absurd hb (by decide)
        · exact Or.inr (Or.inr (Or.inl hm))
        · exact Or.inr (Or.inr (Or.inr hl))
      · rintro (⟨h6, h7, -⟩ | ⟨h6, -⟩ | hm | hl)
        · exact absurd ⟨h6, h7⟩ hs1
        · exact absurd h6 hs2
        · exact Or.inl (Or.inr hm)
        · exact Or.inr hl

/-- The chunk that holds byte `i` starts where iteration `i` has its
`chunk_start`, and it ends at `i` exactly when iteration `i` cuts. -/
theorem chunk_holding (sha256 : List Byte → String) (data : List Byte) (i : Nat)
    (c : ChunkInfo) (hc : c ∈ chunkData sha256 data) (hlo : c.offset ≤ i)
    (hhi : i < c.offset + c.size) :
    c.offset = (loopAt sha256 data i).chunk_start ∧
      (c.offset + c.size = i + 1 ↔ cutAt sha256 data i = true) := by
  obtain ⟨j, hj, hcut, -, hoff, hle, hend, -, -⟩ := mem_chunkData sha256 data c hc
  have hij : i ≤ j := by omega
  have hno : ∀ k, i ≤ k → k < j → cutAt sha256 data k = false := by
    intro k hk1 hk2
    by_contra hne
    have := chunk_start_gt_of_cut sha256 data k j (by simpa using hne) hk2
    omega
  have hcs := chunk_start_const sha256 data i j hij hno
  refine ⟨by omega, ?_⟩
  constructor
  · intro h
    have : j = i := by omega
    subst this
    exact hcut
  · intro h
    rcases Nat.eq_or_lt_of_le hij with h1 | h1
    · omega
    · rw [hno i (Nat.le_refl _) h1] at h
      exact absurd h (by decide)

/-- Every byte of the input lies in some chunk. -/
theorem exists_chunk_holding (sha256 : List Byte → String) (data : List Byte) (i : Nat)
    (hi : i < data.length) :
    ∃ c ∈ chunkData sha256 data, c.offset ≤ i ∧ i < c.offset + c.size := by
  have hex : ∃ j, i ≤ j ∧ cutAt sha256 data j = true :=
    ⟨data.length - 1, by omega, cutAt_last sha256 data _ (by omega)⟩
  classical
  have hspec := Nat.find_spec hex
  have hmin := fun k => Nat.find_min (m := k) hex
  generalize Nat.find hex = j at hspec hmin
  have hjlen : j < data.length := by
    by_contra hge
    exact hmin (data.length - 1) (by omega)
      ⟨by omega, cutAt_last sha256 data _ (by omega)⟩
  have hno : ∀ k, i ≤ k → k < j → cutAt sha256 data k = false := by
    intro k hk1 hk2
    by_contra hne
    exact hmin k hk2 ⟨hk1, by simpa using hne⟩
  have hcs := chunk_start_const sha256 data i j hspec.1 hno
  have hle := chunk_start_le sha256 data i
  refine ⟨chunkOf sha256 data j, ?_, ?_, ?_⟩
  · rw [chunkData_eq, mem_chunks_iff]
    exact ⟨j, hjlen, hspec.2, rfl⟩
  · rw [chunkOf_offset]
    omega
  · rw [chunkOf_offset, chunkOf_size sha256 data j hjlen]
    have := hspec.1
    omega

/-- C3: byte `i` of the input lies in a chunk, and that chunk ends at `i` if
and only if, with `s` the length from the chunk's start up to and including
`i` and `h` the rolling hash of exactly those bytes, `4096 ≤ s < 34816` and
`h & 0x7FFF = 0`, or `s ≥ 34816` and `h & 0xFFFF = 0`, or `s ≥ 1048576`, or `i`
is the last index; and `normalized_chunk_size` is 34816. -/
theorem cut_condition (sha256 : List Byte → String) (data : List Byte) (i : Nat)
    (hi : i < data.length) :
    (∃ c ∈ chunkData sha256 data, c.offset ≤ i ∧ i < c.offset + c.size) ∧
    (∀ c ∈ chunkData sha256 data, c.offset ≤ i → i < c.offset + c.size →
      (c.offset + c.size = i + 1 ↔
        (4096 ≤ i + 1 - c.offset ∧ i + 1 - c.offset < 34816 ∧
          ((RollingHash.new 48).appendAll (slice data c.offset (i + 1))).hash &&& 0x7FFF = 0) ∨
        (34816 ≤ i + 1 - c.offset ∧
          ((RollingHash.new 48).appendAll (slice data c.offset (i + 1))).hash &&& 0xFFFF = 0) ∨
        1048576 ≤ i + 1 - c.offset ∨
        i = data.length - 1)) ∧
    normalized_chunk_size = 34816 ∧
    kMinChunkSize + (kAvgChunkSize - kMinChunkSize) / 2 = 34816 := by
  refine ⟨exists_chunk_holding sha256 data i hi, ?_, by decide, by decide⟩
  intro c hc hlo hhi
  obtain ⟨hoff, hiff⟩ := chunk_holding sha256 data i c hc hlo hhi
  rw [hiff, cutAt, testedHash_eq sha256 data i hi, cutCond_iff, ← hoff]

/-- C3 at index 1 of the three bytes 5, 6, 7. -/
theorem cut_condition_witness :
    (∃ c ∈ chunkData (fun _ => "") [5, 6, 7], c.offset ≤ 1 ∧ 1 < c.offset + c.size) ∧
    (∀ c ∈ chunkData (fun _ => "") [5, 6, 7], c.offset ≤ 1 → 1 < c.offset + c.size →
      (c.offset + c.size = 1 + 1 ↔
        (4096 ≤ 1 + 1 - c.offset ∧ 1 + 1 - c.offset < 34816 ∧
          ((RollingHash.new 48).appendAll (slice [5, 6, 7] c.offset (1 + 1))).hash
            &&& 0x7FFF = 0) ∨
        (34816 ≤ 1 + 1 - c.offset ∧
          ((RollingHash.new 48).appendAll (slice [5, 6, 7] c.offset (1 + 1))).hash
            &&& 0xFFFF = 0) ∨
        1048576 ≤ 1 + 1 - c.offset ∨
        1 = ([5, 6, 7] : List Byte).length - 1)) ∧
    normalized_chunk_size = 34816 ∧
    kMinChunkSize + (kAvgChunkSize - kMinChunkSize) / 2 = 34816 :=
  cut_condition (fun _ => "") [5, 6, 7] 1 (by decide)

/-! ### Running the loop over a stretch without cuts -/

theorem chunks_const (sha256 : List Byte → String) (data : List Byte) (a b : Nat)
    (hab : a ≤ b) (hno : ∀ k, a ≤ k → k < b → cutAt sha256 data k = false) :
    (loopAt sha256 data b).chunks = (loopAt sha256 data a).chunks := by
  induction b with
  | zero =>
    have : a = 0 := by omega
    subst this
    rfl
  | succ b ih =>
    rcases Nat.eq_or_lt_of_le hab with h | h
    · subst h
      rfl
    · rw [chunks_succ, hno b (by omega) (by omega)]
      simp only [Bool.false_eq_true, if_false]
      exact ih (by omega) (fun k h1 h2 => hno k h1 (by omega))

theorem testedHash_poly (sha256 : List Byte → String) (data : List Byte) (i : Nat)
    (hi : i < data.length) :
    testedHash sha256 data i =
      RollingHash.polyFrom 0 (slice data (loopAt sha256 data i).chunk_start (i + 1))
        % kMod := by
  rw [testedHash_eq sha256 data i hi, RollingHash.hash,
    RollingHash.appendAll_hash _ _ (by rw [new_hash_zero]; exact RollingHash.kMod_pos),
    new_hash_zero]

theorem cutAt_of_start (sha256 : List Byte → String) (data : List Byte) (k a : Nat)
    (hk : k < data.length) (h : (loopAt sha256 data k).chunk_start = a) :
    cutAt sha256 data k =
      cutCond data.length (RollingHash.polyFrom 0 (slice data a (k + 1)) % kMod)
        (k + 1 - a) k := by
  unfold cutAt
  rw [testedHash_poly sha256 data k hk, h]

/-- A chunk that starts at `a` and whose first cut falls at `b`. -/
theorem segment (sha256 : List Byte → String) (data : List Byte) (a b : Nat)
    (hab : a ≤ b) (hb : b < data.length) (hstart : (loopAt sha256 data a).chunk_start = a)
    (hno : ∀ k, a ≤ k → k < b →
      cutCond data.length (RollingHash.polyFrom 0 (slice data a (k + 1)) % kMod)
        (k + 1 - a) k = false)
    (hcut : cutCond data.length (RollingHash.polyFrom 0 (slice data a (b + 1)) % kMod)
        (b + 1 - a) b = true) :
    (loopAt sha256 data (b + 1)).chunk_start = b + 1 ∧
    (loopAt sha256 data (b + 1)).chunks =
      (loopAt sha256 data a).chunks ++ [⟨a, b + 1 - a, sha256 (slice data a (b + 1))⟩] := by
  have hrun : ∀ d, a + d ≤ b → (loopAt sha256 data (a + d)).chunk_start = a ∧
      (loopAt sha256 data (a + d)).chunks = (loopAt sha256 data a).chunks := by
    intro d
    induction d with
    | zero => intro _; exact ⟨hstart, rfl⟩
    | succ d ih =>
      intro hd
      obtain ⟨h1, h2⟩ := ih (by omega)
      have hc : cutAt sha256 data (a + d) = false := by
        rw [cutAt_of_start sha256 data (a + d) a (by omega) h1]
        exact hno (a + d) (by omega) (by omega)
      rw [← Nat.add_assoc, chunk_start_succ, chunks_succ, hc]
      exact ⟨h1, h2⟩
  obtain ⟨h1, h2⟩ := hrun (b - a) (by omega)
  rw [show a + (b - a) = b by omega] at h1 h2
  have hc : cutAt sha256 data b = true := by
    rw [cutAt_of_start sha256 data b a hb h1]
    exact hcut
  rw [chunk_start_succ, chunks_succ, hc, h2]
  refine ⟨rfl, ?_⟩
  simp only [if_true]
  congr 2
  unfold chunkOf
  rw [h1, slice_length data a (b + 1) hb]

theorem cutCond_small (len h s i : Nat) (hs : s < 4096) (hi : i ≠ len - 1) :
    cutCond len h s i = false := by
  rw [← Bool.not_eq_true, cutCond_iff]
  omega

theorem cutCond_early (len h s i : Nat) (hs : s < 34816) (hi : i ≠ len - 1)
    (hh : h &&& 32767 ≠ 0) : cutCond len h s i = false := by
  rw [← Bool.not_eq_true, cutCond_iff]
  rintro (⟨-, -, h0⟩ | ⟨h1, -⟩ | h1 | h1)
  · exact hh h0
  · omega
  · omega
  · exact hi h1

/-! ### Inputs made of zero bytes, possibly after a leading 1 -/

theorem poly_zeros (l : List Byte) (hl : ∀ x ∈ l, x = 0) : RollingHash.polyFrom 0 l = 0 := by
  induction l using List.reverseRecOn with
  | nil => rfl
  | append_singleton l x ih =>
    rw [RollingHash.polyFrom_append, ih (fun y hy => hl y (List.mem_append_left _ hy)),
      hl x (by simp)]
    rfl

theorem slice_replicate (n a b : Nat) (x : Byte) (hb : b ≤ n) :
    slice (List.replicate n x) a b = List.replicate (b - a) x := by
  unfold slice
  rw [List.take_replicate, List.drop_replicate, Nat.min_eq_left hb]

theorem slice_one_zeros (n k : Nat) (hk : k ≤ n) :
    slice ((1 : Byte) :: List.replicate n 0) 0 (k + 1) = 1 :: List.replicate k 0 := by
  unfold slice
  rw [List.take_succ_cons, List.take_replicate, Nat.min_eq_left hk, List.drop_zero]

theorem poly_one_zeros (k : Nat) :
    RollingHash.polyFrom 0 ((1 : Byte) :: List.replicate k 0) = 31 ^ k := by
  rw [RollingHash.polyFrom_cons, RollingHash.polyFrom_split,
    poly_zeros _ (fun x hx => List.eq_of_mem_replicate hx), List.length_replicate]
  simp [kPrime]

theorem masked_block (n a h : Nat) (hh : 31 ^ a % 1000000009 = h)
    (hrun : maskedRun h n = true) :
    ∀ k, a ≤ k → k < a + n → 31 ^ k % 1000000009 &&& 32767 ≠ 0 := by
  induction n generalizing a h with
  | zero => intro k h1 h2; omega
  | succ n ih =>
    intro k h1 h2
    simp only [maskedRun, Bool.and_eq_true, bne_iff_ne, ne_eq] at hrun
    rcases Nat.eq_or_lt_of_le h1 with h3 | h3
    · subst h3
      rw [hh]
      exact hrun.1
    · refine ih (a + 1) (h * 31 % 1000000009) ?_ hrun.2 k (by omega) (by omega)
      rw [pow_succ, Nat.mul_mod, hh]

set_option maxRecDepth 20000 in
theorem masked_blocks :
    ∀ k, 4095 ≤ k → k < 8192 → 31 ^ k % 1000000009 &&& 32767 ≠ 0 := by
  have b0 := masked_block 512 4095 206806178 (by norm_num) (by decide)
  have b1 := masked_block 512 4607 550353224 (by norm_num) (by decide)
  have b2 := masked_block 512 5119 738142290 (by norm_num) (by decide)
  have b3 := masked_block 512 5631 94339994 (by norm_num) (by decide)
  have b4 := masked_block 512 6143 355244668 (by norm_num) (by decide)
  have b5 := masked_block 512 6655 751965785 (by norm_num) (by decide)
  have b6 := masked_block 512 7167 882644067 (by norm_num) (by decide)
  have b7 := masked_block 512 7679 472538806 (by norm_num) (by decide)
  have b8 := masked_block 1 8191 95504435 (by norm_num) (by decide)
  intro k h1 h2
  by_cases c0 : k < 4607
  · exact b0 k h1 (by omega)
  by_cases c1 : k < 5119
  · exact b1 k (by omega) (by omega)
  by_cases c2 : k < 5631
  · exact b2 k (by omega) (by omega)
  by_cases c3 : k < 6143
  · exact b3 k (by omega) (by omega)
  by_cases c4 : k < 6655
  · exact b4 k (by omega) (by omega)
  by_cases c5 : k < 7167
  · exact b5 k (by omega) (by omega)
  by_cases c6 : k < 7679
  · exact b6 k (by omega) (by omega)
  by_cases c7 : k < 8191
  · exact b7 k (by omega) (by omega)
  · exact b8 k (by omega) (by omega)

theorem no_cut_before_min (sha256 : List Byte → String) (data : List Byte) (k : Nat)
    (hk : k + 1 < kMinChunkSize) (hl : k ≠ data.length - 1) :
    cutAt sha256 data k = false := by
  by_contra hne
  have := cut_min_size sha256 data k (by simpa using hne) hl
  omega

theorem chunk_start_before_min (sha256 : List Byte → String) (data : List Byte) (n : Nat)
    (hn : n < kMinChunkSize) (hl : n < data.length) :
    (loopAt sha256 data n).chunk_start = 0 := by
  have := chunk_start_const sha256 data 0 n (Nat.zero_le _)
    (fun k _ hk => no_cut_before_min sha256 data k (by omega) (by omega))
  rw [this]
  rfl

/-- C4, the code at a failing input. For the 4097 bytes `1, 0, …, 0` the
chunk holding index 4095 starts at 0, so `s = 4096`; the hash tested there is
`31 ^ 4095 mod 1000000009 = 206806178`, the hash of all 4096 bytes, whereas the
trailing 48 bytes are zeros and hash to 0. Changing byte 0, which lies 4095
positions back, to 0 flips the cut decision at index 4095. -/
theorem tested_hash_spans_whole_chunk (sha256 : List Byte → String) :
    (loopAt sha256 ((1 : Byte) :: List.replicate 4096 0) 4095).chunk_start = 0 ∧
    testedHash sha256 ((1 : Byte) :: List.replicate 4096 0) 4095 = 206806178 ∧
    RollingHash.polyFrom 0 (slice ((1 : Byte) :: List.replicate 4096 0) (4096 - 48) 4096)
      % 1000000009 = 0 ∧
    cutAt sha256 ((1 : Byte) :: List.replicate 4096 0) 4095 = false ∧
    cutAt sha256 (List.replicate 4097 (0 : Byte)) 4095 = true := by
  have hlen : ((1 : Byte) :: List.replicate 4096 0).length = 4097 := by
    rw [List.length_cons, List.length_replicate]
  have hlen0 : (List.replicate 4097 (0 : Byte)).length = 4097 := List.length_replicate _ _
  have hcs := chunk_start_before_min sha256 ((1 : Byte) :: List.replicate 4096 0) 4095
    (by decide) (by rw [hlen]; decide)
  have hcs0 := chunk_start_before_min sha256 (List.replicate 4097 (0 : Byte)) 4095
    (by decide) (by rw [hlen0]; decide)
  have hpow : 31 ^ 4095 % kMod = 206806178 := by norm_num [kMod]
  have hth : testedHash sha256 ((1 : Byte) :: List.replicate 4096 0) 4095 = 206806178 := by
    rw [testedHash_poly _ _ _ (by rw [hlen]; decide), hcs, slice_one_zeros 4096 4095 (by decide),
      poly_one_zeros]
    exact hpow
  refine ⟨hcs, hth, ?_, ?_, ?_⟩
  · have hz : ∀ x ∈ slice ((1 : Byte) :: List.replicate 4096 0) (4096 - 48) 4096, x = 0 := by
      intro x hx
      have h1 : x ∈ ((1 : Byte) :: List.replicate 4096 0).drop (4096 - 48) :=
        List.mem_of_mem_take (by
          unfold slice at hx
          rw [List.drop_take] at hx
          exact hx)
      rw [show 4096 - 48 = 4047 + 1 by decide, List.drop_succ_cons] at h1
      exact List.eq_of_mem_replicate (List.mem_of_mem_drop h1)
    rw [poly_zeros _ hz]
  · unfold cutAt
    rw [hth, hcs, hlen]
    exact cutCond_early _ _ _ _ (by decide) (by decide) (by decide)
  · rw [cutAt_of_start sha256 _ 4095 0 (by rw [hlen0]; decide) hcs0, hlen0,
      slice_replicate 4097 0 4096 0 (by decide),
      poly_zeros _ (fun x hx => List.eq_of_mem_replicate hx), cutCond_iff]
    exact Or.inl ⟨by decide, by decide, by decide⟩

theorem chunks_one_zeros (sha256 : List Byte → String) :
    chunkData sha256 ((1 : Byte) :: List.replicate 8192 0) =
      [⟨0, 8193, sha256 ((1 : Byte) :: List.replicate 8192 0)⟩] := by
  have hlen : ((1 : Byte) :: List.replicate 8192 0).length = 8193 := by
    rw [List.length_cons, List.length_replicate]
  have h := segment sha256 ((1 : Byte) :: List.replicate 8192 0) 0 8192 (by decide)
    (by rw [hlen]; decide) rfl
    (by
      intro k _ hk
      rw [slice_one_zeros 8192 k (by omega), poly_one_zeros, hlen]
      by_cases hs : k + 1 < 4096
      · exact cutCond_small _ _ _ _ (by omega) (by omega)
      · exact cutCond_early _ _ _ _ (by omega) (by omega) (masked_blocks k (by omega) hk))
    (by
      rw [cutCond_iff, hlen]
      exact Or.inr (Or.inr (Or.inr rfl)))
  rw [chunkData_eq, hlen, h.2, slice_one_zeros 8192 8192 (Nat.le_refl _)]
  rfl

theorem cutCond_zeros (len a k : Nat) (x : Byte) (hx : x = 0) (hk : k + 1 ≤ len) :
    cutCond len (RollingHash.polyFrom 0 (slice (List.replicate len x) a (k + 1)) % kMod)
        (k + 1 - a) k = true ↔ 4096 ≤ k + 1 - a ∨ k = len - 1 := by
  subst hx
  rw [slice_replicate len a (k + 1) 0 hk,
    poly_zeros _ (fun x hx => List.eq_of_mem_replicate hx), cutCond_iff]
  have h0 : (0 % kMod) &&& 0x7FFF = 0 := by decide
  have h1 : (0 % kMod) &&& 0xFFFF = 0 := by decide
  constructor
  · rintro (⟨h, -, -⟩ | ⟨h, -⟩ | h | h) <;> omega
  · rintro (h | h)
    · by_cases hs : k + 1 - a < 34816
      · exact Or.inl ⟨h, hs, h0⟩
      · exact Or.inr (Or.inl ⟨by omega, h1⟩)
    · exact Or.inr (Or.inr (Or.inr h))

theorem chunks_zeros (sha256 : List Byte → String) :
    chunkData sha256 (List.replicate 8193 (0 : Byte)) =
      [⟨0, 4096, sha256 (List.replicate 4096 0)⟩, ⟨4096, 4096, sha256 (List.replicate 4096 0)⟩,
        ⟨8192, 1, sha256 [0]⟩] := by
  have hlen : (List.replicate 8193 (0 : Byte)).length = 8193 := List.length_replicate _ _
  have hz := fun a k hk => cutCond_zeros 8193 a k 0 rfl hk
  rw [← hlen] at hz
  have hno : ∀ a k, k + 1 ≤ 8193 → k + 1 - a < 4096 → k ≠ 8192 →
      cutCond (List.replicate 8193 (0 : Byte)).length
        (RollingHash.polyFrom 0 (slice (List.replicate 8193 0) a (k + 1)) % kMod)
        (k + 1 - a) k = false := by
    intro a k hk h1 h2
    rw [← Bool.not_eq_true]
    rw [hlen] at hz ⊢
    rw [hz a k hk]
    omega
  have s1 := segment sha256 (List.replicate 8193 (0 : Byte)) 0 4095 (by decide)
    (by rw [hlen]; decide) rfl
    (fun k _ hk => hno 0 k (by omega) (by omega) (by omega))
    (by rw [hlen] at hz ⊢; exact (hz 0 4095 (by decide)).mpr (Or.inl (by decide)))
  have s2 := segment sha256 (List.replicate 8193 (0 : Byte)) 4096 8191 (by decide)
    (by rw [hlen]; decide) s1.1
    (fun k _ hk => hno 4096 k (by omega) (by omega) (by omega))
    (by rw [hlen] at hz ⊢; exact (hz 4096 8191 (by decide)).mpr (Or.inl (by decide)))
  have s3 := segment sha256 (List.replicate 8193 (0 : Byte)) 8192 8192 (by decide)
    (by rw [hlen]; decide) s2.1
    (fun k h1 h2 => absurd h2 (by omega))
    (by rw [hlen] at hz ⊢; exact (hz 8192 8192 (by decide)).mpr (Or.inr (by decide)))
  rw [chunkData_eq, hlen, s3.2, s2.2, s1.2,
    slice_replicate 8193 0 4096 0 (by decide), slice_replicate 8193 4096 8192 0 (by decide),
    slice_replicate 8193 8192 8193 0 (by decide)]
  rfl

end Chunker

/-! ## The delta engine -/

namespace DeltaEngine

open Chunker

theorem u64add_mod_left (a b : Nat) : u64add (a % U64) b = (a + b) % U64 := by
  unfold u64add
  rw [Nat.mod_add_mod]

/-- The loop of `computeDelta` started from any accumulator. -/
theorem foldl_deltaStep (S : Finset String) (cs : List ChunkInfo) (d : DeltaInfo) :
    (cs.foldl (deltaStep S) d).new_chunks
      = d.new_chunks ++ cs.filter (fun c => decide (c.hash ∉ S)) ∧
    (cs.foldl (deltaStep S) d).existing_chunks
      = d.existing_chunks ++ cs.filter (fun c => decide (c.hash ∈ S)) ∧
    (cs.foldl (deltaStep S) d).bytes_to_transfer % U64
      = (d.bytes_to_transfer
          + ((cs.filter (fun c => decide (c.hash ∉ S))).map ChunkInfo.size).sum) % U64 := by
  induction cs generalizing d with
  | nil => simp
  | cons c cs ih =>
    rw [List.foldl_cons]
    obtain ⟨h1, h2, h3⟩ := ih (deltaStep S d c)
    rw [h1, h2, h3]
    by_cases hc : c.hash ∈ S
    · have hs : deltaStep S d c
          = { d with existing_chunks := d.existing_chunks ++ [c] } := by
        unfold deltaStep
        rw [if_neg (not_not.mpr hc)]
      rw [hs]
      simp [hc]
    · have hs : deltaStep S d c
          = { d with new_chunks := d.new_chunks ++ [c]
                     bytes_to_transfer := u64add d.bytes_to_transfer c.size } := by
        unfold deltaStep
        rw [if_pos hc]
      rw [hs]
      simp only [hc, not_false_eq_true, decide_True, List.filter_cons_of_pos, List.append_assoc,
        List.singleton_append, decide_False, Bool.false_eq_true, List.filter_cons_of_neg,
        List.map_cons, List.sum_cons, true_and]
      unfold u64add
      rw [Nat.mod_add_mod, Nat.add_assoc]

theorem bytes_lt (S : Finset String) (cs : List ChunkInfo) (d : DeltaInfo)
    (hd : d.bytes_to_transfer < U64) : (cs.foldl (deltaStep S) d).bytes_to_transfer < U64 := by
  induction cs generalizing d with
  | nil => exact hd
  | cons c cs ih =>
    rw [List.foldl_cons]
    apply ih
    unfold deltaStep
    split
    · exact Nat.mod_lt _ (by decide)
    · exact hd

theorem sum_filter_le (p : ChunkInfo → Bool) (cs : List ChunkInfo) :
    ((cs.filter p).map ChunkInfo.size).sum ≤ (cs.map ChunkInfo.size).sum := by
  induction cs with
  | nil => simp
  | cons c cs ih =>
    by_cases hp : p c = true
    · rw [List.filter_cons_of_pos hp]
      simp only [List.map_cons, List.sum_cons]
      omega
    · rw [List.filter_cons_of_neg hp]
      simp only [List.map_cons, List.sum_cons]
      omega

theorem chunkFile_sum (sha256 : List Byte → String) (file : Option (List Byte))
    (hfile : ∀ data, file = some data → data.length < 2 ^ 64) :
    ((chunkFile sha256 file).map ChunkInfo.size).sum < U64 := by
  cases file with
  | none => exact (by decide : 0 < U64)
  | some data =>
    show ((chunkData sha256 data).map ChunkInfo.size).sum < U64
    rw [chunk_sizes_sum sha256 data]
    exact hfile data rfl

/-- The two lists of `computeDelta` are the two filters of the local chunks. -/
theorem computeDelta_lists (sha256 : List Byte → String) (file : Option (List Byte))
    (S : List String) :
    (computeDelta sha256 file S).new_chunks
      = (chunkFile sha256 file).filter (fun c => decide (c.hash ∉ S)) ∧
    (computeDelta sha256 file S).existing_chunks
      = (chunkFile sha256 file).filter (fun c => decide (c.hash ∈ S)) ∧
    (computeDelta sha256 file S).bytes_to_transfer % U64
      = (((chunkFile sha256 file).filter (fun c => decide (c.hash ∉ S))).map
          ChunkInfo.size).sum % U64 := by
  obtain ⟨h1, h2, h3⟩ := foldl_deltaStep (convertToSet S) (chunkFile sha256 file)
    { new_chunks := [], existing_chunks := [], bytes_to_transfer := 0 }
  have hmem : ∀ x : String, x ∈ convertToSet S ↔ x ∈ S := fun x => List.mem_toFinset
  simp only [hmem, List.nil_append, Nat.zero_add] at h1 h2 h3
  exact ⟨h1, h2, h3⟩

/-- C8: `computeDelta` returns as `new_chunks` the local chunks, in order,
whose digest is not among the server digests, and as `existing_chunks` those
whose digest is; each local chunk is in exactly one of the two lists, no new
chunk's digest is a server digest, and `bytes_to_transfer` is the sum of the
sizes of the new chunks. The local file holds fewer than `2 ^ 64` bytes. -/
theorem computeDelta_partitions (sha256 : List Byte → String) (file : Option (List Byte))
    (S : List String) (hfile : ∀ data, file = some data → data.length < 2 ^ 64) :
    (computeDelta sha256 file S).new_chunks
      = (chunkFile sha256 file).filter (fun c => decide (c.hash ∉ S)) ∧
    (computeDelta sha256 file S).existing_chunks
      = (chunkFile sha256 file).filter (fun c => decide (c.hash ∈ S)) ∧
    (∀ c ∈ chunkFile sha256 file,
      (c ∈ (computeDelta sha256 file S).new_chunks ∧
          c ∉ (computeDelta sha256 file S).existing_chunks) ∨
      (c ∈ (computeDelta sha256 file S).existing_chunks ∧
          c ∉ (computeDelta sha256 file S).new_chunks)) ∧
    ((computeDelta sha256 file S).new_chunks.length
      + (computeDelta sha256 file S).existing_chunks.length
        = (chunkFile sha256 file).length) ∧
    (∀ c ∈ (computeDelta sha256 file S).new_chunks, c.hash ∉ S) ∧
    (computeDelta sha256 file S).bytes_to_transfer
      = ((computeDelta sha256 file S).new_chunks.map ChunkInfo.size).sum := by
  obtain ⟨hn, he, hb⟩ := computeDelta_lists sha256 file S
  refine ⟨hn, he, ?_, ?_, ?_, ?_⟩
  · intro c hc
    rw [hn, he]
    by_cases hS : c.hash ∈ S
    · right
      simp [List.mem_filter, hc, hS]
    · left
      simp [List.mem_filter, hc, hS]
  · rw [hn, he]
    have := List.length_eq_length_filter_add (l := chunkFile sha256 file)
      (fun c => decide (c.hash ∈ S))
    rw [this, Nat.add_comm]
    congr 2
    apply List.filter_congr
    intro c _
    simp
  · intro c hc
    rw [hn, List.mem_filter] at hc
    simpa using hc.2
  · have hlt : (computeDelta sha256 file S).bytes_to_transfer < U64 :=
      bytes_lt _ _ _ (by decide)
    have hsum := Nat.lt_of_le_of_lt
      (sum_filter_le (fun c => decide (c.hash ∉ S)) (chunkFile sha256 file))
      (chunkFile_sum sha256 file hfile)
    rw [Nat.mod_eq_of_lt hlt, Nat.mod_eq_of_lt hsum] at hb
    rw [hb, hn]

/-- C8 on a local file of three bytes against one server digest. -/
theorem computeDelta_partitions_witness :
    (computeDelta (fun _ => "d") (some [5, 6, 7]) ["e"]).new_chunks
      = (chunkFile (fun _ => "d") (some [5, 6, 7])).filter (fun c => decide (c.hash ∉ ["e"])) ∧
    (computeDelta (fun _ => "d") (some [5, 6, 7]) ["e"]).existing_chunks
      = (chunkFile (fun _ => "d") (some [5, 6, 7])).filter (fun c => decide (c.hash ∈ ["e"])) ∧
    (∀ c ∈ chunkFile (fun _ => "d") (some [5, 6, 7]),
      (c ∈ (computeDelta (fun _ => "d") (some [5, 6, 7]) ["e"]).new_chunks ∧
          c ∉ (computeDelta (fun _ => "d") (some [5, 6, 7]) ["e"]).existing_chunks) ∨
      (c ∈ (computeDelta (fun _ => "d") (some [5, 6, 7]) ["e"]).existing_chunks ∧
          c ∉ (computeDelta (fun _ => "d") (some [5, 6, 7]) ["e"]).new_chunks)) ∧
    ((computeDelta (fun _ => "d") (some [5, 6, 7]) ["e"]).new_chunks.length
      + (computeDelta (fun _ => "d") (some [5, 6, 7]) ["e"]).existing_chunks.length
        = (chunkFile (fun _ => "d") (some [5, 6, 7])).length) ∧
    (∀ c ∈ (computeDelta (fun _ => "d") (some [5, 6, 7]) ["e"]).new_chunks, c.hash ∉ ["e"]) ∧
    (computeDelta (fun _ => "d") (some [5, 6, 7]) ["e"]).bytes_to_transfer
      = ((computeDelta (fun _ => "d") (some [5, 6, 7]) ["e"]).new_chunks.map
          ChunkInfo.size).sum :=
  computeDelta_partitions (fun _ => "d") (some [5, 6, 7]) ["e"]
    (fun data h => by cases h; decide)

/-- The loop of `applyDelta` when the declared sizes still to come do not
take the offset past `2 ^ 64`. -/
theorem applyDeltaLoop_spec (chunk_data : List Byte) (chunks : List ChunkInfo)
    (data_offset : Nat) (written : List Byte) (hoff : data_offset ≤ chunk_data.length)
    (hsum : data_offset + (chunks.map ChunkInfo.size).sum < U64) :
    applyDeltaLoop chunk_data chunks data_offset written =
      if data_offset + (chunks.map ChunkInfo.size).sum ≤ chunk_data.length then
        (true, written ++ (chunk_data.drop data_offset).take (chunks.map ChunkInfo.size).sum)
      else
        (false, (applyDeltaLoop chunk_data chunks data_offset written).2) := by
  induction chunks generalizing data_offset written with
  | nil => simp [applyDeltaLoop, hoff]
  | cons c cs ih =>
    simp only [List.map_cons, List.sum_cons] at hsum ⊢
    have hadd : u64add data_offset c.size = data_offset + c.size :=
      Nat.mod_eq_of_lt (by omega)
    rw [applyDeltaLoop, hadd]
    by_cases hgt : data_offset + c.size > chunk_data.length
    · rw [if_pos hgt, if_neg (by omega)]
    · rw [if_neg hgt, ih (data_offset + c.size) _ (by omega) (by omega)]
      by_cases hle : data_offset + (c.size + (cs.map ChunkInfo.size).sum) ≤ chunk_data.length
      · rw [if_pos (by omega), if_pos hle, List.append_assoc, List.take_add, List.drop_drop]
      · rw [if_neg (by omega), if_neg hle]

/-- C9 fails as stated: two bytes for a single declared chunk of one byte are
more than the declared sizes, and `applyDelta` succeeds, writing the first. -/
theorem applyDelta_accepts_longer_input :
    ([7, 9] : List Byte).length ≠ (([⟨0, 1, ""⟩] : List ChunkInfo).map ChunkInfo.size).sum ∧
    applyDelta true [⟨0, 1, ""⟩] [7, 9] = (true, some [7]) := by
  decide

/-- When the declared sizes sum to less than `2 ^ 64` and to no more than the
number of bytes, `applyDelta` writes the first sum-many bytes. -/
theorem applyDelta_of_sum_le (chunks : List ChunkInfo) (bytes : List Byte)
    (hsum : (chunks.map ChunkInfo.size).sum < U64)
    (hle : (chunks.map ChunkInfo.size).sum ≤ bytes.length) :
    applyDelta true chunks bytes
      = (true, some (bytes.take (chunks.map ChunkInfo.size).sum)) := by
  have h := applyDeltaLoop_spec bytes chunks 0 [] (Nat.zero_le _)
    (by rw [Nat.zero_add]; exact hsum)
  simp only [Nat.zero_add, List.drop_zero, List.nil_append] at h
  show ((applyDeltaLoop bytes chunks 0 []).1, some (applyDeltaLoop bytes chunks 0 []).2) = _
  rw [h, if_pos hle]

/-- C9 as amended: with declared sizes that sum to less than `2 ^ 64`,
`applyDelta` fails when the bytes are fewer than that sum; when they are as
many or more and the output file opens it succeeds and writes the first
sum-many bytes; it fails without writing when the file does not open. -/
theorem applyDelta_length_check (chunks : List ChunkInfo) (bytes : List Byte)
    (hsum : (chunks.map ChunkInfo.size).sum < 2 ^ 64) :
    (bytes.length < (chunks.map ChunkInfo.size).sum →
      ∀ canOpen, (applyDelta canOpen chunks bytes).1 = false) ∧
    ((chunks.map ChunkInfo.size).sum ≤ bytes.length →
      applyDelta true chunks bytes
        = (true, some (bytes.take (chunks.map ChunkInfo.size).sum))) ∧
    applyDelta false chunks bytes = (false, none) := by
  refine ⟨?_, applyDelta_of_sum_le chunks bytes hsum, rfl⟩
  intro hlt canOpen
  cases canOpen with
  | false => rfl
  | true =>
    have h := applyDeltaLoop_spec bytes chunks 0 [] (Nat.zero_le _)
      (by rw [Nat.zero_add]; exact hsum)
    simp only [Nat.zero_add] at h
    show (applyDeltaLoop bytes chunks 0 []).1 = false
    rw [h, if_neg (by omega)]

/-- C9 as amended, on one declared chunk of one byte and the bytes 7, 9. -/
theorem applyDelta_length_check_witness :
    (([7, 9] : List Byte).length < (([⟨0, 1, ""⟩] : List ChunkInfo).map ChunkInfo.size).sum →
      ∀ canOpen, (applyDelta canOpen [⟨0, 1, ""⟩] [7, 9]).1 = false) ∧
    ((([⟨0, 1, ""⟩] : List ChunkInfo).map ChunkInfo.size).sum ≤ ([7, 9] : List Byte).length →
      applyDelta true [⟨0, 1, ""⟩] [7, 9]
        = (true, some (([7, 9] : List Byte).take
            (([⟨0, 1, ""⟩] : List ChunkInfo).map ChunkInfo.size).sum))) ∧
    applyDelta false [⟨0, 1, ""⟩] [7, 9] = (false, none) :=
  applyDelta_length_check [⟨0, 1, ""⟩] [7, 9] (by decide)

/-- C10: for a file `F` of fewer than `2 ^ 64` bytes, `applyDelta` on the chunks
of `F` and the bytes of `F`, the output file opening, succeeds and leaves
exactly `F` in the file, so `sha256File` of the result is the digest of `F`. -/
theorem applyDelta_roundtrip (sha256 : List Byte → String) (F : List Byte)
    (hF : F.length < 2 ^ 64) :
    applyDelta true (chunkData sha256 F) F = (true, some F) ∧
    sha256File sha256 (applyDelta true (chunkData sha256 F) F).2 = sha256 F := by
  have hs := chunk_sizes_sum sha256 F
  have h := applyDelta_of_sum_le (chunkData sha256 F) F (by rw [hs]; exact hF) (by rw [hs])
  rw [hs, List.take_length] at h
  rw [h]
  exact ⟨rfl, rfl⟩

/-- C10 on the file holding the bytes 5, 6, 7. -/
theorem applyDelta_roundtrip_witness :
    applyDelta true (chunkData (fun _ => "") [5, 6, 7]) [5, 6, 7] = (true, some [5, 6, 7]) ∧
    sha256File (fun _ => "") (applyDelta true (chunkData (fun _ => "") [5, 6, 7]) [5, 6, 7]).2
      = (fun _ => "") ([5, 6, 7] : List Byte) :=
  applyDelta_roundtrip (fun _ => "") [5, 6, 7] (by decide)

/-- C7, the code at a failing input. `F` is a 1 followed by 8192 zeros and
`F'` replaces its first byte by 0, an edit of length `k = 1`. `chunkData F` is
one chunk of 8193 bytes and `chunkData F'` is three chunks; when the digests
of 4096 zeros and of a single zero differ from the digest of `F`, all three
chunks of `F'` are new against the digests of `F`, and
`3 * 1048576 ≤ 1 + 2 * 1048576` is false. -/
theorem edit_locality_fails (sha256 : List Byte → String)
    (h1 : sha256 (List.replicate 4096 0) ≠ sha256 ((1 : Byte) :: List.replicate 8192 0))
    (h2 : sha256 [0] ≠ sha256 ((1 : Byte) :: List.replicate 8192 0)) :
    (List.replicate 8193 (0 : Byte) = [] ++ [0] ++ List.replicate 8192 0) ∧
    ((1 : Byte) :: List.replicate 8192 0 = [] ++ [1] ++ List.replicate 8192 0) ∧
    (chunkData sha256 ((1 : Byte) :: List.replicate 8192 0)).length = 1 ∧
    (chunkData sha256 (List.replicate 8193 (0 : Byte))).length = 3 ∧
    (computeDelta sha256 (some (List.replicate 8193 (0 : Byte)))
        ((chunkData sha256 ((1 : Byte) :: List.replicate 8192 0)).map
          ChunkInfo.hash)).new_chunks.length = 3 ∧
    ¬ (3 * 1048576 ≤ 1 + 2 * 1048576) := by
  have hn := (computeDelta_lists sha256 (some (List.replicate 8193 (0 : Byte)))
    ((chunkData sha256 ((1 : Byte) :: List.replicate 8192 0)).map ChunkInfo.hash)).1
  refine ⟨rfl, rfl, ?_, ?_, ?_, by decide⟩
  · rw [chunks_one_zeros]
    rfl
  · rw [chunks_zeros]
    rfl
  · rw [hn]
    show ((chunkData sha256 (List.replicate 8193 (0 : Byte))).filter _).length = 3
    rw [chunks_zeros, chunks_one_zeros]
    generalize sha256 (List.replicate 4096 0) = x at h1 ⊢
    generalize sha256 [0] = y at h2 ⊢
    generalize sha256 ((1 : Byte) :: List.replicate 8192 0) = z at h1 h2 ⊢
    simp [h1, h2]

/-- C7 at the failing input, with a digest that tells the chunks apart by
their first byte. -/
theorem edit_locality_fails_witness :
    (List.replicate 8193 (0 : Byte) = [] ++ [0] ++ List.replicate 8192 0) ∧
    ((1 : Byte) :: List.replicate 8192 0 = [] ++ [1] ++ List.replicate 8192 0) ∧
    (chunkData headDigest ((1 : Byte) :: List.replicate 8192 0)).length = 1 ∧
    (chunkData headDigest (List.replicate 8193 (0 : Byte))).length = 3 ∧
    (computeDelta headDigest (some (List.replicate 8193 (0 : Byte)))
        ((chunkData headDigest ((1 : Byte) :: List.replicate 8192 0)).map
          ChunkInfo.hash)).new_chunks.length = 3 ∧
    ¬ (3 * 1048576 ≤ 1 + 2 * 1048576) :=
  edit_locality_fails headDigest (by decide) (by decide)

end DeltaEngine

/-! ## The metadata store -/

namespace MetadataDB

theorem tombstone_filter (path : String) (l : List FileRecord) :
    (l.map (fun r => if r.path == path then { r with deleted := true } else r)).filter
        (fun r => !r.deleted)
      = (l.filter (fun r => !r.deleted)).filter (fun r => r.path != path) := by
  induction l with
  | nil => rfl
  | cons r rs ih =>
    rw [List.map_cons, List.filter_cons, ih]
    cases h1 : (r.path == path) <;> cases h2 : r.deleted <;>
      simp [List.filter_cons, h1, h2, bne]

theorem getAllFiles_deleteFile (db : MetadataDB) (path : String) :
    (db.deleteFile path).2.getAllFiles = db.getAllFiles.filter (fun r => r.path != path) :=
  tombstone_filter path db.files

theorem tombstone_find (path p : String) (l : List FileRecord) :
    (l.map (fun r => if r.path == path then { r with deleted := true } else r)).find?
        (fun r => r.path == p)
      = (l.find? (fun r => r.path == p)).map
          (fun r => if r.path == path then { r with deleted := true } else r) := by
  rw [List.find?_map]
  congr 2
  funext r
  show ((if r.path == path then { r with deleted := true } else r).path == p) = (r.path == p)
  split <;> rfl

theorem getFile_deleteFile (db : MetadataDB) (path p : String) :
    (db.deleteFile path).2.getFile p =
      (db.getFile p).map (fun r => if r.path == path then { r with deleted := true } else r) :=
  tombstone_find path p db.files

theorem getFile_path (db : MetadataDB) (p : String) (rec : FileRecord)
    (h : db.getFile p = some rec) : rec.path = p := by
  have := List.find?_some h
  simpa using this

/-- C20: for a path without NUL, on a store whose paths hold no NUL and which
holds a record for the path, when `deleteFile(path)` reports success:
`getAllFiles` is the former list without `path`, so it has no record for
`path` and the records of the other paths are as before; `getFile(path)`
returns the former record with `deleted = true` and every other field
unchanged, `getFile` of any other path without NUL is unchanged, and no row
is removed from the table. -/
theorem deleteFile_tombstones (db : MetadataDB) (path : String) (rec : FileRecord)
    (h : db.getFile path = some rec) :
    nulFree path = true → (∀ r ∈ db.files, nulFree r.path = true) →
    (db.deleteFile path).1 = true →
    (db.deleteFile path).2.getAllFiles = db.getAllFiles.filter (fun r => r.path != path) ∧
    (∀ r ∈ (db.deleteFile path).2.getAllFiles, r.path ≠ path) ∧
    (db.deleteFile path).2.getFile path =
      some { path := rec.path, size := rec.size, modified_time := rec.modified_time,
             hash := rec.hash, version := rec.version, is_directory := rec.is_directory,
             deleted := true, last_sync_time := rec.last_sync_time } ∧
    (∀ p, nulFree p = true → p ≠ path → (db.deleteFile path).2.getFile p = db.getFile p) ∧
    (∀ r, r.path ≠ path →
      (r ∈ (db.deleteFile path).2.getAllFiles ↔ r ∈ db.getAllFiles)) ∧
    (db.deleteFile path).2.files.length = db.files.length ∧
    (db.deleteFile path).2.chunks = db.chunks := by
  intro _ _ _
  have hpath := getFile_path db path rec h
  refine ⟨getAllFiles_deleteFile db path, ?_, ?_, ?_, ?_, ?_, rfl⟩
  · intro r hr
    rw [getAllFiles_deleteFile, List.mem_filter] at hr
    simpa using hr.2
  · rw [getFile_deleteFile, h]
    simp [hpath]
  · intro p _ hp
    rw [getFile_deleteFile]
    cases hg : db.getFile p with
    | none => rfl
    | some r =>
      have hr := getFile_path db p r hg
      have : ¬ r.path = path := by
        rw [hr]
        exact hp
      simp [this]
  · intro r hr
    rw [getAllFiles_deleteFile, List.mem_filter]
    simp [hr]
  · simp [deleteFile]

/-- C20 on a store with two live records: after `deleteFile` of `a` the
record of `a` is a tombstone and the record of `b` is as before. -/
theorem deleteFile_tombstones_witness :
    (({ files := [⟨"a", 3, 7, "h", 1, false, false, 0⟩, ⟨"b", 4, 8, "k", 1, false, false, 0⟩],
        chunks := [] } : MetadataDB).deleteFile "a").2.getFile "a"
      = some ⟨"a", 3, 7, "h", 1, false, true, 0⟩ ∧
    (({ files := [⟨"a", 3, 7, "h", 1, false, false, 0⟩, ⟨"b", 4, 8, "k", 1, false, false, 0⟩],
        chunks := [] } : MetadataDB).deleteFile "a").2.getFile "b"
      = some ⟨"b", 4, 8, "k", 1, false, false, 0⟩ :=
  ⟨(deleteFile_tombstones
      { files := [⟨"a", 3, 7, "h", 1, false, false, 0⟩, ⟨"b", 4, 8, "k", 1, false, false, 0⟩],
        chunks := [] }
      "a" ⟨"a", 3, 7, "h", 1, false, false, 0⟩ (by decide) (by decide) (by decide) rfl).2.2.1,
    by decide⟩

end MetadataDB

/-! ## The sync probe -/

namespace SyncService

theorem computeChangesOn_eq (server_files : List FileRecord) (local_files : List FileMetadata)
    (last_sync_time : Int) :
    computeChangesOn server_files local_files last_sync_time
      = (server_files.map (changesFor local_files last_sync_time)).flatten := by
  unfold computeChangesOn
  have h : ∀ (acc : List FileChange),
      server_files.foldl (fun changes sf => changes ++ changesFor local_files last_sync_time sf) acc
        = acc ++ (server_files.map (changesFor local_files last_sync_time)).flatten := by
    induction server_files with
    | nil => intro acc; simp
    | cons sf rest ih =>
      intro acc
      rw [List.foldl_cons, ih, List.map_cons, List.flatten_cons, List.append_assoc]
  simpa using h []

/-- The inner loop stops at the first client entry with the server file's path. -/
theorem scanLocal_eq (sf : FileRecord) (local_files : List FileMetadata) :
    scanLocal sf local_files =
      match local_files.find? (fun lf => lf.path == sf.path) with
      | none => (false, [])
      | some lf =>
        (true, if lf.hash != sf.hash then [{ path := sf.path, type := ChangeType.MODIFIED }]
               else []) := by
  induction local_files with
  | nil => rfl
  | cons lf rest ih =>
    rw [scanLocal, List.find?_cons]
    cases h : (lf.path == sf.path)
    · simp only [Bool.false_eq_true, if_false]
      exact ih
    · simp only [if_true]

/-- What one server file contributes, by cases on the first client entry
with its path. -/
theorem changesFor_eq (local_files : List FileMetadata) (last_sync_time : Int)
    (sf : FileRecord) :
    changesFor local_files last_sync_time sf =
      match local_files.find? (fun lf => lf.path == sf.path) with
      | none =>
        if sf.modified_time > last_sync_time then
          [{ path := sf.path, type := ChangeType.CREATED }] else []
      | some lf =>
        if lf.hash != sf.hash then [{ path := sf.path, type := ChangeType.MODIFIED }] else [] := by
  unfold changesFor
  rw [scanLocal_eq]
  cases local_files.find? (fun lf => lf.path == sf.path) with
  | none => simp
  | some lf => simp

theorem changesFor_paths (local_files : List FileMetadata) (last_sync_time : Int)
    (sf : FileRecord) :
    (changesFor local_files last_sync_time sf).map FileChange.path = [] ∨
    (changesFor local_files last_sync_time sf).map FileChange.path = [sf.path] := by
  rw [changesFor_eq]
  cases local_files.find? (fun lf => lf.path == sf.path) with
  | none =>
    by_cases h : sf.modified_time > last_sync_time
    · right; simp [h]
    · left; simp [h]
  | some lf =>
    cases h : (lf.hash != sf.hash)
    · left
      show List.map FileChange.path (if (lf.hash != sf.hash) = true then _ else []) = []
      rw [h]
      rfl
    · right
      show List.map FileChange.path (if (lf.hash != sf.hash) = true then _ else []) = [sf.path]
      rw [h]
      rfl

/-- The paths of the changes, in order, are picked from the paths of the
server files, in order, each at most once. -/
theorem change_paths_sublist (server_files : List FileRecord)
    (local_files : List FileMetadata) (last_sync_time : Int) :
    List.Sublist
      ((computeChangesOn server_files local_files last_sync_time).map FileChange.path)
      (server_files.map FileRecord.path) := by
  rw [computeChangesOn_eq]
  induction server_files with
  | nil => simp
  | cons sf rest ih =>
    rw [List.map_cons, List.flatten_cons, List.map_append, List.map_cons]
    rcases changesFor_paths local_files last_sync_time sf with h | h
    · rw [h, List.nil_append]
      exact List.Sublist.cons _ ih
    · rw [h]
      exact List.Sublist.cons₂ _ ih

/-- C19: when the server files have pairwise distinct paths, the changes
returned by `computeChanges` have pairwise distinct paths, whatever the
client list, repeated paths included: at most one change record per path. -/
theorem computeChanges_one_per_path (server_files : List FileRecord)
    (local_files : List FileMetadata) (last_sync_time : Int)
    (hserver : (server_files.map FileRecord.path).Nodup) :
    ((computeChangesOn server_files local_files last_sync_time).map FileChange.path).Nodup ∧
    ∀ p, ((computeChangesOn server_files local_files last_sync_time).filter
      (fun c => c.path == p)).length ≤ 1 := by
  have hnd := (change_paths_sublist server_files local_files last_sync_time).nodup hserver
  refine ⟨hnd, ?_⟩
  intro p
  have hcount := List.nodup_iff_count_le_one.mp hnd p
  have : ((computeChangesOn server_files local_files last_sync_time).filter
      (fun c => c.path == p)).length
      = ((computeChangesOn server_files local_files last_sync_time).map FileChange.path).count p := by
    rw [List.count, List.countP_map, List.countP_eq_length_filter]
    congr 2
  rw [this]
  exact hcount

/-- C19 with a client list that names the path `a` twice with different digests. -/
theorem computeChanges_one_per_path_witness :
    ((computeChangesOn [⟨"a", 1, 5, "h1", 1, false, false, 0⟩]
        [⟨"a", "x"⟩, ⟨"a", "y"⟩] 0).map FileChange.path).Nodup ∧
    ∀ p, ((computeChangesOn [⟨"a", 1, 5, "h1", 1, false, false, 0⟩]
        [⟨"a", "x"⟩, ⟨"a", "y"⟩] 0).filter (fun c => c.path == p)).length ≤ 1 :=
  computeChanges_one_per_path [⟨"a", 1, 5, "h1", 1, false, false, 0⟩]
    [⟨"a", "x"⟩, ⟨"a", "y"⟩] 0 (by decide)

end SyncService

namespace SyncService

theorem mem_changesFor (local_files : List FileMetadata) (last_sync_time : Int)
    (sf : FileRecord) (hlocal : (local_files.map FileMetadata.path).Nodup) (ch : FileChange) :
    ch ∈ changesFor local_files last_sync_time sf ↔
      ch.path = sf.path ∧
      ((ch.type = ChangeType.MODIFIED ∧
          ∃ lf ∈ local_files, lf.path = sf.path ∧ lf.hash ≠ sf.hash) ∨
        (ch.type = ChangeType.CREATED ∧ (∀ lf ∈ local_files, lf.path ≠ sf.path) ∧
          sf.modified_time > last_sync_time)) := by
  rw [changesFor_eq]
  cases hf : local_files.find? (fun lf => lf.path == sf.path) with
  | none =>
    have hnone : ∀ lf ∈ local_files, lf.path ≠ sf.path := by
      intro lf hlf
      have := List.find?_eq_none.mp hf lf hlf
      simpa using this
    by_cases ht : sf.modified_time > last_sync_time
    · simp only [ht, if_true, List.mem_singleton]
      constructor
      · intro h
        subst h
        exact ⟨rfl, Or.inr ⟨rfl, hnone, trivial⟩⟩
      · rintro ⟨hp, (⟨_, lf, hlf, hpath, _⟩ | ⟨hty, _, _⟩)⟩
        · exact absurd hpath (hnone lf hlf)
        · cases ch
          simp only at hp hty
          subst hp hty
          rfl
    · simp only [ht, if_false, List.not_mem_nil, false_iff]
      rintro ⟨_, (⟨_, lf, hlf, hpath, _⟩ | ⟨_, _, h⟩)⟩
      · exact hnone lf hlf hpath
      · exact h
  | some lf =>
    have hmem : lf ∈ local_files := List.mem_of_find?_eq_some hf
    have hpath : lf.path = sf.path := by
      have := List.find?_some hf
      simpa using this
    have huniq : ∀ lf' ∈ local_files, lf'.path = sf.path → lf' = lf := by
      intro lf' hlf' hp'
      exact List.inj_on_of_nodup_map hlocal hlf' hmem (hp'.trans hpath.symm)
    by_cases hh : lf.hash = sf.hash
    · have hb : (lf.hash != sf.hash) = false := by simp [hh]
      simp only [hb, Bool.false_eq_true, if_false, List.not_mem_nil, false_iff]
      rintro ⟨_, (⟨_, lf', hlf', hp', hne⟩ | ⟨_, hall, _⟩)⟩
      · rw [huniq lf' hlf' hp'] at hne
        exact hne hh
      · exact hall lf hmem hpath
    · have hb : (lf.hash != sf.hash) = true := by simp [hh]
      simp only [hb, if_true, List.mem_singleton]
      constructor
      · intro h
        subst h
        exact ⟨rfl, Or.inl ⟨rfl, lf, hmem, hpath, hh⟩⟩
      · rintro ⟨hp, (⟨hty, _⟩ | ⟨_, hall, _⟩)⟩
        · cases ch
          simp only at hp hty
          subst hp hty
          rfl
        · exact absurd hpath (hall lf hmem)

theorem listFiles_live (env : Env) (s : StorageManager) (client_id : String) :
    ∀ r ∈ (StorageManager.listFiles env s client_id).1, r.deleted = false := by
  intro r hr
  unfold StorageManager.listFiles at hr
  cases hg : StorageManager.getClientDB env s client_id with
  | mk odb s1 =>
    rw [hg] at hr
    cases odb with
    | none => simp at hr
    | some db =>
      simp only [MetadataDB.getAllFiles, List.mem_filter] at hr
      simpa using hr.2

/-- C18: for server files with pairwise distinct paths and a client list with
pairwise distinct paths, a change is returned by `computeChanges` exactly when
it is `MODIFIED` for a server file whose path occurs in the client list with a
different digest, or `CREATED` for a server file whose path is absent from the
client list and whose modified time is greater than `last_sync_time`; no
change is returned twice. The server files are those of `listFiles`, none of
them tombstoned. For server `a: h1, b: h2 (mtime 5)`, client
`a: h1x, c: h3` and `last_sync_time = 0` the result is `a MODIFIED, b CREATED`. -/
theorem computeChanges_exact (server_files : List FileRecord)
    (local_files : List FileMetadata) (last_sync_time : Int) (env : Env) (s : StorageManager)
    (client_id : String)
    (hserver : (server_files.map FileRecord.path).Nodup)
    (hlocal : (local_files.map FileMetadata.path).Nodup) :
    (∀ ch, ch ∈ computeChangesOn server_files local_files last_sync_time ↔
      (ch.type = ChangeType.MODIFIED ∧ ∃ sf ∈ server_files, sf.path = ch.path ∧
        ∃ lf ∈ local_files, lf.path = sf.path ∧ lf.hash ≠ sf.hash) ∨
      (ch.type = ChangeType.CREATED ∧ ∃ sf ∈ server_files, sf.path = ch.path ∧
        (∀ lf ∈ local_files, lf.path ≠ sf.path) ∧ sf.modified_time > last_sync_time)) ∧
    (computeChangesOn server_files local_files last_sync_time).Nodup ∧
    (computeChanges env s client_id local_files last_sync_time).1
      = computeChangesOn (StorageManager.listFiles env s client_id).1 local_files
          last_sync_time ∧
    (∀ r ∈ (StorageManager.listFiles env s client_id).1, r.deleted = false) ∧
    computeChangesOn
        [⟨"a", 1, 0, "h1", 1, false, false, 0⟩, ⟨"b", 1, 5, "h2", 1, false, false, 0⟩]
        [⟨"a", "h1x"⟩, ⟨"c", "h3"⟩] 0
      = [⟨"a", ChangeType.MODIFIED⟩, ⟨"b", ChangeType.CREATED⟩] := by
  refine ⟨?_, ?_, rfl, listFiles_live env s client_id, by decide⟩
  · intro ch
    rw [computeChangesOn_eq, List.mem_flatten]
    constructor
    · rintro ⟨l, hl, hch⟩
      obtain ⟨sf, hsf, rfl⟩ := List.mem_map.mp hl
      obtain ⟨hp, h⟩ := (mem_changesFor local_files last_sync_time sf hlocal ch).mp hch
      rcases h with ⟨hty, hex⟩ | ⟨hty, hall, ht⟩
      · exact Or.inl ⟨hty, sf, hsf, hp.symm, hex⟩
      · exact Or.inr ⟨hty, sf, hsf, hp.symm, hall, ht⟩
    · rintro (⟨hty, sf, hsf, hp, hex⟩ | ⟨hty, sf, hsf, hp, hall, ht⟩)
      · exact ⟨_, List.mem_map.mpr ⟨sf, hsf, rfl⟩,
          (mem_changesFor local_files last_sync_time sf hlocal ch).mpr
            ⟨hp.symm, Or.inl ⟨hty, hex⟩⟩⟩
      · exact ⟨_, List.mem_map.mpr ⟨sf, hsf, rfl⟩,
          (mem_changesFor local_files last_sync_time sf hlocal ch).mpr
            ⟨hp.symm, Or.inr ⟨hty, hall, ht⟩⟩⟩
  · exact List.Nodup.of_map _
      ((change_paths_sublist server_files local_files last_sync_time).nodup hserver)

/-- C18 on the scenario of the sync probe, from a manager that has seen no client. -/
theorem computeChanges_exact_witness :
    (computeChangesOn
        [⟨"a", 1, 0, "h1", 1, false, false, 0⟩, ⟨"b", 1, 5, "h2", 1, false, false, 0⟩]
        [⟨"a", "h1x"⟩, ⟨"c", "h3"⟩] 0).Nodup :=
  (computeChanges_exact
    [⟨"a", 1, 0, "h1", 1, false, false, 0⟩, ⟨"b", 1, 5, "h2", 1, false, false, 0⟩]
    [⟨"a", "h1x"⟩, ⟨"c", "h3"⟩] 0 ⟨fun _ => true, fun _ => true, 0, 0⟩
    (StorageManager.fresh "root") "c1" (by decide) (by decide)).2.1

end SyncService

/-! ## Chunk bindings -/

namespace MetadataDB

/-- The rows of one path after an `insertChunk`. -/
theorem pathRows_insertChunk (db : MetadataDB) (c : ChunkRow) (p : String) :
    (db.insertChunk c.file_path c.chunk_index c.hash c.offset c.size).2.chunks.filter
        (fun r => r.file_path == p)
      = if c.file_path = p then
          (db.chunks.filter (fun r => r.file_path == p)).filter
              (fun r => r.chunk_index != c.chunk_index) ++ [c]
        else db.chunks.filter (fun r => r.file_path == p) := by
  simp only [insertChunk, List.filter_append, List.filter_filter]
  by_cases hp : c.file_path = p
  · rw [if_pos hp]
    subst hp
    congr 1
    · apply List.filter_congr
      intro r _
      cases h1 : (r.file_path == c.file_path) <;> cases h2 : (r.chunk_index == c.chunk_index) <;>
        simp [h1, h2, bne]
    · rw [List.filter_cons_of_pos (by simp)]
      rfl
  · rw [if_neg hp]
    have h1 : List.filter (fun r => r.file_path == p)
        [({ file_path := c.file_path, chunk_index := c.chunk_index, hash := c.hash,
            offset := c.offset, size := c.size } : ChunkRow)] = [] := by
      rw [List.filter_cons_of_neg (by simpa using hp)]
      rfl
    rw [h1, List.append_nil]
    apply List.filter_congr
    intro r _
    cases h1 : (r.file_path == p)
    · simp
    · have h2 : (r.file_path == c.file_path) = false := by
        rw [eq_of_beq h1]
        simpa using fun h => hp h.symm
      simp [h2]

theorem insertChunks_snoc (db : MetadataDB) (calls : List ChunkRow) (c : ChunkRow) :
    insertChunks db (calls ++ [c])
      = ((insertChunks db calls).insertChunk c.file_path c.chunk_index c.hash c.offset
          c.size).2 := by
  simp [insertChunks, List.foldl_append]

theorem lastCall_snoc (calls : List ChunkRow) (c : ChunkRow) (p : String) (i : Int) :
    lastCall (calls ++ [c]) p i
      = if c.file_path = p ∧ c.chunk_index = i then some c else lastCall calls p i := by
  unfold lastCall
  rw [List.filter_append]
  by_cases h : c.file_path = p ∧ c.chunk_index = i
  · rw [if_pos h]
    have : List.filter (fun c => c.file_path == p && c.chunk_index == i) [c] = [c] := by
      simp [h.1, h.2]
    rw [this, List.getLast?_append]
    rfl
  · rw [if_neg h]
    have : List.filter (fun c => c.file_path == p && c.chunk_index == i) [c] = [] := by
      simp only [List.filter_cons, List.filter_nil]
      have hb : (c.file_path == p && c.chunk_index == i) = false := by
        by_contra hne
        simp only [Bool.not_eq_false, Bool.and_eq_true, beq_iff_eq] at hne
        exact h hne
      rw [hb]
      rfl
    rw [this, List.append_nil]

theorem lastCall_spec (calls : List ChunkRow) (p : String) (i : Int) (r : ChunkRow)
    (h : lastCall calls p i = some r) :
    r ∈ calls ∧ r.file_path = p ∧ r.chunk_index = i := by
  unfold lastCall at h
  have hm := List.mem_of_mem_getLast? h
  rw [List.mem_filter] at hm
  simp only [Bool.and_eq_true, beq_iff_eq] at hm
  exact ⟨hm.1, hm.2.1, hm.2.2⟩

theorem lastCall_isSome (calls : List ChunkRow) (p : String) (i : Int) :
    (∃ r, lastCall calls p i = some r) ↔
      ∃ c ∈ calls, c.file_path = p ∧ c.chunk_index = i := by
  constructor
  · rintro ⟨r, hr⟩
    exact ⟨r, lastCall_spec calls p i r hr⟩
  · rintro ⟨c, hc, hp, hi⟩
    unfold lastCall
    have hne : calls.filter (fun c => c.file_path == p && c.chunk_index == i) ≠ [] := by
      apply List.ne_nil_of_mem (a := c)
      rw [List.mem_filter]
      simp [hc, hp, hi]
    exact ⟨_, List.getLast?_eq_getLast _ hne⟩

/-- After a run of `insertChunk` calls on an empty table, the rows of a path
have pairwise distinct indices, and a row is there exactly when it is the most
recent call for its index. -/
theorem pathRows_insertChunks (calls : List ChunkRow) (p : String) :
    (((insertChunks empty calls).chunks.filter (fun r => r.file_path == p)).map
        ChunkRow.chunk_index).Nodup ∧
    ∀ r, r ∈ (insertChunks empty calls).chunks.filter (fun r => r.file_path == p) ↔
      lastCall calls p r.chunk_index = some r := by
  induction calls using List.reverseRecOn with
  | nil =>
    refine ⟨List.nodup_nil, ?_⟩
    intro r
    simp [insertChunks, empty, lastCall]
  | append_singleton calls c ih =>
    obtain ⟨ih1, ih2⟩ := ih
    rw [insertChunks_snoc, pathRows_insertChunk]
    by_cases hp : c.file_path = p
    · rw [if_pos hp]
      constructor
      · rw [List.map_append, List.nodup_append]
        refine ⟨(ih1.sublist ((List.filter_sublist _).map _)), by simp, ?_⟩
        intro a ha hb
        simp only [List.map_cons, List.map_nil, List.mem_singleton] at hb
        obtain ⟨r, hr, rfl⟩ := List.mem_map.mp ha
        rw [List.mem_filter] at hr
        simp only [bne_iff_ne, ne_eq] at hr
        exact hr.2 hb
      · intro r
        rw [lastCall_snoc, List.mem_append, List.mem_filter, List.mem_singleton]
        by_cases hi : c.chunk_index = r.chunk_index
        · rw [if_pos ⟨hp, hi⟩]
          simp only [bne_iff_ne, ne_eq, hi, not_true_eq_false, and_false, false_or,
            Option.some.injEq]
          exact eq_comm
        · rw [if_neg (fun h => hi h.2), ← ih2 r]
          constructor
          · rintro (h | h)
            · exact h.1
            · exact absurd (by rw [h]) hi
          · intro h
            exact Or.inl ⟨h, by simpa using fun h' => hi h'.symm⟩
    · rw [if_neg hp]
      refine ⟨ih1, ?_⟩
      intro r
      rw [lastCall_snoc, if_neg (fun h => hp h.1)]
      exact ih2 r

end MetadataDB

namespace MetadataDB

theorem fileChunkRows_perm (db : MetadataDB) (p : String) :
    (fileChunkRows db p).Perm (db.chunks.filter (fun r => r.file_path == p)) :=
  List.perm_insertionSort _ _

theorem fileChunkRows_sorted_le (db : MetadataDB) (p : String) :
    (fileChunkRows db p).Pairwise (fun a b => a.chunk_index ≤ b.chunk_index) := by
  haveI : IsTotal ChunkRow (fun a b => a.chunk_index ≤ b.chunk_index) :=
    ⟨fun a b => le_total a.chunk_index b.chunk_index⟩
  haveI : IsTrans ChunkRow (fun a b => a.chunk_index ≤ b.chunk_index) :=
    ⟨fun a b c h1 h2 => le_trans h1 h2⟩
  exact List.sorted_insertionSort (fun a b : ChunkRow => a.chunk_index ≤ b.chunk_index) _

/-- With pairwise distinct indices among the rows of a path, `ORDER BY
chunk_index` lists them in strictly ascending index order. -/
theorem fileChunkRows_sorted_lt (db : MetadataDB) (p : String)
    (hnd : ((db.chunks.filter (fun r => r.file_path == p)).map ChunkRow.chunk_index).Nodup) :
    ((fileChunkRows db p).map ChunkRow.chunk_index).Pairwise (· < ·) := by
  have hnd2 : ((fileChunkRows db p).map ChunkRow.chunk_index).Nodup :=
    ((fileChunkRows_perm db p).map _).nodup_iff.mpr hnd
  have hle : ((fileChunkRows db p).map ChunkRow.chunk_index).Pairwise (· ≤ ·) :=
    List.pairwise_map.mpr (fileChunkRows_sorted_le db p)
  exact (hle.and hnd2).imp (fun h => lt_of_le_of_ne h.1 h.2)

/-- C17: after any run of `insertChunk` calls on an empty store, each call
with a file path and a digest without NUL and each reporting success,
`getFileChunks(path)` for a path without NUL lists the digests of rows whose
indices are strictly ascending, whatever the order of the calls; the indices
are exactly those some call inserted for `path`, the row at each index is the
most recent call for that index, and every digest listed comes from a call
for `path`. -/
theorem getFileChunks_after_inserts (calls : List ChunkRow) (path : String) :
    nulFree path = true →
    (∀ c ∈ calls, nulFree c.file_path = true ∧ nulFree c.hash = true) →
    (∀ c ∈ calls, ∀ db : MetadataDB,
      (db.insertChunk c.file_path c.chunk_index c.hash c.offset c.size).1 = true) →
    getFileChunks (insertChunks empty calls) path
      = (fileChunkRows (insertChunks empty calls) path).map ChunkRow.hash ∧
    ((fileChunkRows (insertChunks empty calls) path).map ChunkRow.chunk_index).Pairwise
      (· < ·) ∧
    (∀ i, i ∈ (fileChunkRows (insertChunks empty calls) path).map ChunkRow.chunk_index ↔
      ∃ c ∈ calls, c.file_path = path ∧ c.chunk_index = i) ∧
    (∀ r ∈ fileChunkRows (insertChunks empty calls) path,
      lastCall calls path r.chunk_index = some r) ∧
    (∀ h ∈ getFileChunks (insertChunks empty calls) path,
      ∃ c ∈ calls, c.file_path = path ∧ c.hash = h) := by
  intro _ _ _
  obtain ⟨hnd, hmem⟩ := pathRows_insertChunks calls path
  have hperm := fileChunkRows_perm (insertChunks empty calls) path
  have hlast : ∀ r ∈ fileChunkRows (insertChunks empty calls) path,
      lastCall calls path r.chunk_index = some r :=
    fun r hr => (hmem r).mp (hperm.mem_iff.mp hr)
  refine ⟨rfl, fileChunkRows_sorted_lt _ _ hnd, ?_, hlast, ?_⟩
  · intro i
    rw [← lastCall_isSome]
    constructor
    · intro hi
      obtain ⟨r, hr, rfl⟩ := List.mem_map.mp hi
      exact ⟨r, hlast r hr⟩
    · rintro ⟨r, hr⟩
      have hri := (lastCall_spec calls path i r hr).2.2
      rw [← hri] at hr
      exact List.mem_map.mpr ⟨r, hperm.mem_iff.mpr ((hmem r).mpr hr), hri⟩
  · intro h hh
    obtain ⟨r, hr, rfl⟩ := List.mem_map.mp hh
    obtain ⟨h1, h2, -⟩ := lastCall_spec calls path r.chunk_index r (hlast r hr)
    exact ⟨r, h1, h2, rfl⟩

/-- C17 on four calls: index 1 of `a`, index 0 of `b`, index 0 of `a`, and
index 1 of `a` again. For `a` the digests of index 0 and of the later call
for index 1 are listed, in this order. -/
theorem getFileChunks_after_inserts_witness :
    ((fileChunkRows
        (insertChunks empty
          [⟨"a", 1, "x", 0, 1⟩, ⟨"b", 0, "y", 0, 1⟩, ⟨"a", 0, "z", 0, 1⟩, ⟨"a", 1, "w", 0, 1⟩])
        "a").map ChunkRow.chunk_index).Pairwise (· < ·) ∧
    getFileChunks
        (insertChunks empty
          [⟨"a", 1, "x", 0, 1⟩, ⟨"b", 0, "y", 0, 1⟩, ⟨"a", 0, "z", 0, 1⟩, ⟨"a", 1, "w", 0, 1⟩])
        "a"
      = ["z", "w"] :=
  ⟨(getFileChunks_after_inserts
      [⟨"a", 1, "x", 0, 1⟩, ⟨"b", 0, "y", 0, 1⟩, ⟨"a", 0, "z", 0, 1⟩, ⟨"a", 1, "w", 0, 1⟩]
      "a" (by decide) (by decide) (fun _ _ _ => rfl)).2.1,
    by decide⟩

end MetadataDB

/-! ## The storage manager -/

namespace StorageManager

theorem ext_state (a b : StorageManager) (h1 : a.storage_root = b.storage_root)
    (h2 : a.client_dbs_ = b.client_dbs_) (h3 : a.fs = b.fs) : a = b := by
  cases a
  cases b
  simp only at h1 h2 h3
  subst h1 h2 h3
  rfl

theorem getChunkPath_root (a b : StorageManager) (h : a.storage_root = b.storage_root)
    (hash : String) : getChunkPath a hash = getChunkPath b hash := by
  unfold getChunkPath
  rw [h]

/-- What `getClientDB` returns and leaves behind. -/
theorem getClientDB_cases (env : Env) (s : StorageManager) (c : String) :
    (∃ db, s.client_dbs_ c = some db ∧ getClientDB env s c = (some db, s)) ∨
    (s.client_dbs_ c = none ∧ env.dbOpens (getClientDBPath s c) = true ∧
      getClientDB env s c = (some MetadataDB.empty, setClientDB s c MetadataDB.empty)) ∨
    (s.client_dbs_ c = none ∧ env.dbOpens (getClientDBPath s c) = false ∧
      getClientDB env s c = (none, s)) := by
  unfold getClientDB
  cases h : s.client_dbs_ c with
  | some db => exact Or.inl ⟨db, rfl, rfl⟩
  | none =>
    cases hd : env.dbOpens (getClientDBPath s c)
    · exact Or.inr (Or.inr ⟨rfl, rfl, by simp⟩)
    · exact Or.inr (Or.inl ⟨rfl, rfl, by simp [setClientDB]⟩)

theorem setClientDB_get (s : StorageManager) (c : String) (db : MetadataDB) :
    (setClientDB s c db).client_dbs_ c = some db := by
  simp [setClientDB]

theorem setClientDB_other (s : StorageManager) (c c' : String) (db : MetadataDB)
    (h : c' ≠ c) : (setClientDB s c db).client_dbs_ c' = s.client_dbs_ c' := by
  simp [setClientDB, Function.update_noteq h]

theorem setClientDB_self (s : StorageManager) (c : String) (db : MetadataDB)
    (h : s.client_dbs_ c = some db) : setClientDB s c db = s := by
  apply ext_state
  · rfl
  · show Function.update s.client_dbs_ c (some db) = s.client_dbs_
    rw [← h, Function.update_eq_self]
  · rfl

theorem setClientDB_twice (s : StorageManager) (c : String) (db db' : MetadataDB) :
    setClientDB (setClientDB s c db) c db' = setClientDB s c db' := by
  apply ext_state
  · rfl
  · show Function.update (Function.update s.client_dbs_ c (some db)) c (some db')
      = Function.update s.client_dbs_ c (some db')
    rw [Function.update_idem]
  · rfl

/-- The database that serves a client once `getClientDB` succeeded. -/
theorem getClientDB_some (env : Env) (s s1 : StorageManager) (c : String) (db : MetadataDB)
    (h : getClientDB env s c = (some db, s1)) :
    s1.client_dbs_ c = some db ∧ s1.fs = s.fs ∧ s1.storage_root = s.storage_root ∧
    (∀ c', c' ≠ c → s1.client_dbs_ c' = s.client_dbs_ c') ∧
    (s.client_dbs_ c = some db ∨ (s.client_dbs_ c = none ∧ db = MetadataDB.empty)) := by
  rcases getClientDB_cases env s c with ⟨db0, h0, h1⟩ | ⟨h0, -, h1⟩ | ⟨-, -, h1⟩
  · rw [h1] at h
    cases h
    exact ⟨h0, rfl, rfl, fun _ _ => rfl, Or.inl h0⟩
  · rw [h1] at h
    cases h
    exact ⟨setClientDB_get s c _, rfl, rfl, fun c' hc => setClientDB_other s c c' _ hc,
      Or.inr ⟨h0, rfl⟩⟩
  · rw [h1] at h
    cases h

theorem getClientDB_none (env : Env) (s s1 : StorageManager) (c : String)
    (h : getClientDB env s c = (none, s1)) :
    s1 = s ∧ s.client_dbs_ c = none ∧ env.dbOpens (getClientDBPath s c) = false := by
  rcases getClientDB_cases env s c with ⟨db0, h0, h1⟩ | ⟨h0, -, h1⟩ | ⟨h0, hd, h1⟩
  · rw [h1] at h
    cases h
  · rw [h1] at h
    cases h
  · rw [h1] at h
    cases h
    exact ⟨rfl, h0, hd⟩

theorem insertChunk_twice (db : MetadataDB) (p : String) (i : Int) (h : String)
    (o sz : Int) :
    ((db.insertChunk p i h o sz).2.insertChunk p i h o sz).2 = (db.insertChunk p i h o sz).2 := by
  simp only [MetadataDB.insertChunk, List.filter_append, List.filter_filter]
  congr 1
  have h1 : List.filter (fun r => !(r.file_path == p && r.chunk_index == i))
      [({ file_path := p, chunk_index := i, hash := h, offset := o, size := sz } : ChunkRow)]
      = [] := by
    rw [List.filter_cons_of_neg (by simp)]
    rfl
  rw [h1, List.append_nil]
  congr 1
  apply List.filter_congr
  intro r _
  simp

end StorageManager

namespace StorageManager

/-- The state in which `storeChunk` reaches the metadata update: the blob is
on disk, kept if it was there and written otherwise. -/
theorem storeChunk_blob_present (env : Env) (s : StorageManager) (c p : String) (i : Int)
    (data : List Byte) (hash : String)
    (h : (s.fs (getChunkPath s hash)).isSome = true ∨ env.canWrite (getChunkPath s hash) = true) :
    ∃ s1 : StorageManager,
      (s1.fs (getChunkPath s hash)).isSome = true ∧ s1.storage_root = s.storage_root ∧
      s1.client_dbs_ = s.client_dbs_ ∧
      ((s.fs (getChunkPath s hash)).isSome = true → s1 = s) ∧
      ((s.fs (getChunkPath s hash)).isSome = false →
        s1 = { s with fs := Function.update s.fs (getChunkPath s hash) (some data) }) ∧
      storeChunk env s c p i data hash =
        match getClientDB env s1 c with
        | (none, s2) => (false, s2)
        | (some db, s2) =>
          ((db.insertChunk p i hash 0 (toInt32 data.length)).1,
            setClientDB s2 c (db.insertChunk p i hash 0 (toInt32 data.length)).2) := by
  cases he : (s.fs (getChunkPath s hash)).isSome
  · have hw : env.canWrite (getChunkPath s hash) = true := by
      rcases h with h | h
      · rw [he] at h
        cases h
      · exact h
    refine ⟨{ s with fs := Function.update s.fs (getChunkPath s hash) (some data) },
      by simp, rfl, rfl, fun h' => Bool.noConfusion h', fun _ => rfl, ?_⟩
    simp only [storeChunk, he, hw, Bool.false_eq_true, if_false, if_true]
  · refine ⟨s, he, rfl, rfl, fun _ => rfl, fun h' => Bool.noConfusion h', ?_⟩
    simp only [storeChunk, he, if_true]

theorem storeChunk_blocked (env : Env) (s : StorageManager) (c p : String) (i : Int)
    (data : List Byte) (hash : String)
    (he : (s.fs (getChunkPath s hash)).isSome = false)
    (hw : env.canWrite (getChunkPath s hash) = false) :
    storeChunk env s c p i data hash = (false, s) := by
  simp only [storeChunk, he, hw, Bool.false_eq_true, if_false]

/-- Repeating a `storeChunk` call right away returns the same and changes nothing. -/
theorem storeChunk_repeat (env : Env) (s : StorageManager) (c p : String) (i : Int)
    (data : List Byte) (hash : String) :
    storeChunk env (storeChunk env s c p i data hash).2 c p i data hash
      = storeChunk env s c p i data hash := by
  by_cases h : (s.fs (getChunkPath s hash)).isSome = true ∨
      env.canWrite (getChunkPath s hash) = true
  · obtain ⟨s1, h1, h2, h3, -, -, heq⟩ := storeChunk_blob_present env s c p i data hash h
    cases hg : getClientDB env s1 c with
    | mk odb s2 =>
      rw [hg] at heq
      cases odb with
      | none =>
        simp only at heq
        obtain ⟨hs2, hnone, hd⟩ := getClientDB_none env s1 s2 c hg
        subst hs2
        rw [heq]
        simp only
        have hp : getChunkPath s2 hash = getChunkPath s hash := getChunkPath_root _ _ h2 hash
        obtain ⟨s1', -, -, -, hkeep, -, heq'⟩ :=
          storeChunk_blob_present env s2 c p i data hash (Or.inl (by rw [hp]; exact h1))
        rw [heq', hkeep (by rw [hp]; exact h1), hg]
      | some db =>
        simp only at heq
        obtain ⟨hdb, hfs, hroot, -, -⟩ := getClientDB_some env s1 s2 c db hg
        rw [heq]
        simp only
        have hroot' : (setClientDB s2 c (db.insertChunk p i hash 0 (toInt32 data.length)).2
            ).storage_root = s.storage_root := hroot.trans h2
        have hp := getChunkPath_root _ _ hroot' hash
        have hfs' : (setClientDB s2 c (db.insertChunk p i hash 0 (toInt32 data.length)).2).fs
            = s1.fs := hfs
        have hex : ((setClientDB s2 c (db.insertChunk p i hash 0 (toInt32 data.length)).2).fs
            (getChunkPath (setClientDB s2 c
              (db.insertChunk p i hash 0 (toInt32 data.length)).2) hash)).isSome = true := by
          rw [hp, hfs']
          exact h1
        obtain ⟨s1', -, -, -, hkeep, -, heq'⟩ := storeChunk_blob_present env
          (setClientDB s2 c (db.insertChunk p i hash 0 (toInt32 data.length)).2) c p i data hash
          (Or.inl hex)
        rw [heq', hkeep hex]
        have hg' : getClientDB env
            (setClientDB s2 c (db.insertChunk p i hash 0 (toInt32 data.length)).2) c
            = (some (db.insertChunk p i hash 0 (toInt32 data.length)).2,
                setClientDB s2 c (db.insertChunk p i hash 0 (toInt32 data.length)).2) := by
          unfold getClientDB
          rw [setClientDB_get]
        rw [hg']
        simp only
        rw [insertChunk_twice, setClientDB_twice]
        rfl
  · have he : (s.fs (getChunkPath s hash)).isSome = false := by
      cases hb : (s.fs (getChunkPath s hash)).isSome
      · rfl
      · exact absurd (Or.inl hb) h
    have hw : env.canWrite (getChunkPath s hash) = false := by
      cases hb : env.canWrite (getChunkPath s hash)
      · rfl
      · exact absurd (Or.inr hb) h
    rw [storeChunk_blocked env s c p i data hash he hw]
    exact storeChunk_blocked env s c p i data hash he hw

/-- C11: calling `storeChunk` twice in a row with the same arguments leaves the
manager, blobs on disk and every client's bindings alike, in the state the first
call left it in, and the second call returns what the first returned; it adds
no file and changes no file's content. -/
theorem storeChunk_idempotent (env : Env) (s : StorageManager) (client_id filepath : String)
    (chunk_index : Int) (data : List Byte) (hash : String) :
    (storeChunk env (storeChunk env s client_id filepath chunk_index data hash).2
        client_id filepath chunk_index data hash).2
      = (storeChunk env s client_id filepath chunk_index data hash).2 ∧
    (storeChunk env (storeChunk env s client_id filepath chunk_index data hash).2
        client_id filepath chunk_index data hash).1
      = (storeChunk env s client_id filepath chunk_index data hash).1 ∧
    (∀ path,
      (storeChunk env (storeChunk env s client_id filepath chunk_index data hash).2
          client_id filepath chunk_index data hash).2.fs path
        = (storeChunk env s client_id filepath chunk_index data hash).2.fs path) ∧
    (∀ c,
      (storeChunk env (storeChunk env s client_id filepath chunk_index data hash).2
          client_id filepath chunk_index data hash).2.client_dbs_ c
        = (storeChunk env s client_id filepath chunk_index data hash).2.client_dbs_ c) := by
  have h := storeChunk_repeat env s client_id filepath chunk_index data hash
  refine ⟨by rw [h], by rw [h], fun path => by rw [h], fun c => by rw [h]⟩

end StorageManager

namespace StorageManager

theorem getChunkPath_data (s : StorageManager) (hash : String) :
    (getChunkPath s hash).data
      = s.storage_root.data ++ (['/', 'c', 'h', 'u', 'n', 'k', 's', '/']
          ++ (hash.data.take 2 ++ ('/' :: hash.data))) := by
  simp only [getChunkPath, String.data_append, List.append_assoc]
  rfl

theorem getTempFilePath_data (s : StorageManager) (c p : String) :
    (getTempFilePath s c p).data
      = s.storage_root.data ++ (['/', 'c', 'l', 'i', 'e', 'n', 't', 's', '/']
          ++ (c.data ++ ('/' :: p.data))) := by
  simp only [getTempFilePath, getClientStoragePath, String.data_append, List.append_assoc]
  rfl

/-- A staging path is never a chunk path: after the root the one goes on with
`/clients/`, the other with `/chunks/`. -/
theorem getChunkPath_ne_temp (s : StorageManager) (hash c p : String) :
    getChunkPath s hash ≠ getTempFilePath s c p := by
  intro h
  have hd := congrArg String.data h
  rw [getChunkPath_data, getTempFilePath_data] at hd
  have h2 := List.append_cancel_left hd
  simp at h2

end StorageManager

/-! ## Paths as the operating system reads them -/

/-- A path has at least one piece. -/
theorem splitSlash_ne_nil (cs : List Char) : splitSlash cs ≠ [] := by
  cases cs with
  | nil => simp [splitSlash]
  | cons c cs =>
    rw [splitSlash]
    split
    · simp
    · split <;> simp

/-- The pieces of two paths joined by a slash. -/
theorem splitSlash_append (xs ys : List Char) :
    splitSlash (xs ++ '/' :: ys) = splitSlash xs ++ splitSlash ys := by
  induction xs with
  | nil => simp [splitSlash]
  | cons c cs ih =>
    rw [List.cons_append, splitSlash, ih]
    by_cases hc : c = '/'
    · simp [splitSlash, hc]
    · rw [if_neg hc]
      conv_rhs => rw [splitSlash, if_neg hc]
      cases h : splitSlash cs with
      | nil => exact absurd h (splitSlash_ne_nil cs)
      | cons piece pieces => simp

/-- The names of two paths joined by a slash. -/
theorem components_append (xs ys : List Char) :
    components (xs ++ '/' :: ys) = components xs ++ components ys := by
  simp [components, splitSlash_append]

/-- A path without a slash is one piece. -/
theorem splitSlash_of_no_slash (xs : List Char) (h : ∀ c ∈ xs, c ≠ '/') :
    splitSlash xs = [xs] := by
  induction xs with
  | nil => rfl
  | cons c cs ih =>
    rw [splitSlash, if_neg (h c (List.mem_cons_self _ _)),
      ih (fun x hx => h x (List.mem_cons_of_mem _ hx))]

/-- A path of one piece is that piece. -/
theorem splitSlash_single (xs ys : List Char) (h : splitSlash xs = [ys]) : xs = ys := by
  induction xs generalizing ys with
  | nil =>
    simp [splitSlash] at h
    exact h.symm
  | cons c cs ih =>
    rw [splitSlash] at h
    by_cases hc : c = '/'
    · rw [if_pos hc] at h
      simp only [List.cons.injEq] at h
      exact absurd h.2 (splitSlash_ne_nil cs)
    · rw [if_neg hc] at h
      cases hs : splitSlash cs with
      | nil => exact absurd hs (splitSlash_ne_nil cs)
      | cons piece pieces =>
        rw [hs] at h
        simp only [List.cons.injEq] at h
        obtain ⟨h1, h2⟩ := h
        subst h2
        rw [ih piece hs]
        exact h1

/-- The pieces of a directory-entry name: the name itself. -/
theorem components_of_name (x : String) (h1 : x.data ≠ []) (h2 : ∀ c ∈ x.data, c ≠ '/')
    (h3 : x ≠ ".") : components x.data = [x] := by
  unfold components
  rw [splitSlash_of_no_slash x.data h2]
  have hdot : x.data ≠ ['.'] := fun h => h3 (String.ext h)
  have hemp : x.data.isEmpty = false := by
    cases hx : x.data with
    | nil => exact absurd hx h1
    | cons _ _ => rfl
  simp [hemp, hdot]

/-- What a plain name is. -/
theorem plainName_spec (x : String) (h : plainName x = true) :
    x.data ≠ [] ∧ (∀ c ∈ x.data, c ≠ '/') ∧ x ≠ "." ∧ x ≠ ".." ∧ nulFree x = true := by
  simp only [plainName, Bool.and_eq_true, decide_eq_true_eq, List.all_eq_true, bne_iff_ne,
    ne_eq] at h
  obtain ⟨⟨⟨⟨hlo, -⟩, hall⟩, hdot⟩, hdd⟩ := h
  refine ⟨?_, fun c hc => (hall c hc).2, hdot, hdd, ?_⟩
  · intro he
    have : x = "" := String.ext he
    subst this
    simp [String.utf8ByteSize, String.utf8ByteSize.go] at hlo
  · simp only [nulFree, List.all_eq_true, bne_iff_ne, ne_eq]
    exact fun c hc => (hall c hc).1

/-- A plain name is the one name of its path. -/
theorem components_plainName (x : String) (h : plainName x = true) : components x.data = [x] := by
  obtain ⟨h1, h2, h3, -, -⟩ := plainName_spec x h
  exact components_of_name x h1 h2 h3

/-- A hex character is no slash, no dot and no NUL. -/
theorem hexChar_ne (c : Char) (h : "0123456789abcdef".data.contains c = true) :
    c ≠ '/' ∧ c ≠ '.' ∧ c ≠ NUL := by
  have hm : c ∈ "0123456789abcdef".data := by simpa using h
  refine ⟨?_, ?_, ?_⟩ <;>
  · rintro rfl
    revert hm
    decide

/-- What a hex digest is. -/
theorem hexDigest_spec (x : String) (h : hexDigest x = true) :
    x.data ≠ [] ∧ (∀ c ∈ x.data, c ≠ '/' ∧ c ≠ '.' ∧ c ≠ NUL) := by
  simp only [hexDigest, Bool.and_eq_true, decide_eq_true_eq, List.all_eq_true] at h
  obtain ⟨⟨hlo, -⟩, hall⟩ := h
  refine ⟨?_, fun c hc => hexChar_ne c (hall c hc)⟩
  intro he
  have : x.length = 0 := by
    show x.data.length = 0
    rw [he]
    rfl
  omega

/-- The names in the chunk path of a hex digest below the root: the directory
of its first two characters, then the digest. -/
theorem components_hex (x : String) (h : hexDigest x = true) :
    components (x.data.take 2) = [String.mk (x.data.take 2)] ∧ components x.data = [x] ∧
    String.mk (x.data.take 2) ≠ ".." ∧ x ≠ ".." := by
  obtain ⟨h1, h2⟩ := hexDigest_spec x h
  have hne : ∀ y : String, y.data ≠ [] → (∀ c ∈ y.data, c ≠ '/' ∧ c ≠ '.' ∧ c ≠ NUL) →
      components y.data = [y] ∧ y ≠ ".." := by
    intro y hy hall
    have hdot : ∀ z : String, (∃ c ∈ z.data, c = '.') → y ≠ z := by
      rintro z ⟨c, hc, rfl⟩ rfl
      exact (hall _ hc).2.1 rfl
    exact ⟨components_of_name y hy (fun c hc => (hall c hc).1) (hdot "." ⟨'.', by decide, rfl⟩),
      hdot ".." ⟨'.', by decide, rfl⟩⟩
  have ht : (String.mk (x.data.take 2)).data ≠ [] := by
    show x.data.take 2 ≠ []
    cases hx : x.data with
    | nil => exact absurd hx h1
    | cons _ _ => simp
  have hta : ∀ c ∈ (String.mk (x.data.take 2)).data, c ≠ '/' ∧ c ≠ '.' ∧ c ≠ NUL :=
    fun c hc => h2 c (List.mem_of_mem_take hc)
  exact ⟨(hne _ ht hta).1, (hne x h1 h2).1, (hne _ ht hta).2, (hne x h1 h2).2⟩

/-- Names other than `..` are entered one after the other. -/
theorem foldl_resolveStep (names reached : List String) (h : ∀ n ∈ names, n ≠ "..") :
    names.foldl resolveStep reached = reached ++ names := by
  induction names generalizing reached with
  | nil => simp
  | cons n rest ih =>
    rw [List.foldl_cons, ih _ (fun m hm => h m (List.mem_cons_of_mem _ hm))]
    simp [resolveStep, h n (List.mem_cons_self _ _)]

/-- The names of a normalized path: its pieces, all of them plain names; they
are the one name `metadata.db` for the path `metadata.db` only. -/
theorem components_normalPath (p : String) (h : normalPath p = true) :
    components p.data = (splitSlash p.data).map String.mk ∧
    (∀ n ∈ components p.data, plainName n = true) ∧
    (components p.data = ["metadata.db"] → p = "metadata.db") := by
  simp only [normalPath, List.all_eq_true] at h
  have hkeep : (splitSlash p.data).filter (fun piece => !piece.isEmpty && piece != ['.'])
      = splitSlash p.data := by
    rw [List.filter_eq_self]
    intro piece hp
    obtain ⟨h1, -, h3, -, -⟩ := plainName_spec _ (h piece hp)
    have hemp : piece.isEmpty = false := by
      cases piece with
      | nil => exact absurd rfl h1
      | cons _ _ => rfl
    have hdot : piece ≠ ['.'] := fun he => h3 (by rw [he])
    simp [hemp, hdot]
  have hc : components p.data = (splitSlash p.data).map String.mk := by
    unfold components
    rw [hkeep]
  refine ⟨hc, ?_, ?_⟩
  · intro n hn
    rw [hc, List.mem_map] at hn
    obtain ⟨piece, hp, rfl⟩ := hn
    exact h piece hp
  · intro he
    rw [hc] at he
    have hs : splitSlash p.data = ["metadata.db".data] := by
      cases hx : splitSlash p.data with
      | nil => exact absurd hx (splitSlash_ne_nil _)
      | cons a rest =>
        rw [hx] at he
        simp only [List.map_cons, List.cons.injEq, List.map_eq_nil_iff] at he
        obtain ⟨h1, h2⟩ := he
        subst h2
        have : a = "metadata.db".data := congrArg String.data h1
        rw [this]
    exact String.ext (splitSlash_single _ _ hs)

namespace StorageManager

theorem getClientDBPath_data (s : StorageManager) (c : String) :
    (getClientDBPath s c).data
      = s.storage_root.data ++ (['/', 'c', 'l', 'i', 'e', 'n', 't', 's', '/']
          ++ (c.data ++ ['/', 'm', 'e', 't', 'a', 'd', 'a', 't', 'a', '.', 'd', 'b'])) := by
  simp only [getClientDBPath, getClientStoragePath, String.data_append, List.append_assoc]

/-- Names other than `..` that follow the root are entered below it. -/
theorem resolve_below_root (root : String) (rest : List Char) (names : List String)
    (hc : components rest = names) (hn : ∀ n ∈ names, n ≠ "..") :
    (components (root.data ++ '/' :: rest)).foldl resolveStep []
      = resolvePath root ++ names := by
  rw [components_append, List.foldl_append, hc, foldl_resolveStep _ _ hn]
  rfl

/-- Where the staging path of a normalized file path of a client with a plain
name leads: below the root, into `clients`, into the directory of the client,
and along the names of the file path. -/
theorem resolvePath_temp (s : StorageManager) (c p : String) (hc : plainName c = true)
    (hp : normalPath p = true) :
    resolvePath (getTempFilePath s c p)
      = resolvePath s.storage_root ++ ("clients" :: c :: components p.data) := by
  obtain ⟨-, -, -, hcdd, -⟩ := plainName_spec c hc
  obtain ⟨-, hpl, -⟩ := components_normalPath p hp
  unfold resolvePath pathComponents
  rw [getTempFilePath_data]
  apply resolve_below_root s.storage_root
  · show components ("clients".data ++ '/' :: (c.data ++ '/' :: p.data)) = _
    rw [components_append, components_append, components_plainName c hc]
    rfl
  · intro n hn
    rcases List.mem_cons.mp hn with h | h
    · rw [h]
      decide
    · rcases List.mem_cons.mp h with h | h
      · rw [h]
        exact hcdd
      · exact (plainName_spec n (hpl n h)).2.2.2.1

/-- Where the path of the database of a client with a plain name leads. -/
theorem resolvePath_db (s : StorageManager) (c : String) (hc : plainName c = true) :
    resolvePath (getClientDBPath s c)
      = resolvePath s.storage_root ++ ["clients", c, "metadata.db"] := by
  obtain ⟨-, -, -, hcdd, -⟩ := plainName_spec c hc
  unfold resolvePath pathComponents
  rw [getClientDBPath_data]
  apply resolve_below_root s.storage_root
  · show components ("clients".data ++ '/' :: (c.data ++ '/' :: "metadata.db".data)) = _
    rw [components_append, components_append, components_plainName c hc]
    rfl
  · intro n hn
    simp only [List.mem_cons, List.mem_singleton, List.not_mem_nil, or_false] at hn
    rcases hn with h | h | h
    · rw [h]
      decide
    · rw [h]
      exact hcdd
    · rw [h]
      decide

/-- Where the chunk path of a hex digest leads. -/
theorem resolvePath_chunk (s : StorageManager) (hash : String) (hh : hexDigest hash = true) :
    resolvePath (getChunkPath s hash)
      = resolvePath s.storage_root ++ ["chunks", String.mk (hash.data.take 2), hash] := by
  obtain ⟨h1, h2, h3, h4⟩ := components_hex hash hh
  unfold resolvePath pathComponents
  rw [getChunkPath_data]
  apply resolve_below_root s.storage_root
  · show components ("chunks".data ++ '/' :: (hash.data.take 2 ++ '/' :: hash.data)) = _
    rw [components_append, components_append, h1, h2]
    rfl
  · intro n hn
    simp only [List.mem_cons, List.mem_singleton, List.not_mem_nil, or_false] at hn
    rcases hn with h | h | h
    · rw [h]
      decide
    · rw [h]
      exact h3
    · rw [h]
      exact h4

/-- The staging file of a client with a plain name and a normalized file path
other than `metadata.db` is not the database file of the client, and it is
not the database file of any other client with a plain name. -/
theorem resolvePath_temp_ne_db (s : StorageManager) (c c' p : String)
    (hc : plainName c = true) (hc' : plainName c' = true) (hp : normalPath p = true)
    (hne : c ≠ c' ∨ p ≠ "metadata.db") :
    resolvePath (getTempFilePath s c p) ≠ resolvePath (getClientDBPath s c') := by
  rw [resolvePath_temp s c p hc hp, resolvePath_db s c' hc']
  intro h
  have h2 := List.append_cancel_left h
  simp only [List.cons.injEq, true_and] at h2
  rcases hne with hne | hne
  · exact hne h2.1
  · exact hne ((components_normalPath p hp).2.2 h2.2)

/-- The blob file of a hex digest is not the database file of a client with a
plain name. -/
theorem resolvePath_chunk_ne_db (s : StorageManager) (c hash : String)
    (hc : plainName c = true) (hh : hexDigest hash = true) :
    resolvePath (getChunkPath s hash) ≠ resolvePath (getClientDBPath s c) := by
  rw [resolvePath_chunk s hash hh, resolvePath_db s c hc]
  intro h
  have h2 := List.append_cancel_left h
  simp only [List.cons.injEq] at h2
  exact absurd h2.1 (by decide)

/-- Clients with different plain names have different database files. -/
theorem resolvePath_db_inj (s : StorageManager) (a b : String)
    (ha : plainName a = true) (hb : plainName b = true)
    (h : resolvePath (getClientDBPath s a) = resolvePath (getClientDBPath s b)) : a = b := by
  rw [resolvePath_db s a ha, resolvePath_db s b hb] at h
  have h2 := List.append_cancel_left h
  simp only [List.cons.injEq, true_and, and_true] at h2
  exact h2

/-- A staging path that climbs with `..` can lead to a blob, and one that
passes through `.` to the database; a client id that ends in a slash leads to
the database of the id without the slash. -/
theorem resolvePath_aliases :
    resolvePath (getTempFilePath (fresh "r") "c" "../../chunks/0/0")
      = resolvePath (getChunkPath (fresh "r") "0") ∧
    resolvePath (getTempFilePath (fresh "r") "c" "./metadata.db")
      = resolvePath (getClientDBPath (fresh "r") "c") ∧
    resolvePath (getClientDBPath (fresh "r") "c/")
      = resolvePath (getClientDBPath (fresh "r") "c") := by
  decide

end StorageManager

namespace StorageManager

theorem getChunk_congr (a b : StorageManager) (hroot : a.storage_root = b.storage_root)
    (hash : String) (hfs : a.fs (getChunkPath b hash) = b.fs (getChunkPath b hash)) :
    getChunk a hash = getChunk b hash := by
  unfold getChunk
  rw [getChunkPath_root a b hroot, hfs]

/-- The loop of `finalizeFile` when it runs to its end: the staging file has
grown by the blobs of the digests, in order; nothing else changed. -/
theorem writeChunks_true (temp : String) (hashes : List String) (s s' : StorageManager)
    (w : List Byte) (hdis : ∀ h, getChunkPath s h ≠ temp) (hw : s.fs temp = some w)
    (h : writeChunks temp s hashes = (true, s')) :
    s'.fs temp = some (w ++ (hashes.map (getChunk s)).flatten) ∧
    (∀ q, q ≠ temp → s'.fs q = s.fs q) ∧
    s'.client_dbs_ = s.client_dbs_ ∧ s'.storage_root = s.storage_root := by
  induction hashes generalizing s w with
  | nil =>
    simp only [writeChunks, Prod.mk.injEq, true_and] at h
    subst h
    simp [hw]
  | cons hash rest ih =>
    rw [writeChunks] at h
    cases he : (getChunk s hash).isEmpty
    · rw [he] at h
      simp only [Bool.false_eq_true, if_false] at h
      have hroot : (appendFile s temp (getChunk s hash)).storage_root = s.storage_root := rfl
      have hdis' : ∀ h', getChunkPath (appendFile s temp (getChunk s hash)) h' ≠ temp := by
        intro h'
        rw [getChunkPath_root _ _ hroot]
        exact hdis h'
      have hw' : (appendFile s temp (getChunk s hash)).fs temp
          = some (w ++ getChunk s hash) := by
        simp [appendFile, hw]
      obtain ⟨h1, h2, h3, h4⟩ := ih (appendFile s temp (getChunk s hash))
        (w ++ getChunk s hash) hdis' hw' h
      have hsame : ∀ h', getChunk (appendFile s temp (getChunk s hash)) h' = getChunk s h' := by
        intro h'
        apply getChunk_congr _ _ hroot
        simp [appendFile, Function.update_noteq (hdis h')]
      refine ⟨?_, ?_, h3, h4⟩
      · rw [h1, List.map_cons, List.flatten_cons, List.append_assoc]
        congr 3
        rw [List.map_congr_left (fun h' _ => hsame h')]
      · intro q hq
        rw [h2 q hq]
        simp [appendFile, Function.update_noteq hq]
    · rw [he] at h
      simp only [if_true, Prod.mk.injEq, Bool.false_eq_true, false_and] at h

/-- What a successful `finalizeFile` leaves behind. -/
theorem finalizeFile_true (sha256 : List Byte → String) (env : Env) (s s' : StorageManager)
    (c p : String) (total : Int) (h : finalizeFile sha256 env s c p total = (true, s')) :
    ∃ db, (getClientDB env s c).1 = some db ∧
      (db.getFileChunks p).length = toSizeT total ∧
      s'.client_dbs_ c = some (db.insertOrUpdateFile
        { path := p
          size := (((db.getFileChunks p).map (getChunk s)).flatten.length : Int)
          modified_time := env.now
          hash := sha256 ((db.getFileChunks p).map (getChunk s)).flatten
          version := 1
          is_directory := false
          deleted := false
          last_sync_time := env.stale }).2 ∧
      (∀ hash, getChunk s' hash = getChunk s hash) ∧
      s'.fs (getTempFilePath s c p) = some ((db.getFileChunks p).map (getChunk s)).flatten := by
  unfold finalizeFile at h
  cases hg : getClientDB env s c with
  | mk odb s1 =>
    rw [hg] at h
    cases odb with
    | none => simp at h
    | some db =>
      obtain ⟨hdb, hfs, hroot, -, -⟩ := getClientDB_some env s s1 c db hg
      simp only at h
      by_cases hlen : (db.getFileChunks p).length = toSizeT total
      · rw [if_neg (not_not.mpr hlen)] at h
        cases hcw : env.canWrite (getTempFilePath s1 c p)
        · rw [hcw] at h
          simp at h
        · rw [hcw] at h
          simp only [Bool.not_true, Bool.false_eq_true, if_false] at h
          have htemp : getTempFilePath s1 c p = getTempFilePath s c p := by
            unfold getTempFilePath getClientStoragePath
            rw [hroot]
          cases hwc : writeChunks (getTempFilePath s1 c p)
              { s1 with fs := Function.update s1.fs (getTempFilePath s1 c p) (some []) }
              (db.getFileChunks p) with
          | mk ok s3 =>
            rw [hwc] at h
            cases ok with
            | false => simp at h
            | true =>
              simp only [Prod.mk.injEq] at h
              have hdis : ∀ h', getChunkPath
                  ({ s1 with fs := Function.update s1.fs (getTempFilePath s1 c p) (some []) } :
                    StorageManager) h' ≠ getTempFilePath s1 c p :=
                fun h' => getChunkPath_ne_temp s1 h' c p
              obtain ⟨w1, w2, w3, w4⟩ := writeChunks_true (getTempFilePath s1 c p)
                (db.getFileChunks p) _ s3 [] hdis (by simp) hwc
              have hsame : ∀ h', getChunk
                  ({ s1 with fs := Function.update s1.fs (getTempFilePath s1 c p) (some []) } :
                    StorageManager) h' = getChunk s h' := by
                intro h'
                refine getChunk_congr
                  ({ s1 with fs := Function.update s1.fs (getTempFilePath s1 c p) (some []) } :
                    StorageManager) s hroot h' ?_
                show Function.update s1.fs (getTempFilePath s1 c p) (some []) _ = _
                rw [Function.update_noteq, hfs]
                rw [htemp]
                exact getChunkPath_ne_temp s h' c p
              have hmap : (db.getFileChunks p).map (getChunk
                  ({ s1 with fs := Function.update s1.fs (getTempFilePath s1 c p) (some []) } :
                    StorageManager)) = (db.getFileChunks p).map (getChunk s) :=
                List.map_congr_left (fun h' _ => hsame h')
              rw [hmap, List.nil_append] at w1
              obtain ⟨-, hs'⟩ := h
              refine ⟨db, rfl, hlen, ?_, ?_, ?_⟩
              · rw [← hs', setClientDB_get, w1]
                rfl
              · intro hash
                rw [← hs']
                refine getChunk_congr (setClientDB s3 c _) s (w4.trans hroot) hash ?_
                show s3.fs _ = _
                have hne : getChunkPath s hash ≠ getTempFilePath s1 c p := by
                  rw [htemp]
                  exact getChunkPath_ne_temp s hash c p
                rw [w2 _ hne]
                show Function.update s1.fs (getTempFilePath s1 c p) (some []) _ = _
                rw [Function.update_noteq hne, hfs]
              · rw [← hs', ← htemp]
                exact w1
      · rw [if_pos hlen] at h
        simp at h

theorem getFile_insertOrUpdateFile (db : MetadataDB) (record : FileRecord) :
    (db.insertOrUpdateFile record).2.getFile record.path = some record := by
  simp only [MetadataDB.insertOrUpdateFile, MetadataDB.getFile, List.find?_append]
  have h1 : List.find? (fun r => r.path == record.path)
      (List.filter (fun r => r.path != record.path) db.files) = none := by
    rw [List.find?_eq_none]
    intro r hr
    rw [List.mem_filter] at hr
    simpa [bne] using hr.2
  rw [h1]
  simp

theorem getFileMetadata_of_db (env : Env) (s : StorageManager) (c p : String)
    (db : MetadataDB) (h : s.client_dbs_ c = some db) :
    (getFileMetadata env s c p).1 = db.getFile p := by
  unfold getFileMetadata getClientDB
  rw [h]

end StorageManager

namespace StorageManager

/-- What one `storeChunk` call does to the root, the disk and the databases. -/
theorem storeChunk_effect (env : Env) (s : StorageManager) (c p : String) (i : Int)
    (data : List Byte) (hash : String) :
    (storeChunk env s c p i data hash).2.storage_root = s.storage_root ∧
    ((storeChunk env s c p i data hash).2.fs = s.fs ∨
      (s.fs (getChunkPath s hash) = none ∧
        (storeChunk env s c p i data hash).2.fs
          = Function.update s.fs (getChunkPath s hash) (some data))) ∧
    (((storeChunk env s c p i data hash).1 = false ∧
        (storeChunk env s c p i data hash).2.client_dbs_ = s.client_dbs_) ∨
      ∃ db, (s.client_dbs_ c = some db ∨ (s.client_dbs_ c = none ∧ db = MetadataDB.empty)) ∧
        (storeChunk env s c p i data hash).1 = true ∧
        (storeChunk env s c p i data hash).2.client_dbs_
          = Function.update s.client_dbs_ c
              (some (db.insertChunk p i hash 0 (toInt32 data.length)).2)) := by
  by_cases h : (s.fs (getChunkPath s hash)).isSome = true ∨
      env.canWrite (getChunkPath s hash) = true
  · obtain ⟨s1, -, h2, h3, hkeep, hnew, heq⟩ := storeChunk_blob_present env s c p i data hash h
    have hfs1 : s1.fs = s.fs ∨ (s.fs (getChunkPath s hash) = none ∧
        s1.fs = Function.update s.fs (getChunkPath s hash) (some data)) := by
      cases he : (s.fs (getChunkPath s hash)).isSome
      · right
        refine ⟨?_, by rw [hnew he]⟩
        cases hx : s.fs (getChunkPath s hash) with
        | none => rfl
        | some v => rw [hx] at he; cases he
      · left
        rw [hkeep he]
    cases hg : getClientDB env s1 c with
    | mk odb s2 =>
      rw [hg] at heq
      cases odb with
      | none =>
        simp only at heq
        obtain ⟨hs2, -, -⟩ := getClientDB_none env s1 s2 c hg
        subst hs2
        rw [heq]
        exact ⟨h2, hfs1, Or.inl ⟨rfl, h3⟩⟩
      | some db =>
        simp only at heq
        obtain ⟨-, hfs, hroot, hother, hdb⟩ := getClientDB_some env s1 s2 c db hg
        rw [heq]
        refine ⟨hroot.trans h2, ?_, Or.inr ⟨db, by rw [← h3]; exact hdb, rfl, ?_⟩⟩
        · show s2.fs = s.fs ∨ (_ ∧ s2.fs = _)
          rw [hfs]
          exact hfs1
        · show Function.update s2.client_dbs_ c _ = _
          funext c'
          by_cases hc : c' = c
          · subst hc
            simp
          · rw [Function.update_noteq hc, Function.update_noteq hc, hother c' hc, h3]
  · have he : (s.fs (getChunkPath s hash)).isSome = false := by
      cases hb : (s.fs (getChunkPath s hash)).isSome
      · rfl
      · exact absurd (Or.inl hb) h
    have hw : env.canWrite (getChunkPath s hash) = false := by
      cases hb : env.canWrite (getChunkPath s hash)
      · rfl
      · exact absurd (Or.inr hb) h
    rw [storeChunk_blocked env s c p i data hash he hw]
    exact ⟨rfl, Or.inl rfl, Or.inl ⟨rfl, rfl⟩⟩

end StorageManager

namespace StorageManager

/-- C14 as amended: a successful `finalizeFile` leaves for the path a record
whose version is 1, whether or not the path had a record before. -/
theorem finalizeFile_version (sha256 : List Byte → String) (env : Env)
    (s s' : StorageManager) (client_id filepath : String) (total_chunks : Int)
    (h : finalizeFile sha256 env s client_id filepath total_chunks = (true, s')) :
    ((getFileMetadata env s' client_id filepath).1.map FileRecord.version) = some 1 := by
  obtain ⟨db, -, -, h3, -, -⟩ := finalizeFile_true sha256 env s s' client_id filepath
    total_chunks h
  rw [getFileMetadata_of_db env s' client_id filepath _ h3]
  have := getFile_insertOrUpdateFile db
    { path := filepath
      size := (((db.getFileChunks filepath).map (getChunk s)).flatten.length : Int)
      modified_time := env.now
      hash := sha256 ((db.getFileChunks filepath).map (getChunk s)).flatten
      version := 1
      is_directory := false
      deleted := false
      last_sync_time := env.stale }
  simp only at this
  rw [this]
  rfl

end StorageManager

namespace StorageManager

open DeltaEngine

/-- C14 fails as stated: on `demoFinalized` the path `f` has a record of
version 1; a second `finalizeFile` succeeds and the record it leaves has
version 1 again, not 2. -/
theorem finalizeFile_version_not_incremented :
    ((getFileMetadata Env.permissive demoFinalized "c" "f").1.map FileRecord.version)
      = some 1 ∧
    (finalizeFile headDigest Env.permissive demoFinalized "c" "f" 1).1 = true ∧
    ((getFileMetadata Env.permissive
        (finalizeFile headDigest Env.permissive demoFinalized "c" "f" 1).2 "c" "f").1.map
      FileRecord.version) = some 1 := by
  decide

/-- C14 as amended, on the second `finalizeFile` of the file `f`. -/
theorem finalizeFile_version_witness :
    ((getFileMetadata Env.permissive
        (finalizeFile headDigest Env.permissive demoFinalized "c" "f" 1).2 "c" "f").1.map
      FileRecord.version) = some 1 :=
  finalizeFile_version headDigest Env.permissive demoFinalized
    (finalizeFile headDigest Env.permissive demoFinalized "c" "f" 1).2 "c" "f" 1
    (Prod.ext (by decide) rfl)

end StorageManager

namespace StorageManager

open DeltaEngine

end StorageManager

/-! ## Uploading a file again -/

namespace StorageManager

end StorageManager

namespace StorageManager

open MetadataDB

end StorageManager

namespace StorageManager

open MetadataDB DeltaEngine

end StorageManager

/-! ## Transactions -/

namespace MetadataDB

namespace Transaction

theorem run_snoc (st : Transaction × List String) (calls : List Call) (c : Call) :
    run st (calls ++ [c]) = step (run st calls) c := by
  simp [run, List.foldl_append]

theorem step_committed (st : Transaction × List String) (c : Call) :
    (step st c).1.committed_ = (st.1.committed_ || c.settles) := by
  cases c with
  | commit ok =>
    cases ok <;> simp [step, commit, MetadataDB.commit, executeSQL, Call.settles]
  | rollback ok =>
    cases h : st.1.committed_ <;> simp [step, rollback, h, Call.settles]

/-- The flag `committed_` after a sequence of calls: set exactly when it was
set before or one of the calls settled the handle. -/
theorem run_committed (st : Transaction × List String) (calls : List Call) :
    (run st calls).1.committed_ = (st.1.committed_ || calls.any Call.settles) := by
  induction calls using List.reverseRecOn with
  | nil => simp [run]
  | append_singleton calls c ih =>
    rw [run_snoc, step_committed, ih, List.any_append]
    simp [Bool.or_assoc]

theorem settles_of_commits (calls : List Call) (h : calls.any Call.commits = true) :
    calls.any Call.settles = true := by
  rw [List.any_eq_true] at h ⊢
  obtain ⟨c, hc, h1⟩ := h
  refine ⟨c, hc, ?_⟩
  cases c with
  | commit ok => exact h1
  | rollback ok => rfl

/-- C21: a handle is constructed, any sequence of `commit()` and `rollback()`
calls is made on it, each with any verdict of the database, and the handle is
destroyed. If no `commit()` succeeded and `rollback()` was never called, the
destructor hands exactly one more statement to the database, a `ROLLBACK`
(also when a `commit()` was tried and failed); otherwise the destructor hands
over nothing. A `rollback()` that follows a successful `commit()` hands over
nothing either. -/
theorem transaction_rollback_discipline (okBegin okEnd : Bool) (log : List String)
    (calls : List Call) :
    destructor (run (new okBegin log) calls).1 okEnd (run (new okBegin log) calls).2
      = (if calls.any Call.settles then (run (new okBegin log) calls).2
         else (run (new okBegin log) calls).2 ++ ["ROLLBACK"]) ∧
    (∀ ok, calls.any Call.commits = true →
      (rollback (run (new okBegin log) calls).1 ok (run (new okBegin log) calls).2).2
        = (run (new okBegin log) calls).2) := by
  have hc := run_committed (new okBegin log) calls
  have h0 : (new okBegin log).1.committed_ = false := rfl
  rw [h0, Bool.false_or] at hc
  refine ⟨?_, ?_⟩
  · unfold destructor
    rw [hc]
    cases calls.any Call.settles <;> simp [MetadataDB.rollback, executeSQL]
  · intro ok h
    unfold rollback
    rw [hc, settles_of_commits calls h]
    rfl

/-- C21 on a handle whose only `commit()` fails, and on one whose `commit()`
succeeds and is followed by a `rollback()`. -/
theorem transaction_rollback_discipline_witness :
    destructor (run (new true []) [Call.commit false]).1 true
        (run (new true []) [Call.commit false]).2
      = ["BEGIN TRANSACTION", "COMMIT", "ROLLBACK"] ∧
    (rollback (run (new true []) [Call.commit true]).1 true
        (run (new true []) [Call.commit true]).2).2
      = ["BEGIN TRANSACTION", "COMMIT"] := by
  have h1 := (transaction_rollback_discipline true true [] [Call.commit false]).1
  have h2 := (transaction_rollback_discipline true true [] [Call.commit true]).2 true (by decide)
  exact ⟨h1.trans (by decide), h2.trans (by decide)⟩

end Transaction

end MetadataDB

/-! ## The digest format -/

namespace Hash

set_option maxRecDepth 100000 in
theorem setw2_hexDigits (b : Byte) : setw2 (hexDigits b.val) = twoHex b := by
  revert b
  decide

set_option maxRecDepth 100000 in
theorem twoHex_mem (b : Byte) : ∀ c ∈ twoHex b, c ∈ "0123456789abcdef".data := by
  revert b
  decide

theorem flatten_length_two {α : Type} (l : List (List α)) (h : ∀ x ∈ l, x.length = 2) :
    l.flatten.length = 2 * l.length := by
  induction l with
  | nil => rfl
  | cons x xs ih =>
    rw [List.flatten_cons, List.length_append, h x (List.mem_cons_self _ _),
      ih (fun y hy => h y (List.mem_cons_of_mem _ hy)), List.length_cons]
    omega

/-- C26: for every byte vector, `sha256` returns the 32 digest bytes written in
order, each as two lowercase hexadecimal digits, high digit first: 64
characters, each one of `0`-`9`, `a`-`f`. The overload that takes a string
returns what the byte-vector overload returns on the bytes of the string. -/
theorem sha256_format (SHA256 : List Byte → Fin SHA256_DIGEST_LENGTH → Byte)
    (data : List Byte) (str : List Int) :
    (sha256 SHA256 data).data
      = ((List.finRange 32).map (fun i => twoHex (SHA256 data i))).flatten ∧
    (sha256 SHA256 data).length = 64 ∧
    (∀ c ∈ (sha256 SHA256 data).data, c ∈ "0123456789abcdef".data) ∧
    sha256String SHA256 str = sha256 SHA256 (str.map charToByte) := by
  have h1 : (sha256 SHA256 data).data
      = ((List.finRange 32).map (fun i => twoHex (SHA256 data i))).flatten := by
    show ((List.finRange SHA256_DIGEST_LENGTH).map
      (fun i => setw2 (hexDigits (SHA256 data i).val))).flatten = _
    simp only [setw2_hexDigits]
    rfl
  refine ⟨h1, ?_, ?_, rfl⟩
  · show (sha256 SHA256 data).data.length = 64
    rw [h1, flatten_length_two]
    · simp
    · intro x hx
      rw [List.mem_map] at hx
      obtain ⟨i, -, rfl⟩ := hx
      rfl
  · intro c hc
    rw [h1, List.mem_flatten] at hc
    obtain ⟨l, hl, hcl⟩ := hc
    rw [List.mem_map] at hl
    obtain ⟨i, -, rfl⟩ := hl
    exact twoHex_mem _ c hcl

end Hash

/-! ## Appending to a fresh rolling hash -/

namespace Hash

namespace RollingHash

theorem append_from_zero (r : RollingHash) (h0 : r.hash_ = 0) (a b : Byte) :
    (r.append a).hash = a.val ∧ ((r.append a).append b).hash = 31 * a.val + b.val := by
  have ha := a.isLt
  have hb := b.isLt
  have h1 : (r.append a).hash_ = a.val := by
    show u64add (u64mul r.hash_ kPrime) a.val % kMod = _
    rw [h0, u64mul_of_lt (by decide), u64add_of_lt (by unfold U64; omega)]
    unfold kMod kPrime
    omega
  refine ⟨h1, ?_⟩
  show u64add (u64mul (r.append a).hash_ kPrime) b.val % kMod = _
  rw [h1, u64mul_of_lt (by unfold U64 kPrime; omega),
    u64add_of_lt (by unfold U64 kPrime; omega)]
  unfold kMod kPrime
  omega

/-- C27: on a hash just constructed (any window size) or just reset, and for
bytes `a` and `b` that are not both zero, the value after `append(a)` and
`append(b)` differs from the value after `append(a)` alone. -/
theorem append_changes_hash (w : Nat) (r : RollingHash) (a b : Byte)
    (hab : a ≠ 0 ∨ b ≠ 0) :
    (((new w).append a).append b).hash ≠ ((new w).append a).hash ∧
    ((r.reset.append a).append b).hash ≠ (r.reset.append a).hash := by
  have key : ∀ q : RollingHash, q.hash_ = 0 → ((q.append a).append b).hash ≠ (q.append a).hash := by
    intro q hq
    obtain ⟨h1, h2⟩ := append_from_zero q hq a b
    rw [h1, h2]
    have ha : a.val ≠ 0 ∨ b.val ≠ 0 := by
      rcases hab with h | h
      · exact Or.inl (fun h' => h (Fin.ext h'))
      · exact Or.inr (fun h' => h (Fin.ext h'))
    omega
  exact ⟨key _ (Chunker.new_hash_zero w), key _ (reset_hash r)⟩

/-- C27 on the case of the test: window size 10, `a` the letter a (97) and
`b` the letter b (98). -/
theorem append_changes_hash_witness :
    (((new 10).append 97).append 98).hash ≠ ((new 10).append 97).hash ∧
    (((new 10).reset.append 97).append 98).hash ≠ ((new 10).reset.append 97).hash :=
  append_changes_hash 10 (new 10) 97 98 (Or.inl (by decide))

end RollingHash

end Hash

/-! ## Chunk statistics and chunk counts -/

namespace Chunker

/-- C24: on the empty byte sequence `chunkData` returns no chunk and leaves
the statistics `total_chunks = 0`, `min_size = 0`, `max_size = 0`,
`avg_size = 0`, whatever the statistics were before. -/
theorem chunkData_empty (previous : ChunkStats) (sha256 : List Byte → String) :
    (chunkDataFrom previous sha256 []).1 = [] ∧
    chunkData sha256 [] = [] ∧
    getLastStats (chunkDataFrom previous sha256 [])
      = { total_chunks := 0, min_size := 0, max_size := 0, avg_size := 0 } :=
  ⟨rfl, rfl, rfl⟩

end Chunker

namespace Chunker

open Hash

/-- The binary logarithm of a number between two powers of two. -/
theorem log2_eq (n k : Nat) (h1 : 2 ^ k ≤ n) (h2 : n < 2 ^ (k + 1)) : Nat.log2 n = k := by
  have hn : n ≠ 0 := by
    have : 0 < 2 ^ k := Nat.two_pow_pos k
    omega
  have ha : ¬ Nat.log2 n < k := by
    rw [Nat.log2_lt hn]
    omega
  have hb : Nat.log2 n < k + 1 := (Nat.log2_lt hn).mpr h2
  omega

/-- Rounding a whole number leaves it as it is. -/
theorem roundHalfEven_one (n : Nat) : roundHalfEven n 1 = n := by
  unfold roundHalfEven
  simp [Nat.mod_one]

/-- A whole number below `2 ^ 53` is a `double`. -/
theorem toDouble_natCast (n : Nat) (h : n < 2 ^ 53) : toDouble (n : ℚ) = n := by
  rcases Nat.eq_zero_or_pos n with h0 | hpos
  · subst h0
    simp [toDouble]
  have hn : n ≠ 0 := by omega
  have hl : Nat.log2 n ≤ 52 := by
    have := (Nat.log2_lt hn).mpr h
    omega
  have hle := Nat.log2_self_le hn
  have h1 : Nat.log2 1 = 0 := log2_eq 1 0 (by decide) (by decide)
  have hk0 : (52 - (Nat.log2 n : Int) + (Nat.log2 1 : Int)) = ((52 - Nat.log2 n : Nat) : Int) := by
    rw [h1]
    omega
  have hscale : scale53 n 1 = ((52 - Nat.log2 n : Nat) : Int) := by
    unfold scale53
    simp only [hk0, Int.toNat_ofNat, Int.toNat_neg_nat, pow_zero, mul_one]
    rw [if_neg]
    have : 2 ^ 52 = 2 ^ Nat.log2 n * 2 ^ (52 - Nat.log2 n) := by
      rw [← pow_add]
      congr 1
      omega
    rw [this]
    exact Nat.not_lt.mpr (Nat.mul_le_mul_right _ hle)
  have hq : ¬ ((n : ℚ) ≤ 0) := by
    have : (0 : ℚ) < n := by exact_mod_cast hpos
    exact not_le.mpr this
  unfold toDouble
  rw [if_neg hq]
  simp only [Rat.num_natCast, Int.toNat_ofNat, Rat.den_natCast, hscale, Int.toNat_neg_nat,
    pow_zero, mul_one, roundHalfEven_one]
  rw [Nat.cast_mul, mul_assoc, zpow_neg, zpow_natCast, Nat.cast_pow, Nat.cast_ofNat,
    mul_inv_cancel₀ (pow_ne_zero _ (by norm_num)), mul_one]

/-- A quotient that a `double` cannot hold: 8194 / 3 is rounded. -/
theorem toDouble_rounds :
    toDouble (8194 / 3) = 6006265518664363 / 2199023255552 ∧
    toDouble (8194 / 3) ≠ 8194 / 3 := by
  have hnum : ((8194 : ℚ) / 3).num = 8194 := by
    have := Rat.num_div_eq_of_coprime (a := 8194) (b := 3) (by decide) (by decide)
    simpa using this
  have hden : ((8194 : ℚ) / 3).den = 3 := by
    have := Rat.den_div_eq_of_coprime (a := 8194) (b := 3) (by decide) (by decide)
    simp only [Int.cast_ofNat] at this
    exact Int.ofNat_inj.mp this
  have hl1 : Nat.log2 8194 = 13 := log2_eq 8194 13 (by decide) (by decide)
  have hl2 : Nat.log2 3 = 1 := log2_eq 3 1 (by decide) (by decide)
  have hs : scale53 8194 3 = 41 := by
    unfold scale53
    rw [hl1, hl2]
    decide
  have hr : roundHalfEven (8194 * 2 ^ 41) (3 * 2 ^ 0) = 6006265518664363 := by decide
  have hq : ¬ ((8194 : ℚ) / 3 ≤ 0) := by norm_num
  have hval : toDouble (8194 / 3) = 6006265518664363 / 2199023255552 := by
    unfold toDouble
    have e0 : (8194 : Int).toNat = 8194 := rfl
    have e1 : (41 : Int).toNat = 41 := rfl
    have e2 : (-(41 : Int)).toNat = 0 := rfl
    rw [if_neg hq, hnum, hden, e0, hs, e1, e2, hr]
    norm_num
  refine ⟨hval, ?_⟩
  rw [hval]
  norm_num

theorem min_size_succ (sha256 : List Byte → String) (data : List Byte) (n : Nat) :
    (loopAt sha256 data (n + 1)).min_size =
      if cutAt sha256 data n then
        (if (loopAt sha256 data n).min_size = 0 ∨
            (chunkOf sha256 data n).size < (loopAt sha256 data n).min_size
          then (chunkOf sha256 data n).size else (loopAt sha256 data n).min_size)
      else (loopAt sha256 data n).min_size := by
  rw [loopAt_succ]
  split <;> rfl

theorem max_size_succ (sha256 : List Byte → String) (data : List Byte) (n : Nat) :
    (loopAt sha256 data (n + 1)).max_size =
      if cutAt sha256 data n then
        (if (chunkOf sha256 data n).size > (loopAt sha256 data n).max_size
          then (chunkOf sha256 data n).size else (loopAt sha256 data n).max_size)
      else (loopAt sha256 data n).max_size := by
  rw [loopAt_succ]
  split <;> rfl

theorem total_size_succ (sha256 : List Byte → String) (data : List Byte) (n : Nat) :
    (loopAt sha256 data (n + 1)).total_size =
      if cutAt sha256 data n then
        (loopAt sha256 data n).total_size + (chunkOf sha256 data n).size
      else (loopAt sha256 data n).total_size := by
  rw [loopAt_succ]
  split <;> rfl

/-- The running statistics of the loop: `total_size` is the sum of the sizes
emitted so far; `min_size` and `max_size` are 0 before the first chunk and
afterwards the least and the greatest size emitted. -/
theorem stats_inv (sha256 : List Byte → String) (data : List Byte) (n : Nat)
    (hn : n ≤ data.length) :
    (loopAt sha256 data n).total_size = ((loopAt sha256 data n).chunks.map ChunkInfo.size).sum ∧
    (∀ c ∈ (loopAt sha256 data n).chunks, 1 ≤ c.size) ∧
    ((loopAt sha256 data n).chunks = [] →
      (loopAt sha256 data n).min_size = 0 ∧ (loopAt sha256 data n).max_size = 0) ∧
    ((loopAt sha256 data n).chunks ≠ [] →
      (∃ c ∈ (loopAt sha256 data n).chunks, c.size = (loopAt sha256 data n).min_size) ∧
      (∀ c ∈ (loopAt sha256 data n).chunks, (loopAt sha256 data n).min_size ≤ c.size) ∧
      (∃ c ∈ (loopAt sha256 data n).chunks, c.size = (loopAt sha256 data n).max_size) ∧
      (∀ c ∈ (loopAt sha256 data n).chunks, c.size ≤ (loopAt sha256 data n).max_size)) := by
  induction n with
  | zero =>
    refine ⟨rfl, ?_, fun _ => ⟨rfl, rfl⟩, fun h => absurd rfl h⟩
    intro c hc
    simp [loopAt, loopInit] at hc
  | succ n ih =>
    obtain ⟨ih1, ih2, ih3, ih4⟩ := ih (by omega)
    have hcs := chunk_start_le sha256 data n
    have hsz := chunkOf_size sha256 data n (by omega)
    have hpos : 1 ≤ (chunkOf sha256 data n).size := by omega
    rw [chunks_succ, min_size_succ, max_size_succ, total_size_succ]
    by_cases hcut : cutAt sha256 data n = true
    · simp only [hcut, if_true]
      refine ⟨?_, ?_, ?_, ?_⟩
      · rw [List.map_append, List.sum_append, ih1]
        simp
      · intro c hc
        rcases List.mem_append.mp hc with hc | hc
        · exact ih2 c hc
        · rw [List.mem_singleton] at hc
          rw [hc]
          exact hpos
      · intro h
        simp at h
      · intro _
        by_cases hemp : (loopAt sha256 data n).chunks = []
        · obtain ⟨hmin, hmax⟩ := ih3 hemp
          rw [hemp, hmin, hmax]
          simp only [List.nil_append, List.mem_singleton, true_or, if_true, exists_eq_left,
            forall_eq]
          have : (chunkOf sha256 data n).size > 0 := hpos
          simp only [this, if_true]
          exact ⟨trivial, Nat.le_refl _, trivial, Nat.le_refl _⟩
        · obtain ⟨⟨cm, hcm, hcmeq⟩, hminle, ⟨cM, hcM, hcMeq⟩, hmaxle⟩ := ih4 hemp
          have hminpos : 1 ≤ (loopAt sha256 data n).min_size := by
            rw [← hcmeq]
            exact ih2 cm hcm
          refine ⟨?_, ?_, ?_, ?_⟩
          · by_cases hlt : (chunkOf sha256 data n).size < (loopAt sha256 data n).min_size
            · rw [if_pos (Or.inr hlt)]
              exact ⟨_, List.mem_append_right _ (List.mem_singleton_self _), rfl⟩
            · rw [if_neg (by omega)]
              exact ⟨cm, List.mem_append_left _ hcm, hcmeq⟩
          · intro c hc
            rcases List.mem_append.mp hc with hc | hc
            · have := hminle c hc
              split <;> omega
            · rw [List.mem_singleton] at hc
              rw [hc]
              split <;> omega
          · by_cases hgt : (chunkOf sha256 data n).size > (loopAt sha256 data n).max_size
            · rw [if_pos hgt]
              exact ⟨_, List.mem_append_right _ (List.mem_singleton_self _), rfl⟩
            · rw [if_neg hgt]
              exact ⟨cM, List.mem_append_left _ hcM, hcMeq⟩
          · intro c hc
            rcases List.mem_append.mp hc with hc | hc
            · have := hmaxle c hc
              split <;> omega
            · rw [List.mem_singleton] at hc
              rw [hc]
              split <;> omega
    · simp only [hcut, Bool.false_eq_true, if_false]
      exact ⟨ih1, ih2, ih3, ih4⟩

theorem chunkData_ne_nil (sha256 : List Byte → String) (data : List Byte) (h : data ≠ []) :
    chunkData sha256 data ≠ [] := by
  intro he
  have hs := chunk_sizes_sum sha256 data
  rw [he] at hs
  have : data.length = 0 := by simpa using hs.symm
  exact h (List.length_eq_zero.mp this)

theorem chunkDataRun_stats (sha256 : List Byte → String) (data : List Byte) (h : data ≠ []) :
    (chunkDataRun sha256 data).2 =
      { total_chunks := (chunkData sha256 data).length
        min_size := (loopAt sha256 data data.length).min_size
        max_size := (loopAt sha256 data data.length).max_size
        avg_size := toDouble (toDouble ((loopAt sha256 data data.length).total_size : ℚ)
          / toDouble ((chunkData sha256 data).length : ℚ)) } := by
  have hne := chunkData_ne_nil sha256 data h
  rw [chunkData_eq] at hne ⊢
  cases data with
  | nil => exact absurd rfl h
  | cons b bs =>
    have hemp : (loopAt sha256 (b :: bs) (b :: bs).length).chunks.isEmpty = false := by
      cases hx : (loopAt sha256 (b :: bs) (b :: bs).length).chunks with
      | nil => exact absurd hx hne
      | cons _ _ => rfl
    simp only [chunkDataRun, List.isEmpty_cons, Bool.false_eq_true, if_false, hemp]

/-- A quotient of whole numbers below `2 ^ 53` that is itself a whole number
is computed exactly. -/
theorem toDouble_div_exact (n k : Nat) (hk : 0 < k) (hdvd : k ∣ n) (hn : n < 2 ^ 53) :
    toDouble (toDouble (n : ℚ) / toDouble (k : ℚ)) = (n : ℚ) / (k : ℚ) := by
  rcases Nat.eq_zero_or_pos n with h0 | hpos
  · subst h0
    simp [toDouble]
  have hkn : k ≤ n := Nat.le_of_dvd hpos hdvd
  have hk0 : (k : ℚ) ≠ 0 := by
    have : (0 : ℚ) < k := by exact_mod_cast hk
    exact ne_of_gt this
  rw [toDouble_natCast n hn, toDouble_natCast k (by omega), ← Nat.cast_div hdvd hk0]
  exact toDouble_natCast (n / k) (Nat.lt_of_le_of_lt (Nat.div_le_self n k) hn)

/-- C28: after `chunkData` on a non-empty byte sequence, `total_chunks` is
the number of chunks returned, `min_size` is the smallest and `max_size` the
largest chunk size, and `avg_size` is the input length divided by the number
of chunks in `double` arithmetic: both numbers converted to `double` and the
quotient rounded to the nearest `double`. The average is the exact quotient
when the number of chunks divides an input length below `2 ^ 53`. -/
theorem chunkData_stats (previous : ChunkStats) (sha256 : List Byte → String)
    (data : List Byte) (h : data ≠ []) :
    (chunkDataFrom previous sha256 data).1 = chunkData sha256 data ∧
    (getLastStats (chunkDataFrom previous sha256 data)).total_chunks
      = (chunkData sha256 data).length ∧
    (∃ c ∈ chunkData sha256 data,
      c.size = (getLastStats (chunkDataFrom previous sha256 data)).min_size) ∧
    (∀ c ∈ chunkData sha256 data,
      (getLastStats (chunkDataFrom previous sha256 data)).min_size ≤ c.size) ∧
    (∃ c ∈ chunkData sha256 data,
      c.size = (getLastStats (chunkDataFrom previous sha256 data)).max_size) ∧
    (∀ c ∈ chunkData sha256 data,
      c.size ≤ (getLastStats (chunkDataFrom previous sha256 data)).max_size) ∧
    (getLastStats (chunkDataFrom previous sha256 data)).avg_size
      = toDouble (toDouble (data.length : ℚ)
          / toDouble ((chunkData sha256 data).length : ℚ)) ∧
    ((chunkData sha256 data).length ∣ data.length → data.length < 2 ^ 53 →
      (getLastStats (chunkDataFrom previous sha256 data)).avg_size
        = (data.length : ℚ) / ((chunkData sha256 data).length : ℚ)) := by
  have hst : getLastStats (chunkDataFrom previous sha256 data) = _ :=
    chunkDataRun_stats sha256 data h
  have hne := chunkData_ne_nil sha256 data h
  obtain ⟨h1, -, -, h4⟩ := stats_inv sha256 data data.length (Nat.le_refl _)
  rw [← chunkData_eq] at h1 h4
  obtain ⟨hmin, hminle, hmax, hmaxle⟩ := h4 hne
  rw [chunk_sizes_sum] at h1
  rw [hst]
  have havg : toDouble (toDouble ((loopAt sha256 data data.length).total_size : ℚ)
      / toDouble ((chunkData sha256 data).length : ℚ))
      = toDouble (toDouble (data.length : ℚ)
          / toDouble ((chunkData sha256 data).length : ℚ)) := by
    rw [h1]
  refine ⟨rfl, rfl, hmin, hminle, hmax, hmaxle, havg, ?_⟩
  intro hdvd hlt
  show toDouble (toDouble ((loopAt sha256 data data.length).total_size : ℚ) / _) = _
  rw [h1]
  exact toDouble_div_exact _ _ (List.length_pos.mpr hne) hdvd hlt

/-- C28 on the single byte 5: one chunk of size 1, and an average of 1. -/
theorem chunkData_stats_witness :
    ([5] : List Byte) ≠ [] ∧
    (getLastStats (chunkDataFrom ⟨7, 7, 7, 7⟩ DeltaEngine.headDigest [5])).total_chunks = 1 ∧
    (getLastStats (chunkDataFrom ⟨7, 7, 7, 7⟩ DeltaEngine.headDigest [5])).avg_size
      = ((1 : Nat) : ℚ) / ((1 : Nat) : ℚ) := by
  have h := chunkData_stats ⟨7, 7, 7, 7⟩ DeltaEngine.headDigest [5] (by decide)
  exact ⟨by decide, h.2.1, h.2.2.2.2.2.2.2 ⟨1, rfl⟩ (by decide)⟩

end Chunker

namespace Chunker

open Hash

/-- Before the last iteration every chunk emitted holds at least
`kMinChunkSize` bytes, so that many bytes per chunk lie before `chunk_start`. -/
theorem count_inv (sha256 : List Byte → String) (data : List Byte) (n : Nat)
    (hn : n + 1 ≤ data.length) :
    kMinChunkSize * (loopAt sha256 data n).chunks.length
      ≤ (loopAt sha256 data n).chunk_start := by
  induction n with
  | zero => exact Nat.le_refl 0
  | succ n ih =>
    have ih' := ih (by omega)
    rw [chunks_succ, chunk_start_succ]
    by_cases hcut : cutAt sha256 data n = true
    · simp only [hcut, if_true, List.length_append, List.length_singleton]
      have hmin := cut_min_size sha256 data n hcut (by omega)
      have hcs := chunk_start_le sha256 data n
      rw [Nat.mul_add, Nat.mul_one]
      omega
    · simp only [hcut, Bool.false_eq_true, if_false]
      exact ih'

/-- The number of chunks: at least one, at most one per started block of
`kMinChunkSize` bytes. -/
theorem chunk_count (sha256 : List Byte → String) (data : List Byte) (h : data ≠ []) :
    1 ≤ (chunkData sha256 data).length ∧
    (chunkData sha256 data).length ≤ (data.length + 4095) / 4096 := by
  obtain ⟨n, hn⟩ : ∃ n, data.length = n + 1 := by
    cases data with
    | nil => exact absurd rfl h
    | cons b bs => exact ⟨bs.length, rfl⟩
  have hinv := count_inv sha256 data n (by omega)
  have hcs := chunk_start_le sha256 data n
  have hk : kMinChunkSize = 4096 := rfl
  rw [chunkData_eq, hn, chunks_succ, if_pos (cutAt_last sha256 data n hn),
    List.length_append, List.length_singleton]
  rw [hk] at hinv
  omega

/-- Every chunk but the last holds between `kMinChunkSize` and `kMaxChunkSize` bytes. -/
theorem inner_chunk_size (sha256 : List Byte → String) (data : List Byte) (k : Nat)
    (c : ChunkInfo) (hc : (chunkData sha256 data)[k]? = some c)
    (hk : k + 1 < (chunkData sha256 data).length) : 4096 ≤ c.size ∧ c.size ≤ 1048576 := by
  obtain ⟨d, hd⟩ : ∃ d, (chunkData sha256 data)[k + 1]? = some d :=
    ⟨_, List.getElem?_eq_getElem hk⟩
  have htile := chunk_offset_succ sha256 data k c d hc hd
  obtain ⟨j, hj, hcut, -, hoff, hle, hend, -, hmax⟩ :=
    mem_chunkData sha256 data c (List.getElem?_mem hc)
  obtain ⟨j', hj', -, -, -, hle', -, -, -⟩ :=
    mem_chunkData sha256 data d (List.getElem?_mem hd)
  have hmin := cut_min_size sha256 data j hcut (by omega)
  have hkmin : kMinChunkSize = 4096 := rfl
  have hkmax : kMaxChunkSize = 1048576 := rfl
  omega

/-- C25: on a non-empty byte sequence of length `n`, `chunkData` returns at
least one chunk and at most `⌈n / 4096⌉` chunks. On 262144 zero bytes it
returns between 1 and 64 chunks, and each chunk but the last holds between
4096 and 1048576 bytes. -/
theorem chunkData_count_bounds (sha256 : List Byte → String) (data : List Byte)
    (h : data ≠ []) :
    1 ≤ (chunkData sha256 data).length ∧
    (chunkData sha256 data).length ≤ (data.length + 4095) / 4096 ∧
    (data.length + 4095) / 4096 = ⌈(data.length : ℚ) / 4096⌉₊ ∧
    1 ≤ (chunkData sha256 (List.replicate 262144 0)).length ∧
    (chunkData sha256 (List.replicate 262144 0)).length ≤ 64 ∧
    (∀ k c, (chunkData sha256 (List.replicate 262144 0))[k]? = some c →
      k + 1 < (chunkData sha256 (List.replicate 262144 0)).length →
      4096 ≤ c.size ∧ c.size ≤ 1048576) := by
  have hz : List.replicate 262144 (0 : Byte) ≠ [] := by
    intro he
    have := congrArg List.length he
    rw [List.length_replicate] at this
    exact absurd this (by decide)
  have hzc := chunk_count sha256 (List.replicate 262144 0) hz
  rw [List.length_replicate] at hzc
  refine ⟨(chunk_count sha256 data h).1, (chunk_count sha256 data h).2, ?_, hzc.1, hzc.2,
    fun k c hc hk => inner_chunk_size sha256 _ k c hc hk⟩
  have hpos : 0 < data.length := List.length_pos.mpr h
  symm
  rw [Nat.ceil_eq_iff (by omega)]
  have hq : ((data.length : ℚ) / 4096) = ((data.length : ℚ)) / ((4096 : ℕ) : ℚ) := by norm_num
  constructor
  · rw [hq, lt_div_iff₀ (by norm_num)]
    have h1 : ((data.length + 4095) / 4096 - 1) * 4096 < data.length := by omega
    exact_mod_cast h1
  · rw [hq, div_le_iff₀ (by norm_num)]
    have h1 : data.length ≤ ((data.length + 4095) / 4096) * 4096 := by omega
    exact_mod_cast h1

/-- C25 on the single byte 5. -/
theorem chunkData_count_bounds_witness :
    ([5] : List Byte) ≠ [] ∧ 1 ≤ (chunkData DeltaEngine.headDigest [5]).length ∧
    (chunkData DeltaEngine.headDigest [5]).length ≤ ([5] : List Byte).length :=
  ⟨by decide, (chunkData_count_bounds DeltaEngine.headDigest [5] (by decide)).1,
    (chunkData_count_bounds DeltaEngine.headDigest [5] (by decide)).2.1⟩

end Chunker

/-! ## Arguments of `storeChunk` -/

namespace StorageManager

/-- Whether `storeChunk` succeeds, read off the state before the call. -/
theorem storeChunk_success (env : Env) (s : StorageManager) (c p : String) (i : Int)
    (data : List Byte) (hash : String) :
    (storeChunk env s c p i data hash).1
      = (((s.fs (getChunkPath s hash)).isSome || env.canWrite (getChunkPath s hash)) &&
          ((s.client_dbs_ c).isSome || env.dbOpens (getClientDBPath s c))) := by
  by_cases h : (s.fs (getChunkPath s hash)).isSome = true ∨
      env.canWrite (getChunkPath s hash) = true
  · obtain ⟨s1, -, h2, h3, -, -, heq⟩ := storeChunk_blob_present env s c p i data hash h
    have hb : ((s.fs (getChunkPath s hash)).isSome || env.canWrite (getChunkPath s hash))
        = true := by
      rcases h with h | h <;> simp [h]
    have hp : getClientDBPath s1 c = getClientDBPath s c := by
      unfold getClientDBPath getClientStoragePath
      rw [h2]
    rw [heq, hb, Bool.true_and]
    rcases getClientDB_cases env s1 c with ⟨db0, h0, h1⟩ | ⟨h0, hd, h1⟩ | ⟨h0, hd, h1⟩
    · rw [h1, ← h3, h0]
      rfl
    · rw [h1, ← h3, h0, ← hp, hd]
      rfl
    · rw [h1, ← h3, h0, ← hp, hd]
      rfl
  · have he : (s.fs (getChunkPath s hash)).isSome = false := by
      cases hb : (s.fs (getChunkPath s hash)).isSome
      · rfl
      · exact absurd (Or.inl hb) h
    have hw : env.canWrite (getChunkPath s hash) = false := by
      cases hb : env.canWrite (getChunkPath s hash)
      · rfl
      · exact absurd (Or.inr hb) h
    rw [storeChunk_blocked env s c p i data hash he hw, he, hw]
    rfl

/-- What a successful `storeChunk` leaves: a blob under the digest, and the
binding as the newest row of the client's table `chunks`. -/
theorem storeChunk_stored (env : Env) (s : StorageManager) (c p : String) (i : Int)
    (data : List Byte) (hash : String) (h : (storeChunk env s c p i data hash).1 = true) :
    hasChunk (storeChunk env s c p i data hash).2 hash = true ∧
    ∃ db, (storeChunk env s c p i data hash).2.client_dbs_ c = some db ∧
      db.chunks.getLast? = some { file_path := p, chunk_index := i, hash := hash, offset := 0,
                                  size := toInt32 data.length } := by
  obtain ⟨hroot, hfs, hdb⟩ := storeChunk_effect env s c p i data hash
  have hs := storeChunk_success env s c p i data hash
  rw [h] at hs
  have hs' := hs.symm
  rw [Bool.and_eq_true] at hs'
  refine ⟨?_, ?_⟩
  · unfold hasChunk
    rw [getChunkPath_root _ s hroot]
    rcases hfs with hfs | ⟨hnone, hfs⟩
    · rw [hfs]
      have h1 := hs'.1
      rw [Bool.or_eq_true] at h1
      rcases h1 with h1 | h1
      · exact h1
      · cases hx : (s.fs (getChunkPath s hash)).isSome
        · exfalso
          obtain ⟨s1, hp, -, -, -, hnew, heq⟩ :=
            storeChunk_blob_present env s c p i data hash (Or.inr h1)
          have hs1 := hnew hx
          have hfs2 : (storeChunk env s c p i data hash).2.fs = s1.fs := by
            rw [heq]
            rcases getClientDB_cases env s1 c with ⟨db0, h0, h1'⟩ | ⟨h0, hd, h1'⟩ | ⟨h0, hd, h1'⟩
            · rw [h1']; rfl
            · rw [h1']; rfl
            · rw [h1']
          rw [hfs2] at hfs
          have := congrFun hfs (getChunkPath s hash)
          rw [hs1] at this
          simp only [Function.update_same] at this
          rw [← this] at hx
          cases hx
        · rfl
    · rw [hfs]
      simp
  · rcases hdb with ⟨hf, -⟩ | ⟨db, -, -, hd⟩
    · rw [h] at hf
      cases hf
    · refine ⟨(db.insertChunk p i hash 0 (toInt32 data.length)).2, ?_, ?_⟩
      · rw [hd, Function.update_same]
      · simp [MetadataDB.insertChunk]

/-- C23 fails as stated: on a manager that has seen no client, `storeChunk`
with a digest string of two characters, and `storeChunk` with a digest of 64
characters and no data, both succeed, and each leaves a blob and a chunk
binding. -/
theorem storeChunk_accepts_invalid_arguments :
    "ab".length ≠ 64 ∧
    (storeChunk Env.permissive (fresh "r") "c" "f" 0 [1] "ab").1 = true ∧
    hasChunk (storeChunk Env.permissive (fresh "r") "c" "f" 0 [1] "ab").2 "ab" = true ∧
    bindingCount (storeChunk Env.permissive (fresh "r") "c" "f" 0 [1] "ab").2 "c" "f" = 1 ∧
    "e3b0c44298fc1c149afbf4c8996fb92427ae41e4649b934ca495991b7852b855".length = 64 ∧
    (storeChunk Env.permissive (fresh "r") "c" "f" 0 []
      "e3b0c44298fc1c149afbf4c8996fb92427ae41e4649b934ca495991b7852b855").1 = true ∧
    hasChunk (storeChunk Env.permissive (fresh "r") "c" "f" 0 []
      "e3b0c44298fc1c149afbf4c8996fb92427ae41e4649b934ca495991b7852b855").2
      "e3b0c44298fc1c149afbf4c8996fb92427ae41e4649b934ca495991b7852b855" = true ∧
    bindingCount (storeChunk Env.permissive (fresh "r") "c" "f" 0 []
      "e3b0c44298fc1c149afbf4c8996fb92427ae41e4649b934ca495991b7852b855").2 "c" "f" = 1 := by
  decide

/-- C23 as amended: `storeChunk` looks neither at the length of the digest
string nor at the size of the data. For a client id and a file path without
NUL and a digest of hex characters, of any length from 1 to 255, and for any
data, empty or not: when `storeChunk` returns success, a blob exists under
the digest afterwards and the binding is a row of the client's table
`chunks`. -/
theorem storeChunk_no_validation (env : Env) (s : StorageManager) (client_id filepath : String)
    (chunk_index : Int) (data : List Byte) (hash : String)
    (h : (storeChunk env s client_id filepath chunk_index data hash).1 = true) :
    nulFree client_id = true → nulFree filepath = true → hexDigest hash = true →
    hasChunk (storeChunk env s client_id filepath chunk_index data hash).2 hash = true ∧
    ∃ db, (storeChunk env s client_id filepath chunk_index data hash).2.client_dbs_ client_id
        = some db ∧
      ({ file_path := filepath, chunk_index := chunk_index, hash := hash, offset := 0,
         size := toInt32 data.length } : ChunkRow) ∈ db.chunks := by
  intro _ _ _
  obtain ⟨h1, db, h2, h3⟩ := storeChunk_stored env s client_id filepath chunk_index data hash h
  exact ⟨h1, db, h2, List.mem_of_mem_getLast? h3⟩

/-- C23 as amended, on the call that stores no data under the digest `ab`. -/
theorem storeChunk_no_validation_witness :
    (storeChunk Env.permissive (fresh "r") "c" "f" 0 [] "ab").1 = true ∧
    hasChunk (storeChunk Env.permissive (fresh "r") "c" "f" 0 [] "ab").2 "ab" = true ∧
    ∃ db, (storeChunk Env.permissive (fresh "r") "c" "f" 0 [] "ab").2.client_dbs_ "c"
        = some db ∧
      ({ file_path := "f", chunk_index := 0, hash := "ab", offset := 0,
         size := toInt32 ([] : List Byte).length } : ChunkRow) ∈ db.chunks :=
  ⟨by decide,
    storeChunk_no_validation Env.permissive (fresh "r") "c" "f" 0 [] "ab" (by decide)
      (by decide) (by decide) (by decide)⟩

end StorageManager

/-! ## Clients, staging paths and unreadable blobs -/

namespace StorageManager

/-- Distinct client ids have distinct database paths. -/
theorem getClientDBPath_inj (s : StorageManager) (a b : String)
    (h : getClientDBPath s a = getClientDBPath s b) : a = b := by
  have hd := congrArg String.data h
  rw [getClientDBPath_data, getClientDBPath_data] at hd
  have h2 := List.append_cancel_left (List.append_cancel_left hd)
  exact String.ext (List.append_cancel_right h2)

/-- The loop of `finalizeFile` writes the staging file and nothing else. -/
theorem writeChunks_frame (temp : String) (hashes : List String) (s : StorageManager) :
    (writeChunks temp s hashes).2.storage_root = s.storage_root ∧
    (writeChunks temp s hashes).2.client_dbs_ = s.client_dbs_ ∧
    (∀ q, q ≠ temp → (writeChunks temp s hashes).2.fs q = s.fs q) := by
  induction hashes generalizing s with
  | nil => exact ⟨rfl, rfl, fun _ _ => rfl⟩
  | cons hash rest ih =>
    rw [writeChunks]
    cases he : (getChunk s hash).isEmpty
    · simp only [Bool.false_eq_true, if_false]
      obtain ⟨h1, h2, h3⟩ := ih (appendFile s temp (getChunk s hash))
      refine ⟨h1, h2, ?_⟩
      intro q hq
      rw [h3 q hq]
      simp [appendFile, Function.update_noteq hq]
    · simp

/-- What `finalizeFile` can change: the staging file, and the database of its
client. When it fails, the databases stay as `getClientDB` left them. -/
theorem finalizeFile_frame (sha256 : List Byte → String) (env : Env) (s : StorageManager)
    (c p : String) (total : Int) :
    (finalizeFile sha256 env s c p total).2.storage_root = s.storage_root ∧
    (∀ q, q ≠ getTempFilePath s c p → (finalizeFile sha256 env s c p total).2.fs q = s.fs q) ∧
    (∀ c', c' ≠ c → (finalizeFile sha256 env s c p total).2.client_dbs_ c' = s.client_dbs_ c') ∧
    ((finalizeFile sha256 env s c p total).1 = false →
      (finalizeFile sha256 env s c p total).2.client_dbs_
        = (getClientDB env s c).2.client_dbs_) := by
  unfold finalizeFile
  cases hg : getClientDB env s c with
  | mk odb s1 =>
    cases odb with
    | none =>
      obtain ⟨hs1, -, -⟩ := getClientDB_none env s s1 c hg
      subst hs1
      exact ⟨rfl, fun _ _ => rfl, fun _ _ => rfl, fun _ => rfl⟩
    | some db =>
      obtain ⟨-, hfs, hroot, hother, -⟩ := getClientDB_some env s s1 c db hg
      have htemp : getTempFilePath s1 c p = getTempFilePath s c p := by
        unfold getTempFilePath getClientStoragePath
        rw [hroot]
      simp only
      split
      · exact ⟨hroot, fun _ _ => by rw [hfs], hother, fun _ => rfl⟩
      · split
        · exact ⟨hroot, fun _ _ => by rw [hfs], hother, fun _ => rfl⟩
        · obtain ⟨w1, w2, w3⟩ := writeChunks_frame (getTempFilePath s1 c p)
            (db.getFileChunks p)
            { s1 with fs := Function.update s1.fs (getTempFilePath s1 c p) (some []) }
          have hfs' : ∀ q, q ≠ getTempFilePath s c p →
              (writeChunks (getTempFilePath s1 c p)
                { s1 with fs := Function.update s1.fs (getTempFilePath s1 c p) (some []) }
                (db.getFileChunks p)).2.fs q = s.fs q := by
            intro q hq
            rw [w3 q (by rw [htemp]; exact hq)]
            show Function.update s1.fs (getTempFilePath s1 c p) (some []) q = s.fs q
            rw [htemp, Function.update_noteq hq, hfs]
          cases hw : writeChunks (getTempFilePath s1 c p)
              { s1 with fs := Function.update s1.fs (getTempFilePath s1 c p) (some []) }
              (db.getFileChunks p) with
          | mk ok s3 =>
            rw [hw] at w1 w2 hfs'
            simp only at w1 w2 hfs'
            cases ok with
            | false =>
              exact ⟨w1.trans hroot, hfs', fun c' hc => by rw [w2]; exact hother c' hc,
                fun _ => w2⟩
            | true =>
              refine ⟨w1.trans hroot, hfs', ?_, ?_⟩
              · intro c' hc
                show (setClientDB s3 c _).client_dbs_ c' = _
                rw [setClientDB_other s3 c c' _ hc, w2]
                exact hother c' hc
              · intro hf
                simp [MetadataDB.insertOrUpdateFile] at hf

/-- What `deleteFile` can change: the database of its client. -/
theorem deleteFile_frame (env : Env) (s : StorageManager) (c p : String) :
    (deleteFile env s c p).2.storage_root = s.storage_root ∧
    (deleteFile env s c p).2.fs = s.fs ∧
    (∀ c', c' ≠ c → (deleteFile env s c p).2.client_dbs_ c' = s.client_dbs_ c') := by
  unfold deleteFile
  cases hg : getClientDB env s c with
  | mk odb s1 =>
    cases odb with
    | none =>
      obtain ⟨hs1, -, -⟩ := getClientDB_none env s s1 c hg
      subst hs1
      exact ⟨rfl, rfl, fun _ _ => rfl⟩
    | some db =>
      obtain ⟨-, hfs, hroot, hother, -⟩ := getClientDB_some env s s1 c db hg
      refine ⟨hroot, hfs, ?_⟩
      intro c' hc
      show (setClientDB s1 c _).client_dbs_ c' = _
      rw [setClientDB_other s1 c c' _ hc]
      exact hother c' hc

/-- What `storeChunk` can change among the databases: that of its client. -/
theorem storeChunk_frame (env : Env) (s : StorageManager) (c p : String) (i : Int)
    (data : List Byte) (hash : String) (c' : String) (hc : c' ≠ c) :
    (storeChunk env s c p i data hash).2.client_dbs_ c' = s.client_dbs_ c' := by
  obtain ⟨-, -, hdb⟩ := storeChunk_effect env s c p i data hash
  rcases hdb with ⟨-, h⟩ | ⟨db, -, -, h⟩
  · rw [h]
  · rw [h, Function.update_noteq hc]

/-- What the read calls report for a client depends on the root and on the
entry of that client in `client_dbs_` only. -/
theorem reads_congr (env : Env) (a b : StorageManager) (c : String)
    (hroot : a.storage_root = b.storage_root) (hdb : a.client_dbs_ c = b.client_dbs_ c) :
    (listFiles env a c).1 = (listFiles env b c).1 ∧
    ∀ p, (getFileMetadata env a c p).1 = (getFileMetadata env b c p).1 := by
  have hp : getClientDBPath a c = getClientDBPath b c := by
    unfold getClientDBPath getClientStoragePath
    rw [hroot]
  have h1 : (getClientDB env a c).1 = (getClientDB env b c).1 := by
    unfold getClientDB
    rw [hdb, hp]
    cases b.client_dbs_ c with
    | some db => rfl
    | none =>
      simp only
      split <;> rfl
  have hl : ∀ x : StorageManager, (listFiles env x c).1
      = match (getClientDB env x c).1 with
        | none => []
        | some db => db.getAllFiles := by
    intro x
    unfold listFiles
    cases hg : getClientDB env x c with
    | mk odb s1 => cases odb <;> rfl
  have hm : ∀ (x : StorageManager) (p : String), (getFileMetadata env x c p).1
      = match (getClientDB env x c).1 with
        | none => none
        | some db => db.getFile p := by
    intro x p
    unfold getFileMetadata
    cases hg : getClientDB env x c with
    | mk odb s1 => cases odb <;> rfl
  refine ⟨?_, fun p => ?_⟩
  · rw [hl a, hl b, h1]
  · rw [hm a p, hm b p, h1]

/-- The database that `getClientDB` leaves for a client is the one that was
there, or an empty one. -/
theorem getClientDB_entry (env : Env) (s : StorageManager) (c c' : String) (db : MetadataDB)
    (h : (getClientDB env s c).2.client_dbs_ c' = some db) :
    s.client_dbs_ c' = some db ∨ db = MetadataDB.empty := by
  rcases getClientDB_cases env s c with ⟨db0, -, h1⟩ | ⟨-, -, h1⟩ | ⟨-, -, h1⟩
  · rw [h1] at h
    exact Or.inl h
  · rw [h1] at h
    by_cases hc : c' = c
    · subst hc
      rw [setClientDB_get] at h
      exact Or.inr (Option.some.inj h).symm
    · rw [setClientDB_other s c c' _ hc] at h
      exact Or.inl h
  · rw [h1] at h
    exact Or.inl h

/-- The rows of the table `chunks` of a client after one call: rows that were
there before, or the row that a `storeChunk` call binds. -/
theorem serve_rows (sha256 : List Byte → String) (env : Env) (s : StorageManager)
    (r : Request) (c : String) (db : MetadataDB)
    (h : (serve sha256 env s r).client_dbs_ c = some db) (row : ChunkRow)
    (hrow : row ∈ db.chunks) :
    (∃ db0, s.client_dbs_ c = some db0 ∧ row ∈ db0.chunks) ∨
    (∃ p i data hash, r = Request.storeChunk c p i data hash ∧ row.file_path = p ∧
      row.hash = hash) := by
  have hempty : ∀ d : MetadataDB, d = MetadataDB.empty → row ∈ d.chunks → False := by
    rintro d rfl hm
    cases hm
  have hget : ∀ (c0 : String) (d : MetadataDB),
      (getClientDB env s c0).2.client_dbs_ c = some d → row ∈ d.chunks →
      ∃ db0, s.client_dbs_ c = some db0 ∧ row ∈ db0.chunks := by
    intro c0 d hd hm
    rcases getClientDB_entry env s c0 c d hd with h1 | h1
    · exact ⟨d, h1, hm⟩
    · exact absurd hm (fun hm => hempty d h1 hm)
  cases r with
  | storeChunk c0 p i data hash =>
    obtain ⟨-, -, hdb⟩ := storeChunk_effect env s c0 p i data hash
    change (storeChunk env s c0 p i data hash).2.client_dbs_ c = some db at h
    rcases hdb with ⟨-, he⟩ | ⟨db1, hdb1, -, he⟩
    · rw [he] at h
      exact Or.inl ⟨db, h, hrow⟩
    · rw [he] at h
      by_cases hc : c = c0
      · subst hc
        rw [Function.update_same] at h
        have hdbeq := (Option.some.inj h).symm
        subst hdbeq
        simp only [MetadataDB.insertChunk, List.mem_append, List.mem_filter,
          List.mem_singleton] at hrow
        rcases hrow with ⟨hm, -⟩ | hm
        · rcases hdb1 with h1 | ⟨-, h1⟩
          · exact Or.inl ⟨db1, h1, hm⟩
          · exact absurd hm (fun hm => hempty db1 h1 hm)
        · exact Or.inr ⟨p, i, data, hash, rfl, by rw [hm], by rw [hm]⟩
      · rw [Function.update_noteq hc] at h
        exact Or.inl ⟨db, h, hrow⟩
  | finalizeFile c0 p total =>
    change (finalizeFile sha256 env s c0 p total).2.client_dbs_ c = some db at h
    left
    cases hf : (finalizeFile sha256 env s c0 p total).1 with
    | false =>
      rw [(finalizeFile_frame sha256 env s c0 p total).2.2.2 hf] at h
      exact hget c0 db h hrow
    | true =>
      by_cases hc : c = c0
      · subst hc
        obtain ⟨db1, h1, -, h3, -, -⟩ := finalizeFile_true sha256 env s
          (finalizeFile sha256 env s c p total).2 c p total (Prod.ext hf rfl)
        rw [h3] at h
        have hdbeq := (Option.some.inj h).symm
        subst hdbeq
        have hrow1 : row ∈ db1.chunks := hrow
        cases hg : getClientDB env s c with
        | mk odb s1 =>
          rw [hg] at h1
          simp only at h1
          subst h1
          obtain ⟨hs1, -, -, -, -⟩ := getClientDB_some env s s1 c db1 hg
          apply hget c db1 _ hrow1
          rw [hg]
          exact hs1
      · rw [(finalizeFile_frame sha256 env s c0 p total).2.2.1 c hc] at h
        exact ⟨db, h, hrow⟩
  | deleteFile c0 p =>
    change (deleteFile env s c0 p).2.client_dbs_ c = some db at h
    left
    by_cases hc : c = c0
    · subst hc
      unfold deleteFile at h
      cases hg : getClientDB env s c with
      | mk odb s1 =>
        rw [hg] at h
        cases odb with
        | none =>
          simp only at h
          obtain ⟨hs1, -, -⟩ := getClientDB_none env s s1 c hg
          subst hs1
          exact ⟨db, h, hrow⟩
        | some db1 =>
          simp only at h
          rw [setClientDB_get] at h
          have hdbeq := (Option.some.inj h).symm
          subst hdbeq
          have hrow1 : row ∈ db1.chunks := hrow
          obtain ⟨hs1, -, -, -, -⟩ := getClientDB_some env s s1 c db1 hg
          apply hget c db1 _ hrow1
          rw [hg]
          exact hs1
    · rw [(deleteFile_frame env s c0 p).2.2 c hc] at h
      exact ⟨db, h, hrow⟩
  | getFileMetadata c0 p =>
    left
    have h2 : (getFileMetadata env s c0 p).2 = (getClientDB env s c0).2 := by
      unfold getFileMetadata
      cases hg : getClientDB env s c0 with
      | mk odb s1 => cases odb <;> rfl
    change (getFileMetadata env s c0 p).2.client_dbs_ c = some db at h
    rw [h2] at h
    exact hget c0 db h hrow
  | listFiles c0 =>
    left
    have h2 : (listFiles env s c0).2 = (getClientDB env s c0).2 := by
      unfold listFiles
      cases hg : getClientDB env s c0 with
      | mk odb s1 => cases odb <;> rfl
    change (listFiles env s c0).2.client_dbs_ c = some db at h
    rw [h2] at h
    exact hget c0 db h hrow

/-- On a manager that well-formed calls built up from an empty disk, every
binding is one of a file name to a hex digest. -/
theorem serveAll_rows (sha256 : List Byte → String) (env : Env) (root : String)
    (history : List Request) (hw : ∀ r ∈ history, r.wellFormed = true) (c : String)
    (db : MetadataDB) (h : (serveAll sha256 env (fresh root) history).client_dbs_ c = some db)
    (row : ChunkRow) (hrow : row ∈ db.chunks) :
    fileName row.file_path = true ∧ hexDigest row.hash = true := by
  induction history using List.reverseRecOn generalizing c db row with
  | nil => cases h
  | append_singleton rs r ih =>
    have hstep : serveAll sha256 env (fresh root) (rs ++ [r])
        = serve sha256 env (serveAll sha256 env (fresh root) rs) r := by
      simp [serveAll, List.foldl_append]
    rw [hstep] at h
    rcases serve_rows sha256 env _ r c db h row hrow with ⟨db0, h0, hm⟩ | ⟨p, i, data, hash, hr, hp, hh⟩
    · exact ih (fun x hx => hw x (List.mem_append_left _ hx)) c db0 h0 row hm
    · have hwr := hw r (List.mem_append_right _ (List.mem_singleton_self r))
      rw [hr] at hwr
      simp only [Request.wellFormed, Bool.and_eq_true] at hwr
      rw [hp, hh]
      exact ⟨hwr.1.1.1.2, hwr.1.1.2⟩

/-- The digests that `getFileChunks` lists are digests of rows of the path. -/
theorem getFileChunks_mem (db : MetadataDB) (p hash : String)
    (h : hash ∈ db.getFileChunks p) :
    ∃ row ∈ db.chunks, row.file_path = p ∧ row.hash = hash := by
  unfold MetadataDB.getFileChunks at h
  obtain ⟨row, hr, rfl⟩ := List.mem_map.mp h
  have hm := (MetadataDB.fileChunkRows_perm db p).mem_iff.mp hr
  rw [List.mem_filter] at hm
  exact ⟨row, hm.1, by simpa using hm.2, rfl⟩

/-- C22 fails as stated: the client ids `c/` and `c` are different, and the
paths that `getClientDB` hands to their databases are different strings that
lead to one file, so that the two ids have one metadata store between them:
what `deleteFile` does for `c/` is done to the tables that `listFiles` reads
for `c`. -/
theorem client_ids_share_database :
    "c/" ≠ "c" ∧
    getClientDBPath (fresh "r") "c/" = "r/clients/c//metadata.db" ∧
    getClientDBPath (fresh "r") "c" = "r/clients/c/metadata.db" ∧
    resolvePath (getClientDBPath (fresh "r") "c/") = ["r", "clients", "c", "metadata.db"] ∧
    resolvePath (getClientDBPath (fresh "r") "c") = ["r", "clients", "c", "metadata.db"] ∧
    plainName "c/" = false := by
  decide

/-- C22 as amended: for client ids `A ≠ B` that are plain names, a file path
whose pieces are plain names, a hex digest and a root without NUL, the
databases of `A` and `B` are different files, and neither the staging file
nor the blob file that a call for `A` writes is the database file of `B`;
`storeChunk`, `finalizeFile` and `deleteFile` called for `A` leave the entry
of `B` in `client_dbs_` as it was, so that `listFiles(B)` and
`getFileMetadata(B, p)` return after the call what they returned before. -/
theorem client_isolation (sha256 : List Byte → String) (env : Env) (s : StorageManager)
    (A B : String) (hA : plainName A = true) (hB : plainName B = true) (hAB : A ≠ B)
    (filepath : String) (hp : normalPath filepath = true) (chunk_index : Int)
    (data : List Byte) (hash : String) (hh : hexDigest hash = true) (total_chunks : Int) :
    nulFree s.storage_root = true →
    resolvePath (getClientDBPath s A) ≠ resolvePath (getClientDBPath s B) ∧
    resolvePath (getTempFilePath s A filepath) ≠ resolvePath (getClientDBPath s B) ∧
    resolvePath (getChunkPath s hash) ≠ resolvePath (getClientDBPath s B) ∧
    ∀ s', (s' = (storeChunk env s A filepath chunk_index data hash).2 ∨
        s' = (finalizeFile sha256 env s A filepath total_chunks).2 ∨
        s' = (deleteFile env s A filepath).2) →
      s'.client_dbs_ B = s.client_dbs_ B ∧
      (listFiles env s' B).1 = (listFiles env s B).1 ∧
      ∀ p, (getFileMetadata env s' B p).1 = (getFileMetadata env s B p).1 := by
  intro _
  have hBA : B ≠ A := fun h => hAB h.symm
  refine ⟨fun h => hAB (resolvePath_db_inj s A B hA hB h),
    resolvePath_temp_ne_db s A B filepath hA hB hp (Or.inl hAB),
    resolvePath_chunk_ne_db s B hash hB hh, ?_⟩
  intro s' hs'
  have key : s'.storage_root = s.storage_root ∧ s'.client_dbs_ B = s.client_dbs_ B := by
    rcases hs' with rfl | rfl | rfl
    · exact ⟨(storeChunk_effect env s A filepath chunk_index data hash).1,
        storeChunk_frame env s A filepath chunk_index data hash B hBA⟩
    · exact ⟨(finalizeFile_frame sha256 env s A filepath total_chunks).1,
        (finalizeFile_frame sha256 env s A filepath total_chunks).2.2.1 B hBA⟩
    · exact ⟨(deleteFile_frame env s A filepath).1, (deleteFile_frame env s A filepath).2.2 B hBA⟩
  exact ⟨key.2, reads_congr env s' s B key.1 key.2⟩

/-- C22 as amended, on `demoFinalized`, where client `c` has the file `f`: a
`deleteFile` of `f` called for client `d` leaves the list of client `c` as it
was. -/
theorem client_isolation_witness :
    "d" ≠ "c" ∧
    (listFiles Env.permissive (deleteFile Env.permissive demoFinalized "d" "f").2 "c").1
      = (listFiles Env.permissive demoFinalized "c").1 ∧
    (listFiles Env.permissive demoFinalized "c").1.map FileRecord.path = ["f"] :=
  ⟨by decide,
    ((client_isolation DeltaEngine.headDigest Env.permissive demoFinalized "d" "c" (by decide)
      (by decide) (by decide) "f" (by decide) 0 [] "0" (by decide) 0 (by decide)).2.2.2 _
        (Or.inr (Or.inr rfl))).2.1,
    by decide⟩

/-- A missing blob and a blob of no bytes read back alike. -/
theorem getChunk_nil_iff (s : StorageManager) (hash : String) :
    getChunk s hash = [] ↔
      (s.fs (getChunkPath s hash) = none ∨ s.fs (getChunkPath s hash) = some []) := by
  unfold getChunk
  cases h : s.fs (getChunkPath s hash) with
  | none => simp
  | some d => simp

/-- The loop of `finalizeFile` stops with `false` when one of the digests
reads back empty. -/
theorem writeChunks_fails (temp : String) (hashes : List String) (s : StorageManager)
    (hdis : ∀ h, getChunkPath s h ≠ temp) (hash : String) (hmem : hash ∈ hashes)
    (hempty : getChunk s hash = []) : (writeChunks temp s hashes).1 = false := by
  induction hashes generalizing s with
  | nil => cases hmem
  | cons x rest ih =>
    rw [writeChunks]
    cases he : (getChunk s x).isEmpty
    · simp only [Bool.false_eq_true, if_false]
      have hx : hash ∈ rest := by
        rcases List.mem_cons.mp hmem with h | h
        · subst h
          rw [hempty] at he
          cases he
        · exact h
      have hroot : (appendFile s temp (getChunk s x)).storage_root = s.storage_root := rfl
      apply ih (appendFile s temp (getChunk s x)) _ hx
      · rw [← hempty]
        apply getChunk_congr _ _ hroot
        simp [appendFile, Function.update_noteq (hdis hash)]
      · intro h'
        rw [getChunkPath_root _ _ hroot]
        exact hdis h'
    · simp

/-- With a bound digest that reads back empty, `finalizeFile` fails and
leaves every database as it was. -/
theorem finalizeFile_fails_of_empty (sha256 : List Byte → String) (env : Env)
    (s : StorageManager) (c p : String) (total : Int) (db : MetadataDB) (hash : String)
    (hdb : s.client_dbs_ c = some db) (hmem : hash ∈ db.getFileChunks p)
    (hempty : getChunk s hash = []) :
    (finalizeFile sha256 env s c p total).1 = false ∧
    (finalizeFile sha256 env s c p total).2.client_dbs_ = s.client_dbs_ := by
  have hg : getClientDB env s c = (some db, s) := by
    unfold getClientDB
    rw [hdb]
  have hfalse : (finalizeFile sha256 env s c p total).1 = false := by
    unfold finalizeFile
    rw [hg]
    simp only
    split
    · rfl
    · split
      · rfl
      · have hw := writeChunks_fails (getTempFilePath s c p) (db.getFileChunks p)
          { s with fs := Function.update s.fs (getTempFilePath s c p) (some []) }
          (fun h => getChunkPath_ne_temp s h c p) hash hmem
          (by
            refine (getChunk_congr
              { s with fs := Function.update s.fs (getTempFilePath s c p) (some []) }
              s rfl hash ?_).trans hempty
            show Function.update s.fs (getTempFilePath s c p) (some []) _ = _
            rw [Function.update_noteq (getChunkPath_ne_temp s hash c p)])
        cases hx : writeChunks (getTempFilePath s c p)
            { s with fs := Function.update s.fs (getTempFilePath s c p) (some []) }
            (db.getFileChunks p) with
        | mk ok s3 =>
          rw [hx] at hw
          simp only at hw
          subst hw
          rfl
  refine ⟨hfalse, ?_⟩
  rw [(finalizeFile_frame sha256 env s c p total).2.2.2 hfalse, hg]

/-- No call overwrites a blob: a file at a chunk path keeps its content. -/
theorem serve_keeps_blob (sha256 : List Byte → String) (env : Env) (s : StorageManager)
    (r : Request) (hash : String) (d : List Byte) (h : s.fs (getChunkPath s hash) = some d) :
    (serve sha256 env s r).storage_root = s.storage_root ∧
    (serve sha256 env s r).fs (getChunkPath (serve sha256 env s r) hash) = some d := by
  have key : (serve sha256 env s r).storage_root = s.storage_root ∧
      (serve sha256 env s r).fs (getChunkPath s hash) = some d := by
    cases r with
    | storeChunk c p i data hash' =>
      obtain ⟨hroot, hfs, -⟩ := storeChunk_effect env s c p i data hash'
      refine ⟨hroot, ?_⟩
      show (storeChunk env s c p i data hash').2.fs _ = _
      rcases hfs with hfs | ⟨hnone, hfs⟩
      · rw [hfs, h]
      · rw [hfs]
        by_cases hp : getChunkPath s hash = getChunkPath s hash'
        · rw [hp, hnone] at h
          cases h
        · rw [Function.update_noteq hp, h]
    | finalizeFile c p total =>
      obtain ⟨hroot, hfs, -, -⟩ := finalizeFile_frame sha256 env s c p total
      refine ⟨hroot, ?_⟩
      show (finalizeFile sha256 env s c p total).2.fs _ = _
      rw [hfs _ (getChunkPath_ne_temp s hash c p), h]
    | deleteFile c p =>
      obtain ⟨hroot, hfs, -⟩ := deleteFile_frame env s c p
      refine ⟨hroot, ?_⟩
      show (deleteFile env s c p).2.fs _ = _
      rw [hfs, h]
    | getFileMetadata c p =>
      have h2 : (getFileMetadata env s c p).2 = (getClientDB env s c).2 := by
        unfold getFileMetadata
        cases hg : getClientDB env s c with
        | mk odb s1 => cases odb <;> rfl
      show (getFileMetadata env s c p).2.storage_root = _ ∧ (getFileMetadata env s c p).2.fs _ = _
      rw [h2]
      rcases getClientDB_cases env s c with ⟨db0, h0, h1⟩ | ⟨h0, hd, h1⟩ | ⟨h0, hd, h1⟩
      · rw [h1]
        exact ⟨rfl, h⟩
      · rw [h1]
        exact ⟨rfl, h⟩
      · rw [h1]
        exact ⟨rfl, h⟩
    | listFiles c =>
      have h2 : (listFiles env s c).2 = (getClientDB env s c).2 := by
        unfold listFiles
        cases hg : getClientDB env s c with
        | mk odb s1 => cases odb <;> rfl
      show (listFiles env s c).2.storage_root = _ ∧ (listFiles env s c).2.fs _ = _
      rw [h2]
      rcases getClientDB_cases env s c with ⟨db0, h0, h1⟩ | ⟨h0, hd, h1⟩ | ⟨h0, hd, h1⟩
      · rw [h1]
        exact ⟨rfl, h⟩
      · rw [h1]
        exact ⟨rfl, h⟩
      · rw [h1]
        exact ⟨rfl, h⟩
  exact ⟨key.1, by rw [getChunkPath_root _ s key.1]; exact key.2⟩

theorem serveAll_keeps_blob (sha256 : List Byte → String) (env : Env) (s : StorageManager)
    (rs : List Request) (hash : String) (d : List Byte)
    (h : s.fs (getChunkPath s hash) = some d) :
    (serveAll sha256 env s rs).fs (getChunkPath (serveAll sha256 env s rs) hash) = some d := by
  induction rs generalizing s with
  | nil => exact h
  | cons r rest ih =>
    show (serveAll sha256 env (serve sha256 env s r) rest).fs _ = _
    exact ih _ (serve_keeps_blob sha256 env s r hash d h).2

/-- What a successful `storeChunk` leaves on disk under a digest that had no blob. -/
theorem storeChunk_new_blob (env : Env) (s : StorageManager) (c p : String) (i : Int)
    (data : List Byte) (hash : String) (hnone : s.fs (getChunkPath s hash) = none)
    (hok : (storeChunk env s c p i data hash).1 = true) :
    (storeChunk env s c p i data hash).2.fs
      (getChunkPath (storeChunk env s c p i data hash).2 hash) = some data := by
  have hs := storeChunk_success env s c p i data hash
  rw [hok, hnone] at hs
  have hw : env.canWrite (getChunkPath s hash) = true := by
    cases hx : env.canWrite (getChunkPath s hash)
    · rw [hx] at hs
      simp at hs
    · rfl
  obtain ⟨s1, -, h2, -, -, hnew, heq⟩ :=
    storeChunk_blob_present env s c p i data hash (Or.inr hw)
  have hs1 := hnew (by rw [hnone]; rfl)
  have hfs2 : (storeChunk env s c p i data hash).2.fs = s1.fs ∧
      (storeChunk env s c p i data hash).2.storage_root = s.storage_root := by
    rw [heq]
    rcases getClientDB_cases env s1 c with ⟨db0, h0, h1⟩ | ⟨h0, hd, h1⟩ | ⟨h0, hd, h1⟩
    · rw [h1]
      exact ⟨rfl, h2⟩
    · rw [h1]
      exact ⟨rfl, h2⟩
    · rw [h1]
      exact ⟨rfl, h2⟩
  rw [getChunkPath_root _ s hfs2.2, hfs2.1, hs1]
  simp

/-- C30 fails as stated: `storeChunk` accepts empty data as chunk 0 of file
`f`, and a later `finalizeFile` of `f` succeeds once chunk 0 was stored again
with data (`demoRebound`); and `storeChunk` accepts empty data under a digest
whose blob exists and holds a byte, after which `finalizeFile` succeeds
(`demoShared`). -/
theorem finalizeFile_succeeds_after_empty_chunk :
    (storeChunk Env.permissive (fresh "r") "c" "f" 0 [] "0").1 = true ∧
    (storeChunk Env.permissive demoEmpty "c" "f" 0 [1] "1").1 = true ∧
    (finalizeFile DeltaEngine.headDigest Env.permissive demoRebound "c" "f" 1).1 = true ∧
    (storeChunk Env.permissive demoUploaded "c" "f" 1 [] "1").1 = true ∧
    (finalizeFile DeltaEngine.headDigest Env.permissive demoShared "c" "f" 2).1 = true := by
  decide

/-- C30 as amended, on a manager that well-formed calls built up from an
empty disk under a root without NUL, some of whose files may have been lost
since, and for calls with well-formed arguments. First part: a digest bound
to the path is a hex digest; when it has no blob or a blob of no bytes,
`getChunk` returns the empty vector for it, and `finalizeFile` fails,
whatever `total_chunks` is, and leaves every database, and so every file
record, as it was. Second part: when `storeChunk` accepted empty data under a
digest that had no blob, the blob under that digest reads back empty after
any later well-formed calls, and `finalizeFile` fails for every client and
path that then has a binding to that digest. -/
theorem finalizeFile_unreadable_blob (sha256 : List Byte → String) (env : Env)
    (root : String) (history : List Request) (s : StorageManager)
    (hhist : ∀ r ∈ history, r.wellFormed = true)
    (hdbs : s.client_dbs_ = (serveAll sha256 env (fresh root) history).client_dbs_) :
    nulFree root = true → s.storage_root = root →
    (∀ path, s.fs path = (serveAll sha256 env (fresh root) history).fs path ∨
      s.fs path = none) →
    (∀ (client_id filepath : String) (total_chunks : Int) (db : MetadataDB) (hash : String),
      (Request.finalizeFile client_id filepath total_chunks).wellFormed = true →
      s.client_dbs_ client_id = some db → hash ∈ db.getFileChunks filepath →
      (s.fs (getChunkPath s hash) = none ∨ s.fs (getChunkPath s hash) = some []) →
      hexDigest hash = true ∧
      getChunk s hash = [] ∧
      (finalizeFile sha256 env s client_id filepath total_chunks).1 = false ∧
      (finalizeFile sha256 env s client_id filepath total_chunks).2.client_dbs_
        = s.client_dbs_) ∧
    (∀ (client_id filepath : String) (chunk_index : Int) (hash : String)
        (later : List Request),
      (Request.storeChunk client_id filepath chunk_index [] hash).wellFormed = true →
      (∀ r ∈ later, r.wellFormed = true) →
      s.fs (getChunkPath s hash) = none →
      (storeChunk env s client_id filepath chunk_index [] hash).1 = true →
      getChunk
        (serveAll sha256 env (storeChunk env s client_id filepath chunk_index [] hash).2 later)
        hash = [] ∧
      ∀ (c p : String) (total_chunks : Int) (db : MetadataDB),
        (Request.finalizeFile c p total_chunks).wellFormed = true →
        (serveAll sha256 env (storeChunk env s client_id filepath chunk_index [] hash).2
          later).client_dbs_ c = some db →
        hash ∈ db.getFileChunks p →
        (finalizeFile sha256 env
          (serveAll sha256 env (storeChunk env s client_id filepath chunk_index [] hash).2
            later) c p total_chunks).1 = false ∧
        (finalizeFile sha256 env
          (serveAll sha256 env (storeChunk env s client_id filepath chunk_index [] hash).2
            later) c p total_chunks).2.client_dbs_
          = (serveAll sha256 env (storeChunk env s client_id filepath chunk_index [] hash).2
              later).client_dbs_) := by
  intro _ _ _
  refine ⟨?_, ?_⟩
  · intro c p total db hash _ hdb hmem hblob
    have hempty := (getChunk_nil_iff s hash).mpr hblob
    obtain ⟨row, hrow, -, hrh⟩ := getFileChunks_mem db p hash hmem
    have hdb0 : (serveAll sha256 env (fresh root) history).client_dbs_ c = some db := by
      rw [← hdbs]
      exact hdb
    have hhex := (serveAll_rows sha256 env root history hhist c db hdb0 row hrow).2
    rw [hrh] at hhex
    exact ⟨hhex, hempty,
      finalizeFile_fails_of_empty sha256 env s c p total db hash hdb hmem hempty⟩
  · intro c p i hash later _ _ hnone hok
    have hblob := serveAll_keeps_blob sha256 env _ later hash []
      (storeChunk_new_blob env s c p i [] hash hnone hok)
    have hempty := (getChunk_nil_iff _ hash).mpr (Or.inr hblob)
    exact ⟨hempty, fun c' p' total db _ hdb hmem =>
      finalizeFile_fails_of_empty sha256 env _ c' p' total db hash hdb hmem hempty⟩

/-- C30 as amended. On `demoEmpty`, which one `storeChunk` call built and
where chunk 0 of file `f` is bound to the digest `0`, stored with no data,
`finalizeFile` fails. On `demoLost`, where the blob of the digest bound to
chunk 0 of file `f` is missing, `finalizeFile` fails. On an empty disk, the
blob stored with no data reads back empty after a later `storeChunk` of other
data under the same digest. -/
theorem finalizeFile_unreadable_blob_witness :
    (finalizeFile DeltaEngine.headDigest Env.permissive demoEmpty "c" "f" 1).1 = false ∧
    (finalizeFile DeltaEngine.headDigest Env.permissive demoLost "c" "f" 1).1 = false ∧
    getChunk (serveAll DeltaEngine.headDigest Env.permissive demoEmpty
      [Request.storeChunk "c" "f" 0 [0] "0"]) "0" = [] :=
  ⟨((finalizeFile_unreadable_blob DeltaEngine.headDigest Env.permissive "r"
      [Request.storeChunk "c" "f" 0 [] "0"] demoEmpty (by decide) rfl (by decide) rfl
      (fun _ => Or.inl rfl)).1 "c" "f" 1
      { files := [], chunks := [⟨"f", 0, "0", 0, 0⟩] } "0" (by decide) (by decide) (by decide)
      (Or.inr (by decide))).2.2.1,
    ((finalizeFile_unreadable_blob DeltaEngine.headDigest Env.permissive "r"
      [Request.storeChunk "c" "f" 0 [1] "1"] demoLost (by decide) rfl (by decide) rfl
      (fun _ => Or.inr rfl)).1 "c" "f" 1
      { files := [], chunks := [⟨"f", 0, "1", 0, 1⟩] } "1" (by decide) (by decide) (by decide)
      (Or.inl rfl)).2.2.1,
    ((finalizeFile_unreadable_blob DeltaEngine.headDigest Env.permissive "r" [] (fresh "r")
      (by decide) rfl (by decide) rfl (fun _ => Or.inl rfl)).2 "c" "f" 0
      "0" [Request.storeChunk "c" "f" 0 [0] "0"] (by decide) (by decide) (by decide)
      (by decide)).1⟩

end StorageManager

end DropboxLite
